import Mathlib

/-!
# request-throttler: a verification development

A shallow embedding of the Go package `throttler` (`interface.go`, `pq.go`,
`main.go`) together with the `container/heap` functions it calls (`Init`, `Push`,
`Pop` and their loops `up` and `down`).

Modelling conventions

* `time.Time` is a reading of the monotonic clock in integer nanoseconds;
  `t.Before(u)` is `t < u`, `t.Sub(u)` is `t - u` and `Duration.Seconds()` is the
  exact rational `d / 10^9`.
* The `float64` balance is read in two ways.  `refillTokens`, `dispatch` and
  `processRequests` carry its arithmetic out exactly, in `ℚ`; this is the balance of
  the Go code up to the rounding of each operation, and for `WindowSeconds ≠ 0`
  only, as a rational has no infinity and no NaN.  `refillTokens64`, `dispatch64`,
  `tick64` and `runLimiter64` carry it out in IEEE 754 binary64 with infinities and
  NaN; they are used where the rounding or a division by zero decides a statement.
* Go `int` values that are only stored, compared and converted are `Int`;
  slice indices and lengths are `Nat`.
* A Go call that does not return normally (a run-time panic such as an index out
  of range) is `none`.  The two `container/heap` loops and the dispatch loop take
  a fuel argument; running out of fuel is `none` as well, and the theorems show
  that with the fuel their callers pass this never happens.
* Goroutines, channels and locks are sequentialised: the worker loop of
  `processRequests` is a step function over the stimuli of its `select`.
-/

set_option linter.dupNamespace false

namespace throttler

/-! ## interface.go -/

/-- The Go struct `RateLimit`. -/
structure RateLimit where
  RequestCount : Int
  WindowSeconds : Int
deriving DecidableEq, Repr

/-- The Go struct `Connection`. -/
structure Connection where
  Platform : String
  Connection : String
  Niceness : Int
  RateLimit : RateLimit
deriving DecidableEq, Repr

/-- The Go struct `requestItem`.  `function` and `doneCh` are the identities of the
closure and of the completion channel; a `*requestItem` is represented by the
record it points to. -/
structure requestItem where
  function : Nat
  niceness : Int
  timestamp : Int
  doneCh : Nat
  index : Int
deriving DecidableEq, Repr

/-- The Go type `priorityQueue`, a slice of `*requestItem`. -/
abbrev priorityQueue := List requestItem

/-- The Go struct `connectionRateLimiter`.  `requestCh` is the content of the
buffered intake channel, `quit` tells whether the quit channel has been closed,
`worker` whether the goroutine running `processRequests` is still in its loop.
`mu` has no counterpart: every step below runs as one critical section. -/
structure connectionRateLimiter where
  rateLimit : RateLimit
  tokens : ℚ
  lastRefill : Int
  queue : priorityQueue
  requestCh : List requestItem
  quit : Bool
  worker : Bool
deriving DecidableEq

/-- The Go struct `rateLimiterRegistry`: `limiters` maps a key to a pointer to a
limiter.  A pointer is the position of the limiter in the allocation list of
`Process`. -/
structure rateLimiterRegistry where
  limiters : List (String × Nat)
deriving DecidableEq, Repr

/-- The limiters allocated so far (`*connectionRateLimiter` is an index into
`objs`) and the package variable `globalRegistry`. -/
structure Process where
  objs : List connectionRateLimiter
  globalRegistry : rateLimiterRegistry
deriving DecidableEq

/-! ## pq.go -/

/-- The fields of a request that the queue never writes: everything but `index`. -/
def requestItem.payload (r : requestItem) : Nat × Int × Int × Nat :=
  (r.function, r.niceness, r.timestamp, r.doneCh)

/-- The body of `priorityQueue.Less` on the two records `pq[i]` and `pq[j]`. -/
def requestItem.less (a b : requestItem) : Bool :=
  if a.niceness ≠ b.niceness then decide (a.niceness < b.niceness)
  else decide (a.timestamp < b.timestamp)

/-- Go `func (pq priorityQueue) Len() int`. -/
def priorityQueue.Len (pq : priorityQueue) : Nat := pq.length

/-- Go `func (pq priorityQueue) Less(i, j int) bool`; `none` when an index is out
of range. -/
def priorityQueue.Less (pq : priorityQueue) (i j : Nat) : Option Bool :=
  match pq[i]?, pq[j]? with
  | some a, some b => some (requestItem.less a b)
  | _, _ => none

/-- Go `func (pq priorityQueue) Swap(i, j int)`: the two slots are exchanged and
each request gets the number of its new slot in `index`. -/
def priorityQueue.Swap (pq : priorityQueue) (i j : Nat) : Option priorityQueue :=
  match pq[i]?, pq[j]? with
  | some a, some b =>
    some ((pq.set i { b with index := (i : Int) }).set j { a with index := (j : Int) })
  | _, _ => none

/-- Go `func (pq *priorityQueue) Push(x interface{})`. -/
def priorityQueue.Push (pq : priorityQueue) (x : requestItem) : priorityQueue :=
  let n := pq.length
  pq ++ [{ x with index := (n : Int) }]

/-- Go `func (pq *priorityQueue) Pop() interface{}`; `old[n-1]` is out of range
on the empty slice. -/
def priorityQueue.Pop (pq : priorityQueue) : Option (requestItem × priorityQueue) :=
  let n := pq.length
  if n = 0 then none
  else
    match pq[n - 1]? with
    | some item => some ({ item with index := -1 }, pq.take (n - 1))
    | none => none

end throttler

/-! ## container/heap (Go standard library), specialised to `priorityQueue` -/

namespace heap

open throttler

/-- Go `func up(h Interface, j int)`.  In Go `(j - 1) / 2` truncates toward zero,
so it is `0` for `j = 0`, as is the natural-number expression. -/
def up : Nat → priorityQueue → Nat → Option priorityQueue
  | 0, _, _ => none
  | fuel + 1, h, j =>
    let i := (j - 1) / 2
    if i = j then some h
    else
      match priorityQueue.Less h j i with
      | none => none
      | some false => some h
      | some true =>
        match priorityQueue.Swap h i j with
        | none => none
        | some h1 => up fuel h1 i

/-- The child that `down` compares with its parent:
`j := j1; if j2 := j1 + 1; j2 < n && h.Less(j2, j1) { j = j2 }`. -/
def down.child (h : priorityQueue) (j1 n : Nat) : Option Nat :=
  let j2 := j1 + 1
  if j2 < n then
    match priorityQueue.Less h j2 j1 with
    | none => none
    | some true => some j2
    | some false => some j1
  else some j1

/-- Go `func down(h Interface, i0, n int) bool`, without the returned flag, which
neither `Push` nor `Pop` reads.  The test `j1 < 0` catches `int` overflow and is
never true of a natural number. -/
def down : Nat → priorityQueue → Nat → Nat → Option priorityQueue
  | 0, _, _, _ => none
  | fuel + 1, h, i, n =>
    let j1 := 2 * i + 1
    if j1 ≥ n then some h
    else
      match down.child h j1 n with
      | none => none
      | some j =>
        match priorityQueue.Less h j i with
        | none => none
        | some false => some h
        | some true =>
          match priorityQueue.Swap h i j with
          | none => none
          | some h1 => down fuel h1 j n

/-- Go `func Init(h Interface)`. -/
def Init (h : priorityQueue) : Option priorityQueue :=
  let n := priorityQueue.Len h
  (List.range (n / 2)).reverse.foldlM (fun q i => down (n + 1) q i n) h

/-- Go `func Push(h Interface, x any)`. -/
def Push (h : priorityQueue) (x : requestItem) : Option priorityQueue :=
  let h1 := priorityQueue.Push h x
  up (priorityQueue.Len h1) h1 (priorityQueue.Len h1 - 1)

/-- Go `func Pop(h Interface) any`.  On the empty queue `n` is `-1` and
`h.Swap(0, n)` indexes out of range. -/
def Pop (h : priorityQueue) : Option (requestItem × priorityQueue) :=
  match priorityQueue.Len h with
  | 0 => none
  | n + 1 =>
    match priorityQueue.Swap h 0 n with
    | none => none
    | some h1 =>
      match down (n + 1) h1 0 n with
      | none => none
      | some h2 => priorityQueue.Pop h2

end heap

namespace throttler

/-! ## main.go -/

/-- Go `Duration.Seconds()`: a duration in nanoseconds as a number of seconds. -/
def Seconds (d : Int) : ℚ := (d : ℚ) / 1000000000

/-- Go `func newRateLimiterRegistry() *rateLimiterRegistry`. -/
def newRateLimiterRegistry : rateLimiterRegistry := { limiters := [] }

/-- Go `func newConnectionRateLimiter(rateLimit RateLimit) *connectionRateLimiter`;
`now` is the value of `time.Now()`.  The worker goroutine is started. -/
def newConnectionRateLimiter (rateLimit : RateLimit) (now : Int) :
    Option connectionRateLimiter :=
  match heap.Init [] with
  | none => none
  | some q =>
    some { rateLimit := rateLimit
           tokens := (rateLimit.RequestCount : ℚ)
           lastRefill := now
           queue := q
           requestCh := []
           quit := false
           worker := true }

/-- Go `func (rl *connectionRateLimiter) refillTokens()`; `now` is the value of
`time.Now()`.  The arithmetic is exact: for `WindowSeconds ≠ 0` the balance is the
one of the Go code up to rounding; for `WindowSeconds = 0` the Go quotient is an
infinity or NaN and the code is `refillTokens64`. -/
def refillTokens (rl : connectionRateLimiter) (now : Int) : connectionRateLimiter :=
  let elapsed := Seconds (now - rl.lastRefill)
  if elapsed > 0 then
    let refillRate := (rl.rateLimit.RequestCount : ℚ) / (rl.rateLimit.WindowSeconds : ℚ)
    let tokensToAdd := elapsed * refillRate
    let tokens := rl.tokens + tokensToAdd
    let tokens := if tokens > (rl.rateLimit.RequestCount : ℚ)
      then (rl.rateLimit.RequestCount : ℚ) else tokens
    { rl with tokens := tokens, lastRefill := now }
  else rl

/-- The dispatch loop of the tick case of `processRequests`:
`for rl.tokens >= 1.0 && rl.queue.Len() > 0 { req := heap.Pop(..); rl.tokens--; go .. }`.
The requests handed to a goroutine are collected in dispatch order. -/
def dispatch : Nat → connectionRateLimiter → List requestItem →
    Option (connectionRateLimiter × List requestItem)
  | 0, _, _ => none
  | fuel + 1, rl, out =>
    if rl.tokens ≥ 1 ∧ priorityQueue.Len rl.queue > 0 then
      match heap.Pop rl.queue with
      | none => none
      | some (req, q) =>
        dispatch fuel { rl with queue := q, tokens := rl.tokens - 1 } (out ++ [req])
    else some (rl, out)

/-- The three cases of the `select` in `processRequests`. -/
inductive Stimulus where
  | request
  | tick (now : Int)
  | quit
deriving DecidableEq, Repr

/-- One iteration of the `for { select { .. } }` loop of Go
`func (rl *connectionRateLimiter) processRequests()`, returning the new state and
the requests dispatched.  `none` when the case cannot be taken (no request in the
channel, quit channel open, worker gone) or the body panics. -/
def processRequests (rl : connectionRateLimiter) :
    Stimulus → Option (connectionRateLimiter × List requestItem)
  | .request =>
    if rl.worker then
      match rl.requestCh with
      | [] => none
      | req :: rest =>
        match heap.Push rl.queue req with
        | none => none
        | some q => some ({ rl with requestCh := rest, queue := q }, [])
    else none
  | .tick now =>
    if rl.worker then
      dispatch (priorityQueue.Len rl.queue + 1) (refillTokens rl now) []
    else none
  | .quit =>
    if rl.worker ∧ rl.quit then some ({ rl with worker := false }, []) else none

/-- Go `func (rl *connectionRateLimiter) submit(fn func(), niceness int) chan struct{}`;
`now` is the value of `time.Now()`, `doneCh` the channel made by `make`.  `none`
while the send blocks on the full buffer of 100. -/
def submit (rl : connectionRateLimiter) (fn : Nat) (niceness : Int) (now : Int)
    (doneCh : Nat) : Option (connectionRateLimiter × Nat) :=
  let req : requestItem :=
    { function := fn, niceness := niceness, timestamp := now, doneCh := doneCh, index := 0 }
  if rl.requestCh.length < 100 then
    some ({ rl with requestCh := rl.requestCh ++ [req] }, doneCh)
  else none

/-- Go `func (rl *connectionRateLimiter) stop()`: closing a closed channel panics. -/
def stop (rl : connectionRateLimiter) : Option connectionRateLimiter :=
  if rl.quit then none else some { rl with quit := true }

/-- The key computed in the first line of `findOrCreateLimiter`. -/
def limiterKey (conn : Connection) : String :=
  conn.Platform ++ ":" ++ conn.Connection

/-- Go `func (r *rateLimiterRegistry) findOrCreateLimiter(conn Connection) *connectionRateLimiter`
on the registry of the process; `now` is the value of `time.Now()` read by the
constructor.  Returns the new process state and the limiter pointer. -/
def findOrCreateLimiter (p : Process) (conn : Connection) (now : Int) :
    Option (Process × Nat) :=
  let key := limiterKey conn
  match p.globalRegistry.limiters.lookup key with
  | some limiter => some (p, limiter)
  | none =>
    match newConnectionRateLimiter conn.RateLimit now with
    | none => none
    | some rl =>
      let limiter := p.objs.length
      some ({ objs := p.objs ++ [rl]
              globalRegistry := { limiters := (key, limiter) :: p.globalRegistry.limiters } },
            limiter)

/-- A step of the worker of the limiter behind pointer `ptr`. -/
def Process.worker (p : Process) (ptr : Nat) (s : Stimulus) :
    Option (Process × List requestItem) :=
  match p.objs[ptr]? with
  | none => none
  | some rl =>
    match processRequests rl s with
    | none => none
    | some (rl1, out) => some ({ p with objs := p.objs.set ptr rl1 }, out)

/-- A `submit` on the limiter behind pointer `ptr`. -/
def Process.submit (p : Process) (ptr : Nat) (fn : Nat) (niceness : Int) (now : Int)
    (doneCh : Nat) : Option (Process × Nat) :=
  match p.objs[ptr]? with
  | none => none
  | some rl =>
    match throttler.submit rl fn niceness now doneCh with
    | none => none
    | some (rl1, d) => some ({ p with objs := p.objs.set ptr rl1 }, d)

/-- The process at start-up: `var globalRegistry = newRateLimiterRegistry()`. -/
def Process.start : Process := { objs := [], globalRegistry := newRateLimiterRegistry }

/-! ### Throttle -/

/-- Where one request made by the function returned by `Throttle` stands: sent by
`submit`, popped by the tick case, its closure finished, its `doneCh` closed. -/
inductive Phase where
  | queued
  | dispatched
  | ran
  | closed
deriving DecidableEq, Repr

/-- The state of one call `Throttle(conn, fn)(arg)`: the captured variables
`result` and `err` (`none` is `nil`), the phase of its request, and the pair the
call has returned, if it has. -/
structure CallState (U E : Type) where
  result : U
  err : Option E
  phase : Phase
  returned : Option (U × Option E)

/-- What can happen to one call: the worker pops its request, the goroutine runs
`r.function()`, the goroutine runs `close(r.doneCh)`, the caller gets past
`<-doneCh` and returns. -/
inductive CallEvent where
  | dispatch
  | runFunction
  | closeDone
  | receiveDone
deriving DecidableEq, Repr

/-- The call right after `submit`: `var result U; var err error` hold the zero
value `zero` and `nil`. -/
def Throttle.init {U E : Type} (zero : U) : CallState U E :=
  { result := zero, err := none, phase := .queued, returned := none }

/-- One event of a call of Go `func Throttle[T any, U any](connection Connection,
fn func(arg T) (U, error)) func(arg T) (U, error)`; `none` when the event cannot
happen in this state. -/
def Throttle.step {T U E : Type} (fn : T → U × Option E) (arg : T)
    (s : CallState U E) : CallEvent → Option (CallState U E)
  | .dispatch =>
    if s.phase = .queued then some { s with phase := .dispatched } else none
  | .runFunction =>
    if s.phase = .dispatched then
      some { s with result := (fn arg).1, err := (fn arg).2, phase := .ran }
    else none
  | .closeDone =>
    if s.phase = .ran then some { s with phase := .closed } else none
  | .receiveDone =>
    if s.phase = .closed ∧ s.returned.isNone then
      some { s with returned := some (s.result, s.err) }
    else none

/-- A schedule of events applied to a call. -/
def Throttle.run {T U E : Type} (fn : T → U × Option E) (arg : T) :
    CallState U E → List CallEvent → Option (CallState U E)
  | s, [] => some s
  | s, e :: es =>
    match Throttle.step fn arg s e with
    | none => none
    | some s1 => Throttle.run fn arg s1 es

end throttler

/-! # Invariants, reachable states and sample states -/

namespace throttler

/-! ## The order of the queue and the heap invariant -/

/-- The strict order that `priorityQueue.Less` puts on (niceness, timestamp). -/
def klt (a b : Int × Int) : Prop := a.1 < b.1 ∨ (a.1 = b.1 ∧ a.2 < b.2)

/-- The pair a request is ordered by. -/
def requestItem.key (r : requestItem) : Int × Int := (r.niceness, r.timestamp)

/-- The key in slot `k` of the queue (a dummy outside the queue). -/
def keyD (h : priorityQueue) (k : Nat) : Int × Int :=
  match h[k]? with
  | some r => r.key
  | none => (0, 0)

/-- The payloads of the queued requests, slot by slot. -/
def payloads (h : List requestItem) : List (Nat × Int × Int × Nat) :=
  h.map requestItem.payload

/-- No slot below `n` is `Less` than its parent slot. -/
def IsHeapUpTo (h : priorityQueue) (n : Nat) : Prop :=
  ∀ k, 0 < k → k < n → ¬ klt (keyD h k) (keyD h ((k - 1) / 2))

/-- The binary-heap order of `container/heap`. -/
def IsHeap (h : priorityQueue) : Prop := IsHeapUpTo h h.length

/-- The loop invariant of `heap.up` at slot `j`. -/
def UpInv (h : priorityQueue) (j : Nat) : Prop :=
  (∀ k, 0 < k → k < h.length → k ≠ j → ¬ klt (keyD h k) (keyD h ((k - 1) / 2))) ∧
  (∀ k, 0 < k → k < h.length → (k - 1) / 2 = j → 0 < j →
    ¬ klt (keyD h k) (keyD h ((j - 1) / 2)))

/-- The loop invariant of `heap.down` at slot `i` with bound `n`. -/
def DownInv (h : priorityQueue) (i n : Nat) : Prop :=
  (∀ k, 0 < k → k < n → (k - 1) / 2 ≠ i → ¬ klt (keyD h k) (keyD h ((k - 1) / 2))) ∧
  (∀ k, 0 < k → k < n → (k - 1) / 2 = i → 0 < i →
    ¬ klt (keyD h k) (keyD h ((i - 1) / 2)))


/-- The queue states that `heap.Push` and `heap.Pop` produce from the empty queue. -/
inductive Reached : priorityQueue → Prop where
  | empty : Reached []
  | push (h : priorityQueue) (x : requestItem) (h1 : priorityQueue) :
      Reached h → heap.Push h x = some h1 → Reached h1
  | pop (h : priorityQueue) (r : requestItem) (h1 : priorityQueue) :
      Reached h → heap.Pop h = some (r, h1) → Reached h1

/-- A call on the queue: `heap.Push(&q, x)` or `heap.Pop(&q)`. -/
inductive QueueOp where
  | push (x : requestItem)
  | pop
deriving DecidableEq, Repr

/-- The requests pushed by a sequence of calls. -/
def QueueOp.pushed : List QueueOp → List requestItem
  | [] => []
  | .push x :: ops => x :: QueueOp.pushed ops
  | .pop :: ops => QueueOp.pushed ops

/-- Run a sequence of calls on a queue, collecting the requests returned by the
pops; `none` if a `heap.Pop` hits the empty queue. -/
def QueueOp.run : priorityQueue → List QueueOp → Option (priorityQueue × List requestItem)
  | h, [] => some (h, [])
  | h, .push x :: ops =>
    match heap.Push h x with
    | none => none
    | some h1 => QueueOp.run h1 ops
  | h, .pop :: ops =>
    match heap.Pop h with
    | none => none
    | some (r, h1) =>
      match QueueOp.run h1 ops with
      | none => none
      | some (h2, rs) => some (h2, r :: rs)


/-- The limiter states that can be observed: after construction with a rate limit
of positive `RequestCount` and `WindowSeconds`, after a `refillTokens` call, after
one iteration of the dispatch loop, after a whole iteration of the worker loop,
after a `submit` and after a `stop`. -/
inductive Reachable : connectionRateLimiter → Prop where
  | init (rateLimit : RateLimit) (now : Int) (rl : connectionRateLimiter) :
      0 < rateLimit.RequestCount → 0 < rateLimit.WindowSeconds →
      newConnectionRateLimiter rateLimit now = some rl → Reachable rl
  | refill (rl : connectionRateLimiter) (now : Int) :
      Reachable rl → Reachable (refillTokens rl now)
  | pop (rl : connectionRateLimiter) (req : requestItem) (q : priorityQueue) :
      Reachable rl → rl.tokens ≥ 1 → priorityQueue.Len rl.queue > 0 →
      heap.Pop rl.queue = some (req, q) →
      Reachable { rl with queue := q, tokens := rl.tokens - 1 }
  | worker (rl : connectionRateLimiter) (s : Stimulus) (rl1 : connectionRateLimiter)
      (out : List requestItem) :
      Reachable rl → processRequests rl s = some (rl1, out) → Reachable rl1
  | submit (rl : connectionRateLimiter) (fn : Nat) (niceness now : Int) (doneCh : Nat)
      (rl1 : connectionRateLimiter) (d : Nat) :
      Reachable rl → submit rl fn niceness now doneCh = some (rl1, d) → Reachable rl1
  | stop (rl rl1 : connectionRateLimiter) :
      Reachable rl → stop rl = some rl1 → Reachable rl1

/-- The balance that the refill contract words as
`tokens + elapsed * requestCount / windowSeconds` clamped to `[0, requestCount]`. -/
def clampedBalance (rl : connectionRateLimiter) (now : Int) : ℚ :=
  max 0 (min (rl.rateLimit.RequestCount : ℚ)
    (rl.tokens + Seconds (now - rl.lastRefill) * (rl.rateLimit.RequestCount : ℚ)
      / (rl.rateLimit.WindowSeconds : ℚ)))

/-- The number of requests dispatched by the ticks whose time lies in `[a, b]` when
the worker goes through the given stimuli; `none` if a step cannot be taken. -/
def dispatchedBetween (a b : Int) : connectionRateLimiter → List Stimulus → Option Nat
  | _, [] => some 0
  | rl, s :: ss =>
    match processRequests rl s with
    | none => none
    | some (rl1, out) =>
      match dispatchedBetween a b rl1 ss with
      | none => none
      | some k =>
        match s with
        | .tick now => if a ≤ now ∧ now ≤ b then some (out.length + k) else some k
        | _ => some k

/-- A limiter with `RequestCount = 2`, `WindowSeconds = 1` constructed at time 0,
after three `submit` calls at 1 ms, 2 ms and 3 ms. -/
def burstLimiter : connectionRateLimiter :=
  { rateLimit := { RequestCount := 2, WindowSeconds := 1 }
    tokens := 2
    lastRefill := 0
    queue := []
    requestCh := [{ function := 1, niceness := 0, timestamp := 1000000, doneCh := 1, index := 0 },
                  { function := 2, niceness := 0, timestamp := 2000000, doneCh := 2, index := 0 },
                  { function := 3, niceness := 0, timestamp := 3000000, doneCh := 3, index := 0 }]
    quit := false
    worker := true }

/-- Three arrivals, then 51 ticks 10 ms apart, at 10 ms, 20 ms, .., 510 ms. -/
def burstStimuli : List Stimulus :=
  [.request, .request, .request] ++
    (List.range 51).map (fun k => Stimulus.tick (10000000 * ((k : Int) + 1)))

/-- The invariant behind the capacity bound. -/
def TokensOk (rl : connectionRateLimiter) : Prop :=
  0 < rl.rateLimit.RequestCount ∧ 0 < rl.rateLimit.WindowSeconds ∧
    0 ≤ rl.tokens ∧ rl.tokens ≤ (rl.rateLimit.RequestCount : ℚ)


/-- What holds of a call in every state: once the closure has run, the captured
variables hold the pair returned by `fn(arg)`; a returned pair was read from the
captured variables after `doneCh` was closed. -/
def CallInv {T U E : Type} (fn : T → U × Option E) (arg : T) (s : CallState U E) : Prop :=
  ((s.phase = .ran ∨ s.phase = .closed) → (s.result, s.err) = fn arg) ∧
  (∀ v, s.returned = some v → s.phase = .closed ∧ v = fn arg)


/-- A `stop` on the limiter behind pointer `ptr`. -/
def Process.stop (p : Process) (ptr : Nat) : Option Process :=
  match p.objs[ptr]? with
  | none => none
  | some rl =>
    match throttler.stop rl with
    | none => none
    | some rl1 => some { p with objs := p.objs.set ptr rl1 }

/-- What the goroutines of the process can do to the registry and the limiters. -/
inductive Process.Op where
  | findOrCreate (conn : Connection) (now : Int)
  | worker (ptr : Nat) (s : Stimulus)
  | submit (ptr : Nat) (fn : Nat) (niceness : Int) (now : Int) (doneCh : Nat)
  | stop (ptr : Nat)
deriving DecidableEq, Repr

/-- The effect of one operation on the process. -/
def Process.apply (p : Process) : Process.Op → Option Process
  | .findOrCreate conn now => (findOrCreateLimiter p conn now).map Prod.fst
  | .worker ptr s => (Process.worker p ptr s).map Prod.fst
  | .submit ptr fn niceness now doneCh =>
    (Process.submit p ptr fn niceness now doneCh).map Prod.fst
  | .stop ptr => Process.stop p ptr

/-- A sequence of operations; `none` if one of them cannot be carried out. -/
def Process.run : Process → List Process.Op → Option Process
  | p, [] => some p
  | p, op :: ops =>
    match Process.apply p op with
    | none => none
    | some p1 => Process.run p1 ops

/-- The process states that arise from start-up. -/
def Process.Reachable (p : Process) : Prop :=
  ∃ ops, Process.run Process.start ops = some p

/-- Every registered pointer points to an allocated limiter, and no pointer is
registered under two keys. -/
def Process.WF (p : Process) : Prop :=
  (∀ kp ∈ p.globalRegistry.limiters, kp.2 < p.objs.length) ∧
  (p.globalRegistry.limiters.map Prod.snd).Nodup

/-- What a later state `p1` keeps of `p`: the registered keys and their pointers,
and the rate limit of every allocated limiter. -/
def Process.Keeps (p p1 : Process) : Prop :=
  (∀ (k : String) (l : Nat), p.globalRegistry.limiters.lookup k = some l →
    p1.globalRegistry.limiters.lookup k = some l) ∧
  (∀ (l : Nat) (rl : connectionRateLimiter), p.objs[l]? = some rl →
    ∃ rl1 : connectionRateLimiter, p1.objs[l]? = some rl1 ∧ rl1.rateLimit = rl.rateLimit)

/-- Two connections with different (platform, connectionId) pairs and one key. -/
def colonConnA : Connection :=
  { Platform := "a", Connection := ":b", Niceness := 0,
    RateLimit := { RequestCount := 1, WindowSeconds := 1 } }

/-- See `colonConnA`. -/
def colonConnB : Connection :=
  { Platform := "a:", Connection := "b", Niceness := 0,
    RateLimit := { RequestCount := 1, WindowSeconds := 1 } }


/-! ## Sample states -/

/-- A request of niceness 10 submitted at 1 ms. -/
def lowA : requestItem :=
  { function := 1, niceness := 10, timestamp := 1000000, doneCh := 1, index := 0 }

/-- A request of niceness 10 submitted at 2 ms. -/
def lowB : requestItem :=
  { function := 2, niceness := 10, timestamp := 2000000, doneCh := 2, index := 0 }

/-- A request of niceness 0 submitted at 3 ms. -/
def high : requestItem :=
  { function := 3, niceness := 0, timestamp := 3000000, doneCh := 3, index := 0 }

/-- The queue after `heap.Push` of `lowA`, `lowB` and `high`, in this order. -/
def demoQueue : priorityQueue :=
  [{ high with index := 0 }, { lowB with index := 1 }, { lowA with index := 2 }]

/-- The limiter built by `newConnectionRateLimiter` for `RequestCount = 2`,
`WindowSeconds = 1` at time 0. -/
def freshLimiter : connectionRateLimiter :=
  { rateLimit := { RequestCount := 2, WindowSeconds := 1 }
    tokens := 2
    lastRefill := 0
    queue := []
    requestCh := []
    quit := false
    worker := true }

/-- The limiter `freshLimiter` with `demoQueue` as its queue. -/
def demoLimiter : connectionRateLimiter := { freshLimiter with queue := demoQueue }

/-- The first connection of `TestMultipleConnections`. -/
def conn1 : Connection :=
  { Platform := "test", Connection := "conn1", Niceness := 1,
    RateLimit := { RequestCount := 3, WindowSeconds := 1 } }

/-- The second connection of `TestMultipleConnections`. -/
def conn2 : Connection :=
  { Platform := "test", Connection := "conn2", Niceness := 1,
    RateLimit := { RequestCount := 3, WindowSeconds := 1 } }

/-- The process `twoLimiters` after a tick of the worker of its second limiter at
10 ms. -/
def twoLimitersTicked : Process :=
  { objs := [{ rateLimit := { RequestCount := 3, WindowSeconds := 1 }, tokens := 3,
               lastRefill := 0, queue := [], requestCh := [], quit := false,
               worker := true },
             { rateLimit := { RequestCount := 3, WindowSeconds := 1 }, tokens := 3,
               lastRefill := 10000000, queue := [], requestCh := [], quit := false,
               worker := true }]
    globalRegistry := { limiters := [("test:conn2", 1), ("test:conn1", 0)] } }

/-- The key of `conn1` with another rate limit. -/
def conn1Other : Connection :=
  { Platform := "test", Connection := "conn1", Niceness := 1,
    RateLimit := { RequestCount := 100, WindowSeconds := 1 } }

/-- The process after `findOrCreateLimiter` for `conn1` and for `conn2` at time 0. -/
def twoLimiters : Process :=
  { objs := [{ rateLimit := { RequestCount := 3, WindowSeconds := 1 }, tokens := 3,
               lastRefill := 0, queue := [], requestCh := [], quit := false,
               worker := true },
             { rateLimit := { RequestCount := 3, WindowSeconds := 1 }, tokens := 3,
               lastRefill := 0, queue := [], requestCh := [], quit := false,
               worker := true }]
    globalRegistry := { limiters := [("test:conn2", 1), ("test:conn1", 0)] } }


/-! ## Runs of one limiter -/

/-- What can happen to one limiter: a caller runs `submit`, the worker takes a case
of its `select`, somebody calls `stop`. -/
inductive LimiterEvent where
  | submit (fn : Nat) (niceness : Int) (now : Int) (doneCh : Nat)
  | worker (s : Stimulus)
  | stop
deriving DecidableEq, Repr

/-- The effect of one event: the new state and the requests handed to a goroutine. -/
def LimiterEvent.apply (rl : connectionRateLimiter) :
    LimiterEvent → Option (connectionRateLimiter × List requestItem)
  | .submit fn niceness now doneCh =>
    match throttler.submit rl fn niceness now doneCh with
    | none => none
    | some (rl1, _) => some (rl1, [])
  | .worker s => processRequests rl s
  | .stop =>
    match throttler.stop rl with
    | none => none
    | some rl1 => some (rl1, [])

/-- A sequence of events, with the requests dispatched along it in dispatch order;
`none` if one of the events cannot happen. -/
def runLimiter : connectionRateLimiter → List LimiterEvent →
    Option (connectionRateLimiter × List requestItem)
  | rl, [] => some (rl, [])
  | rl, e :: es =>
    match LimiterEvent.apply rl e with
    | none => none
    | some (rl1, out) =>
      match runLimiter rl1 es with
      | none => none
      | some (rl2, outs) => some (rl2, out ++ outs)

/-- The requests built by the `submit` calls of a sequence of events. -/
def LimiterEvent.submitted : List LimiterEvent → List requestItem
  | [] => []
  | .submit fn niceness now doneCh :: es =>
    { function := fn, niceness := niceness, timestamp := now, doneCh := doneCh, index := 0 }
      :: LimiterEvent.submitted es
  | .worker _ :: es => LimiterEvent.submitted es
  | .stop :: es => LimiterEvent.submitted es

/-- The refill rate in tokens per second, `requestCount / windowSeconds`. -/
def refillRate (rl : connectionRateLimiter) : ℚ :=
  (rl.rateLimit.RequestCount : ℚ) / (rl.rateLimit.WindowSeconds : ℚ)


/-- The requests of a list as a multiset, each taken with all its fields but the
heap index. -/
def bag (l : List requestItem) : Multiset (Nat × Int × Int × Nat) :=
  Multiset.ofList (payloads l)

/-- How far a call has come: 0 queued, 1 dispatched, 2 closure run, 3 `doneCh`
closed. -/
def Phase.rank : Phase → Nat
  | .queued => 0
  | .dispatched => 1
  | .ran => 2
  | .closed => 3


/-- The (niceness, timestamp) pair inside a payload. -/
def payloadKey (p : Nat × Int × Int × Nat) : Int × Int := (p.2.1, p.2.2.1)

/-- A request of niceness 0 submitted at 5 ns. -/
def tieA : requestItem :=
  { function := 1, niceness := 0, timestamp := 5, doneCh := 1, index := 0 }

/-- Another request of niceness 0 with the timestamp of `tieA`. -/
def tieB : requestItem :=
  { function := 2, niceness := 0, timestamp := 5, doneCh := 2, index := 0 }

/-- A third request of niceness 0 with the timestamp of `tieA`. -/
def tieC : requestItem :=
  { function := 3, niceness := 0, timestamp := 5, doneCh := 3, index := 0 }


/-- The three `submit` calls and the three arrivals that turn `freshLimiter` into
`demoLimiter`. -/
def loadEvents : List LimiterEvent :=
  [.submit 1 10 1000000 1, .submit 2 10 2000000 2, .submit 3 0 3000000 3,
   .worker .request, .worker .request, .worker .request]

/-- The limiter `demoLimiter` after its tick at 10 ms. -/
def demoAfterTick : connectionRateLimiter :=
  { freshLimiter with
    tokens := 0, lastRefill := 10000000, queue := [{ lowB with index := 0 }] }

/-- The limiter `demoAfterTick` after a tick at 520 ms. -/
def demoAfterRun : connectionRateLimiter :=
  { freshLimiter with tokens := 1 / 50, lastRefill := 520000000, queue := [] }

/-- The queue after `heap.Push` of `high`, `lowA` and `lowB`, in this order. -/
def otherQueue : priorityQueue :=
  [{ high with index := 0 }, { lowA with index := 1 }, { lowB with index := 2 }]

/-- Ten requests of niceness 0 pushed in the order of their timestamps. -/
def tenQueue : priorityQueue :=
  (List.range 10).map (fun k =>
    { function := k, niceness := 0, timestamp := (k : Int), doneCh := k, index := (k : Int) })

/-- A limiter for 5 requests per second constructed at time 0, with ten requests
queued before its first tick. -/
def fullLimiter : connectionRateLimiter :=
  { rateLimit := { RequestCount := 5, WindowSeconds := 1 }
    tokens := 5
    lastRefill := 0
    queue := tenQueue
    requestCh := []
    quit := false
    worker := true }

/-- The limiter `fullLimiter` with `WindowSeconds = -1`. -/
def negativeWindowLimiter : connectionRateLimiter :=
  { fullLimiter with rateLimit := { RequestCount := 5, WindowSeconds := -1 } }

/-- Events within 0.2 s of a first tick at 10 ms: a tick at 100 ms, a `submit` and
its arrival, a tick at 200 ms. -/
def quietEvents : List LimiterEvent :=
  [.worker (.tick 100000000), .submit 11 0 150000000 11, .worker .request,
   .worker (.tick 200000000)]


/-! ## float64

The balance `tokens` is a Go `float64`.  `refillTokens` and `dispatch` above read
its arithmetic exactly, in `ℚ`: they give the balance of the Go code up to the
rounding of each operation, and only for `WindowSeconds ≠ 0`, since a rational has
no infinity and no NaN.  The definitions of this section carry the same statements
out in IEEE 754 binary64, each operation rounded on its own to nearest, ties to
even (where a compiler fuses the product and the sum of `refillTokens`, that sum is
rounded once).  Zero has one sign here: the divisors of the code are a converted
`int` and the constant `1e9`, never a negative zero, and no other operation of the
code tells the two zeros apart. -/

/-- A `float64` value: a finite number, an infinity, or NaN. -/
inductive F64 where
  | fin (q : ℚ)
  | inf (negative : Bool)
  | nan
deriving DecidableEq

/-- The loop of `floorLog2`. -/
def floorLog2.loop : Nat → Nat → Nat
  | 0, _ => 0
  | fuel + 1, n => if 2 ≤ n then floorLog2.loop fuel (n / 2) + 1 else 0

/-- The largest `k` with `2^k ≤ n`, for positive `n`. -/
def floorLog2 (n : Nat) : Nat := floorLog2.loop n n

/-- The integer `e` with `2^e ≤ n/d < 2^(e+1)`, for positive `n` and `d`. -/
def binade (n d : Nat) : Int :=
  let k : Int := (floorLog2 n : Int) - (floorLog2 d : Int)
  if (if 0 ≤ k then decide (d <<< k.toNat ≤ n) else decide (d ≤ n <<< (-k).toNat)) then k
  else k - 1

/-- The integer nearest to `n/d`, the even one of two nearest. -/
def roundEven (n d : Nat) : Nat :=
  let q := n / d
  let r := n % d
  if 2 * r < d then q
  else if d < 2 * r then q + 1
  else if q % 2 = 0 then q else q + 1

/-- The binary64 value nearest to the positive rational `n/d`: 53 significant bits,
the least exponent `-1074` of the subnormal numbers, and `+Inf` from `2^1024 - 2^970`
on. -/
def round64Pos (n d : Nat) : F64 :=
  let e : Int := max (binade n d - 52) (-1074)
  let m : Nat := if 0 ≤ e then roundEven n (d <<< e.toNat) else roundEven (n <<< (-e).toNat) d
  if 971 < e ∨ (e = 971 ∧ m = 2 ^ 53) then .inf false
  else .fin ((m : ℚ) * (2 : ℚ) ^ e)

/-- Go unary `-x` on a `float64`. -/
def F64.neg : F64 → F64
  | .fin q => .fin (-q)
  | .inf s => .inf (!s)
  | .nan => .nan

/-- The binary64 value nearest to a rational, ties to even. -/
def round64 (q : ℚ) : F64 :=
  if q = 0 then .fin 0
  else if 0 < q then round64Pos q.num.natAbs q.den
  else (round64Pos q.num.natAbs q.den).neg

/-- Go `float64(n)` for an `int` or `int64` value `n`. -/
def F64.ofInt (n : Int) : F64 := round64 (n : ℚ)

/-- Go `x + y` on `float64`. -/
def F64.add : F64 → F64 → F64
  | .fin a, .fin b => round64 (a + b)
  | .fin _, .inf s => .inf s
  | .inf s, .fin _ => .inf s
  | .inf s, .inf t => if s = t then .inf s else .nan
  | _, _ => .nan

/-- Go `x - y` on `float64`. -/
def F64.sub (a b : F64) : F64 := a.add b.neg

/-- Go `x * y` on `float64`. -/
def F64.mul : F64 → F64 → F64
  | .fin a, .fin b => round64 (a * b)
  | .fin a, .inf s => if a = 0 then .nan else .inf (s != decide (a < 0))
  | .inf s, .fin b => if b = 0 then .nan else .inf (s != decide (b < 0))
  | .inf s, .inf t => .inf (s != t)
  | _, _ => .nan

/-- Go `x / y` on `float64`: a division by zero does not fail, it gives an infinity,
or NaN for `0 / 0`. -/
def F64.div : F64 → F64 → F64
  | .fin a, .fin b =>
    if b = 0 then (if a = 0 then .nan else .inf (decide (a < 0)))
    else round64 (a / b)
  | .fin _, .inf _ => .fin 0
  | .inf s, .fin b => .inf (s != decide (b < 0))
  | _, _ => .nan

/-- Go `x < y` on `float64`; false when an operand is NaN. -/
def F64.lt : F64 → F64 → Bool
  | .fin a, .fin b => decide (a < b)
  | .fin _, .inf s => !s
  | .inf s, .fin _ => s
  | .inf s, .inf t => s && !t
  | _, _ => false

/-- Go `x <= y` on `float64`; false when an operand is NaN. -/
def F64.le : F64 → F64 → Bool
  | .fin a, .fin b => decide (a ≤ b)
  | .fin _, .inf s => !s
  | .inf s, .fin _ => s
  | .inf s, .inf t => s || !t
  | _, _ => false

/-- Go `func (d Duration) Seconds() float64`:
`sec := d / Second; nsec := d % Second; return float64(sec) + float64(nsec)/1e9`. -/
def Seconds64 (d : Int) : F64 :=
  let sec := d.tdiv 1000000000
  let nsec := d.tmod 1000000000
  (F64.ofInt sec).add ((F64.ofInt nsec).div (.fin 1000000000))

/-- The fields of `connectionRateLimiter` that the tick case of `processRequests`
reads and writes, with the balance in binary64. -/
structure connectionRateLimiter64 where
  rateLimit : RateLimit
  tokens : F64
  lastRefill : Int
  queue : priorityQueue
deriving DecidableEq

/-- Go `func newConnectionRateLimiter(rateLimit RateLimit) *connectionRateLimiter`
with the balance in binary64; `now` is the value of `time.Now()`. -/
def newConnectionRateLimiter64 (rateLimit : RateLimit) (now : Int) :
    Option connectionRateLimiter64 :=
  match heap.Init [] with
  | none => none
  | some q =>
    some { rateLimit := rateLimit
           tokens := F64.ofInt rateLimit.RequestCount
           lastRefill := now
           queue := q }

/-- Go `func (rl *connectionRateLimiter) refillTokens()` in binary64; `now` is the
value of `time.Now()`. -/
def refillTokens64 (rl : connectionRateLimiter64) (now : Int) : connectionRateLimiter64 :=
  let elapsed := Seconds64 (now - rl.lastRefill)
  if F64.lt (.fin 0) elapsed then
    let refillRate :=
      (F64.ofInt rl.rateLimit.RequestCount).div (F64.ofInt rl.rateLimit.WindowSeconds)
    let tokensToAdd := elapsed.mul refillRate
    let tokens := rl.tokens.add tokensToAdd
    let tokens := if F64.lt (F64.ofInt rl.rateLimit.RequestCount) tokens
      then F64.ofInt rl.rateLimit.RequestCount else tokens
    { rl with tokens := tokens, lastRefill := now }
  else rl

/-- The dispatch loop of the tick case in binary64:
`for rl.tokens >= 1.0 && rl.queue.Len() > 0 { req := heap.Pop(..); rl.tokens--; go .. }`. -/
def dispatch64 : Nat → connectionRateLimiter64 → List requestItem →
    Option (connectionRateLimiter64 × List requestItem)
  | 0, _, _ => none
  | fuel + 1, rl, out =>
    if F64.le (.fin 1) rl.tokens = true ∧ priorityQueue.Len rl.queue > 0 then
      match heap.Pop rl.queue with
      | none => none
      | some (req, q) =>
        dispatch64 fuel { rl with queue := q, tokens := rl.tokens.sub (.fin 1) } (out ++ [req])
    else some (rl, out)

/-- The tick case of `processRequests` in binary64: `rl.refillTokens()`, then the
dispatch loop. -/
def tick64 (rl : connectionRateLimiter64) (now : Int) :
    Option (connectionRateLimiter64 × List requestItem) :=
  dispatch64 (priorityQueue.Len rl.queue + 1) (refillTokens64 rl now) []

/-- The finite binary64 numbers: `± m * 2^e` with `m < 2^53` and `-1074 ≤ e ≤ 971`. -/
def IsBinary64 (T : ℚ) : Prop :=
  ∃ (m : Nat) (e : Int), m < 2 ^ 53 ∧ -1074 ≤ e ∧ e ≤ 971 ∧ |T| = (m : ℚ) * (2 : ℚ) ^ e

/-- A `float64` value of the model that is a `float64` value of Go: its number, if it
is finite, is a binary64 number. -/
def F64.IsFloat64 (x : F64) : Prop := ∀ q : ℚ, x = .fin q → IsBinary64 q

/-- The worker taking the tick case at each of the given times, in binary64: the
state after the last tick and the number of requests that each tick dispatched. -/
def ticks64 : connectionRateLimiter64 → List Int →
    Option (connectionRateLimiter64 × List Nat)
  | rl, [] => some (rl, [])
  | rl, now :: rest =>
    match tick64 rl now with
    | none => none
    | some (rl1, out) =>
      match ticks64 rl1 rest with
      | none => none
      | some (rl2, counts) => some (rl2, out.length :: counts)

/-- The limiter `fullLimiter` in binary64: 5 requests per second, constructed at
time 0, ten requests queued before its first tick. -/
def fullLimiter64 : connectionRateLimiter64 :=
  { rateLimit := { RequestCount := 5, WindowSeconds := 1 }
    tokens := .fin 5
    lastRefill := 0
    queue := tenQueue }

/-- Twenty ticks of a ticker that runs 5 ns late per period: at 10 ms and then every
10.000005 ms, the last one at 200.000095 ms. -/
def slowTicks : List Int :=
  (List.range 20).map (fun k => 10000000 + (k : Int) * 10000005)

/-- The limiter built by `newConnectionRateLimiter` for one request per 365 days
(`RequestCount = 1`, `WindowSeconds = 31536000`) at time 0, with `demoQueue` queued
before its first tick. -/
def yearLimiter64 : connectionRateLimiter64 :=
  { rateLimit := { RequestCount := 1, WindowSeconds := 31536000 }
    tokens := .fin 1
    lastRefill := 0
    queue := demoQueue }

/-- The limiter `yearLimiter64` after its first tick, at 10 ms. -/
def yearAfterTick64 : connectionRateLimiter64 :=
  { yearLimiter64 with
    tokens := .fin 0
    lastRefill := 10000000
    queue := [{ lowA with index := 0 }, { lowB with index := 1 }] }

/-! ### Runs in binary64 -/

/-- The cases of the `select` in `processRequests` that touch the fields of
`connectionRateLimiter64`: a request received from the intake channel, and a tick. -/
inductive Stimulus64 where
  | request (req : requestItem)
  | tick (now : Int)
deriving DecidableEq

/-- One iteration of the worker loop in binary64: `heap.Push(&rl.queue, req)` for a
request received, `tick64` for a tick. -/
def processRequests64 (rl : connectionRateLimiter64) :
    Stimulus64 → Option (connectionRateLimiter64 × List requestItem)
  | .request req =>
    match heap.Push rl.queue req with
    | none => none
    | some q => some ({ rl with queue := q }, [])
  | .tick now => tick64 rl now

/-- A sequence of iterations of the worker loop in binary64, with the requests
dispatched along it in dispatch order. -/
def runLimiter64 : connectionRateLimiter64 → List Stimulus64 →
    Option (connectionRateLimiter64 × List requestItem)
  | rl, [] => some (rl, [])
  | rl, e :: es =>
    match processRequests64 rl e with
    | none => none
    | some (rl1, out) =>
      match runLimiter64 rl1 es with
      | none => none
      | some (rl2, outs) => some (rl2, out ++ outs)

/-- The times of the ticks of a sequence of iterations. -/
def tickTimes : List Stimulus64 → List Int
  | [] => []
  | .request _ :: es => tickTimes es
  | .tick now :: es => now :: tickTimes es

/-- The invariant behind the burst bound in binary64: `RequestCount` and
`WindowSeconds` are positive and below `2^53`, and the balance is a binary64 number
in `[0, RequestCount]`. -/
def TokensOk64 (rl : connectionRateLimiter64) : Prop :=
  0 < rl.rateLimit.RequestCount ∧ rl.rateLimit.RequestCount < 2 ^ 53 ∧
  0 < rl.rateLimit.WindowSeconds ∧ rl.rateLimit.WindowSeconds < 2 ^ 53 ∧
  ∃ f : ℚ, rl.tokens = .fin f ∧ IsBinary64 f ∧ 0 ≤ f ∧ f ≤ (rl.rateLimit.RequestCount : ℚ)

/-- The rounding error that one tick adds to the balance, at most: `2^-53` of
`RequestCount`. -/
def tickError (rl : connectionRateLimiter64) : ℚ := (rl.rateLimit.RequestCount : ℚ) / 2 ^ 53

/-- The refill over a duration of `d` nanoseconds with its rounding error, at most:
`d * RequestCount / WindowSeconds`, and `6 * 2^-53` of it. -/
def refillBound (rl : connectionRateLimiter64) (d : Int) : ℚ :=
  Seconds d * ((rl.rateLimit.RequestCount : ℚ) / (rl.rateLimit.WindowSeconds : ℚ))
    * (1 + 6 / 2 ^ 53)

/-- A `float64` value that is not above zero and not NaN. -/
def F64.NonPos (x : F64) : Prop := x = .inf true ∨ ∃ T : ℚ, T ≤ 0 ∧ x = .fin T

/-- The ticks after the one at 10 ms in the run with the late ticker: the other
nineteen of `slowTicks` and the tick at 210 ms. -/
def lateTicks : List Stimulus64 :=
  (slowTicks.tail ++ [210000000]).map Stimulus64.tick

/-- Two ticks and an arrival within 0.19 s of a first tick at 10 ms. -/
def quietStimuli : List Stimulus64 :=
  [.tick 100000000,
   .request { function := 11, niceness := 0, timestamp := 150000000, doneCh := 11, index := 0 },
   .tick 200000000]

end throttler

/-! # Lemmas and theorems -/

namespace throttler

/-! ## The queue of `pq.go` under `container/heap` -/

theorem less_iff_klt (a b : requestItem) :
    requestItem.less a b = true ↔ klt a.key b.key := by
  unfold requestItem.less klt requestItem.key
  by_cases hn : a.niceness = b.niceness
  · simp [hn]
  · simp [hn]

theorem kle_trans {a b c : Int × Int} (h1 : ¬ klt b a) (h2 : ¬ klt c b) : ¬ klt c a := by
  unfold klt at *
  omega

theorem kle_of_klt {a b : Int × Int} (h : klt a b) : ¬ klt b a := by
  unfold klt at *
  omega

theorem keyD_of_getElem? {h : priorityQueue} {k : Nat} {r : requestItem}
    (hr : h[k]? = some r) : keyD h k = r.key := by
  unfold keyD
  rw [hr]

theorem Less_spec (h : priorityQueue) (i j : Nat) (hi : i < h.length) (hj : j < h.length) :
    ∃ b, priorityQueue.Less h i j = some b ∧ (b = true ↔ klt (keyD h i) (keyD h j)) := by
  have e1 : h[i]? = some h[i] := List.getElem?_eq_getElem hi
  have e2 : h[j]? = some h[j] := List.getElem?_eq_getElem hj
  refine ⟨requestItem.less h[i] h[j], ?_, ?_⟩
  · unfold priorityQueue.Less
    rw [e1, e2]
  · rw [keyD_of_getElem? e1, keyD_of_getElem? e2]
    exact less_iff_klt _ _

theorem perm_cons_set {α : Type} (x b : α) :
    ∀ (xs : List α) (j : Nat), xs[j]? = some b → (b :: xs.set j x).Perm (x :: xs) := by
  intro xs
  induction xs with
  | nil => intro j hj; simp at hj
  | cons y ys ih =>
    intro j hj
    cases j with
    | zero =>
      simp only [List.getElem?_cons_zero, Option.some.injEq] at hj
      subst hj
      simp only [List.set_cons_zero]
      exact List.Perm.swap _ _ _
    | succ j =>
      simp only [List.getElem?_cons_succ] at hj
      simp only [List.set_cons_succ]
      have h1 : (b :: y :: ys.set j x).Perm (y :: b :: ys.set j x) := List.Perm.swap _ _ _
      have h2 : (y :: b :: ys.set j x).Perm (y :: x :: ys) := List.Perm.cons y (ih j hj)
      have h3 : (y :: x :: ys).Perm (x :: y :: ys) := List.Perm.swap _ _ _
      exact (h1.trans h2).trans h3

theorem perm_set_set_lt {α : Type} :
    ∀ (l : List α) (i j : Nat) (a b : α), i < j → l[i]? = some a → l[j]? = some b →
      ((l.set i b).set j a).Perm l := by
  intro l
  induction l with
  | nil => intro i j a b _ hi _; simp at hi
  | cons x xs ih =>
    intro i j a b hij hi hj
    cases j with
    | zero => omega
    | succ j =>
      cases i with
      | zero =>
        simp only [List.getElem?_cons_zero, Option.some.injEq] at hi
        subst hi
        simp only [List.getElem?_cons_succ] at hj
        simp only [List.set_cons_zero, List.set_cons_succ]
        exact perm_cons_set x b xs j hj
      | succ i =>
        simp only [List.getElem?_cons_succ] at hi hj
        simp only [List.set_cons_succ]
        exact List.Perm.cons x (ih i j a b (by omega) hi hj)

theorem perm_set_set {α : Type} (l : List α) (i j : Nat) (a b : α)
    (hi : l[i]? = some a) (hj : l[j]? = some b) : ((l.set i b).set j a).Perm l := by
  rcases Nat.lt_trichotomy i j with h | h | h
  · exact perm_set_set_lt l i j a b h hi hj
  · subst h
    rw [hi] at hj
    simp only [Option.some.injEq] at hj
    subst hj
    rw [List.set_set]
    have hlt : i < l.length := by
      rcases Nat.lt_or_ge i l.length with h | h
      · exact h
      · rw [List.getElem?_eq_none h] at hi; simp at hi
    have : l.set i a = l := by
      apply List.ext_getElem?
      intro k
      rw [List.getElem?_set]
      by_cases hk : i = k
      · subst hk; simp [hlt, hi]
      · simp [hk]
    rw [this]
  · rw [List.set_comm _ _ _ (by omega)]
    exact perm_set_set_lt l j i b a h hj hi

theorem Swap_spec (h : priorityQueue) (i j : Nat) (hi : i < h.length) (hj : j < h.length) :
    ∃ h1, priorityQueue.Swap h i j = some h1 ∧ h1.length = h.length ∧
      keyD h1 i = keyD h j ∧ keyD h1 j = keyD h i ∧
      (∀ k, k ≠ i → k ≠ j → h1[k]? = h[k]?) ∧
      (payloads h1).Perm (payloads h) := by
  have e1 : h[i]? = some h[i] := List.getElem?_eq_getElem hi
  have e2 : h[j]? = some h[j] := List.getElem?_eq_getElem hj
  refine ⟨(h.set i { h[j] with index := (i : Int) }).set j { h[i] with index := (j : Int) },
    ?_, ?_, ?_, ?_, ?_, ?_⟩
  · unfold priorityQueue.Swap
    rw [e1, e2]
  · simp
  · unfold keyD
    by_cases hij : i = j
    · subst hij
      simp [List.getElem?_set, hi, requestItem.key]
    · have hji : ¬ j = i := fun e => hij e.symm
      simp [List.getElem?_set, hi, hj, hij, hji, requestItem.key]
  · unfold keyD
    simp [List.getElem?_set, hi, hj, requestItem.key]
  · intro k hk1 hk2
    have a1 : ¬ i = k := fun e => hk1 e.symm
    have a2 : ¬ j = k := fun e => hk2 e.symm
    simp [List.getElem?_set, a1, a2]
  · unfold payloads
    rw [List.map_set, List.map_set]
    have p1 : requestItem.payload { h[j] with index := (i : Int) } = requestItem.payload h[j] := rfl
    have p2 : requestItem.payload { h[i] with index := (j : Int) } = requestItem.payload h[i] := rfl
    rw [p1, p2]
    apply perm_set_set
    · simp [e1]
    · simp [e2]

theorem keyD_congr {h h1 : priorityQueue} {k : Nat} (e : h1[k]? = h[k]?) :
    keyD h1 k = keyD h k := by
  unfold keyD
  rw [e]


theorem up_spec : ∀ (fuel : Nat) (h : priorityQueue) (j : Nat), j < fuel → j < h.length →
    ∃ h1, heap.up fuel h j = some h1 ∧ h1.length = h.length ∧
      (payloads h1).Perm (payloads h) ∧ (UpInv h j → IsHeap h1) := by
  intro fuel
  induction fuel with
  | zero => intro h j hf; omega
  | succ f ih =>
    intro h j hf hj
    obtain ⟨i, hidef⟩ : ∃ i, i = (j - 1) / 2 := ⟨_, rfl⟩
    unfold heap.up
    simp only [← hidef]
    by_cases hij : i = j
    · simp only [hij, if_true]
      refine ⟨h, rfl, rfl, List.Perm.refl _, ?_⟩
      intro hinv k hk0 hkl
      exact hinv.1 k hk0 hkl (by omega)
    · have hi : i < h.length := by omega
      obtain ⟨b, hb, hbk⟩ := Less_spec h j i hj hi
      simp only [hij, if_false, hb]
      cases b with
      | false =>
        refine ⟨h, rfl, rfl, List.Perm.refl _, ?_⟩
        intro hinv k hk0 hkl
        by_cases hkj : k = j
        · subst hkj
          intro hlt
          rw [← hidef] at hlt
          have := hbk.mpr hlt
          simp at this
        · exact hinv.1 k hk0 hkl hkj
      | true =>
        have hlt : klt (keyD h j) (keyD h i) := hbk.mp rfl
        obtain ⟨h1, hs, hlen, hki, hkj, hko, hperm⟩ := Swap_spec h i j hi hj
        have hko2 : ∀ k, k ≠ i → k ≠ j → keyD h1 k = keyD h k :=
          fun k a b => keyD_congr (hko k a b)
        simp only [hs]
        obtain ⟨h2, hu, hlen2, hperm2, hheap⟩ := ih h1 i (by omega) (by omega)
        refine ⟨h2, hu, by omega, hperm2.trans hperm, ?_⟩
        intro hinv
        apply hheap
        constructor
        · intro k hk0 hkl hki2
          rw [hlen] at hkl
          by_cases hkj2 : k = j
          · subst hkj2
            rw [← hidef, hkj, hki]
            exact kle_of_klt hlt
          · rw [hko2 k hki2 hkj2]
            by_cases hp1 : (k - 1) / 2 = i
            · rw [hp1, hki]
              have a1 := hinv.1 k hk0 hkl hkj2
              rw [hp1] at a1
              exact kle_trans (kle_of_klt hlt) a1
            · by_cases hp2 : (k - 1) / 2 = j
              · rw [hp2, hkj]
                have a2 := hinv.2 k hk0 hkl hp2 (by omega)
                rw [← hidef] at a2
                exact a2
              · rw [hko2 _ hp1 hp2]
                exact hinv.1 k hk0 hkl hkj2
        · intro k hk0 hkl hp hi0
          rw [hlen] at hkl
          have hpp : keyD h1 ((i - 1) / 2) = keyD h ((i - 1) / 2) :=
            hko2 _ (by omega) (by omega)
          rw [hpp]
          have a0 := hinv.1 i hi0 hi hij
          by_cases hkj2 : k = j
          · subst hkj2
            rw [hkj]
            exact a0
          · rw [hko2 k (by omega) hkj2]
            have a1 := hinv.1 k hk0 hkl hkj2
            rw [hp] at a1
            exact kle_trans a0 a1


theorem klt_irrefl (a : Int × Int) : ¬ klt a a := by
  unfold klt
  omega

theorem child_spec (h : priorityQueue) (j1 n : Nat) (hj1 : j1 < n) (hn : n ≤ h.length) :
    ∃ j, heap.down.child h j1 n = some j ∧ j < n ∧ (j = j1 ∨ j = j1 + 1) ∧
      (∀ k, k < n → (k = j1 ∨ k = j1 + 1) → ¬ klt (keyD h k) (keyD h j)) := by
  unfold heap.down.child
  by_cases h2 : j1 + 1 < n
  · obtain ⟨b, hb, hbk⟩ := Less_spec h (j1 + 1) j1 (by omega) (by omega)
    simp only [h2, if_true, hb]
    cases b with
    | true =>
      have hlt : klt (keyD h (j1 + 1)) (keyD h j1) := hbk.mp rfl
      refine ⟨j1 + 1, rfl, h2, Or.inr rfl, ?_⟩
      intro k _ hk
      rcases hk with hk | hk
      · subst hk; exact kle_of_klt hlt
      · subst hk; exact klt_irrefl _
    | false =>
      have hnlt : ¬ klt (keyD h (j1 + 1)) (keyD h j1) := by
        intro hlt
        have := hbk.mpr hlt
        simp at this
      refine ⟨j1, rfl, hj1, Or.inl rfl, ?_⟩
      intro k _ hk
      rcases hk with hk | hk
      · subst hk; exact klt_irrefl _
      · subst hk; exact hnlt
  · simp only [h2, if_false]
    refine ⟨j1, rfl, hj1, Or.inl rfl, ?_⟩
    intro k hkn hk
    rcases hk with hk | hk
    · subst hk; exact klt_irrefl _
    · omega

theorem down_spec : ∀ (fuel : Nat) (h : priorityQueue) (i n : Nat),
    0 < fuel → n < fuel + i → n ≤ h.length →
    ∃ h1, heap.down fuel h i n = some h1 ∧ h1.length = h.length ∧
      (payloads h1).Perm (payloads h) ∧ (∀ k, n ≤ k → h1[k]? = h[k]?) ∧
      (DownInv h i n → IsHeapUpTo h1 n) := by
  intro fuel
  induction fuel with
  | zero => intro h i n hf; omega
  | succ f ih =>
    intro h i n _ hfuel hn
    unfold heap.down
    by_cases hbreak : 2 * i + 1 ≥ n
    · simp only [hbreak, if_true]
      refine ⟨h, rfl, rfl, List.Perm.refl _, fun _ _ => rfl, ?_⟩
      intro hinv k hk0 hkn
      exact hinv.1 k hk0 hkn (by omega)
    · obtain ⟨j, hpick, hjn, hjc, hmin⟩ := child_spec h (2 * i + 1) n (by omega) hn
      have hi : i < h.length := by omega
      have hj : j < h.length := by omega
      obtain ⟨b, hb, hbk⟩ := Less_spec h j i hj hi
      simp only [hbreak, if_false, hpick, hb]
      cases b with
      | false =>
        have hnlt : ¬ klt (keyD h j) (keyD h i) := by
          intro hlt
          have := hbk.mpr hlt
          simp at this
        refine ⟨h, rfl, rfl, List.Perm.refl _, fun _ _ => rfl, ?_⟩
        intro hinv k hk0 hkn
        by_cases hp : (k - 1) / 2 = i
        · rw [hp]
          exact kle_trans hnlt (hmin k hkn (by omega))
        · exact hinv.1 k hk0 hkn hp
      | true =>
        have hlt : klt (keyD h j) (keyD h i) := hbk.mp rfl
        obtain ⟨h1, hs, hlen, hki, hkj, hko, hperm⟩ := Swap_spec h i j hi hj
        have hko2 : ∀ k, k ≠ i → k ≠ j → keyD h1 k = keyD h k :=
          fun k a b => keyD_congr (hko k a b)
        simp only [hs]
        obtain ⟨h2, hd, hlen2, hperm2, htail, hheap⟩ :=
          ih h1 j n (by omega) (by omega) (by omega)
        refine ⟨h2, hd, by omega, hperm2.trans hperm, ?_, ?_⟩
        · intro k hk
          rw [htail k hk]
          exact hko k (by omega) (by omega)
        · intro hinv
          apply hheap
          constructor
          · intro k hk0 hkn hpj
            by_cases hki2 : k = i
            · subst hki2
              rw [hki, hko2 _ (by omega) (by omega)]
              exact hinv.2 j (by omega) hjn (by omega) hk0
            · by_cases hkj2 : k = j
              · subst hkj2
                have hp : (k - 1) / 2 = i := by omega
                rw [hp, hkj, hki]
                exact kle_of_klt hlt
              · rw [hko2 k hki2 hkj2]
                by_cases hp : (k - 1) / 2 = i
                · rw [hp, hki]
                  exact hmin k hkn (by omega)
                · rw [hko2 _ hp hpj]
                  exact hinv.1 k hk0 hkn hp
          · intro k hk0 hkn hp _
            have hpj : (j - 1) / 2 = i := by omega
            rw [hpj, hki, hko2 k (by omega) (by omega)]
            have a1 := hinv.1 k hk0 hkn (by omega)
            rw [hp] at a1
            exact a1


theorem Swap_snd (h h1 : priorityQueue) (i j : Nat) (a : requestItem)
    (hs : priorityQueue.Swap h i j = some h1) (ha : h[i]? = some a) :
    h1[j]? = some { a with index := (j : Int) } := by
  unfold priorityQueue.Swap at hs
  rw [ha] at hs
  cases hb : h[j]? with
  | none => rw [hb] at hs; simp at hs
  | some b =>
    rw [hb] at hs
    simp only [Option.some.injEq] at hs
    subst hs
    have hj : j < h.length := by
      rcases Nat.lt_or_ge j h.length with h0 | h0
      · exact h0
      · rw [List.getElem?_eq_none h0] at hb; simp at hb
    simp [List.getElem?_set, hj]

theorem Push_spec (h : priorityQueue) (x : requestItem) :
    ∃ h2, heap.Push h x = some h2 ∧ h2.length = h.length + 1 ∧
      (payloads h2).Perm (x.payload :: payloads h) ∧ (IsHeap h → IsHeap h2) := by
  unfold heap.Push
  have hlen1 : (priorityQueue.Push h x).length = h.length + 1 := by
    simp [priorityQueue.Push]
  obtain ⟨h2, hu, hlen2, hperm, hheap⟩ :=
    up_spec (priorityQueue.Len (priorityQueue.Push h x)) (priorityQueue.Push h x)
      (priorityQueue.Len (priorityQueue.Push h x) - 1)
      (by unfold priorityQueue.Len; omega) (by unfold priorityQueue.Len; omega)
  refine ⟨h2, hu, by omega, ?_, ?_⟩
  · refine hperm.trans ?_
    unfold payloads priorityQueue.Push
    rw [List.map_append]
    have p : requestItem.payload { x with index := (h.length : Int) } = x.payload := rfl
    simp only [List.map_cons, List.map_nil, p]
    exact List.perm_append_singleton _ _
  · intro hh
    apply hheap
    have hk : ∀ k, k < h.length → keyD (priorityQueue.Push h x) k = keyD h k := by
      intro k hk
      apply keyD_congr
      unfold priorityQueue.Push
      exact List.getElem?_append_left hk
    have hL : priorityQueue.Len (priorityQueue.Push h x) - 1 = h.length := by
      unfold priorityQueue.Len; omega
    rw [hL]
    constructor
    · intro k hk0 hkl hkn
      rw [hlen1] at hkl
      rw [hk k (by omega), hk _ (by omega)]
      exact hh k hk0 (by omega)
    · intro k hk0 hkl hp hj0
      rw [hlen1] at hkl
      omega

theorem Pop_spec (h : priorityQueue) (n : Nat) (r0 : requestItem)
    (hlen : h.length = n + 1) (h0 : h[0]? = some r0) :
    ∃ h3, heap.Pop h = some ({ r0 with index := -1 }, h3) ∧ h3.length = n ∧
      (payloads h).Perm (r0.payload :: payloads h3) ∧ (IsHeap h → IsHeap h3) := by
  unfold heap.Pop
  have hL : priorityQueue.Len h = n + 1 := hlen
  rw [hL]
  obtain ⟨h1, hs, hlen1, hki, hkj, hko, hperm1⟩ :=
    Swap_spec h 0 n (by omega) (by omega)
  have hlast1 := Swap_snd h h1 0 n r0 hs h0
  obtain ⟨h2, hd, hlen2, hperm2, htail, hheap⟩ :=
    down_spec (n + 1) h1 0 n (by omega) (by omega) (by omega)
  have hlast2 : h2[n]? = some { r0 with index := (n : Int) } := by
    rw [htail n (Nat.le_refl n)]; exact hlast1
  simp only [hs, hd]
  have hsplit : h2 = h2.take n ++ [{ r0 with index := (n : Int) }] := by
    have e1 : h2.take (n + 1) = h2 := List.take_of_length_le (by omega)
    have e2 := List.take_succ (l := h2) (n := n)
    rw [e1, hlast2] at e2
    simpa using e2
  refine ⟨h2.take n, ?_, ?_, ?_, ?_⟩
  · unfold priorityQueue.Pop
    have hne : ¬ h2.length = 0 := by omega
    have hidx : h2.length - 1 = n := by omega
    simp only [hne, if_false, hidx, hlast2]
  · rw [List.length_take]; omega
  · refine (hperm1.symm.trans hperm2.symm).trans ?_
    have : payloads h2 = payloads (h2.take n) ++ [r0.payload] := by
      conv_lhs => rw [hsplit]
      unfold payloads
      rw [List.map_append]
      rfl
    rw [this]
    exact List.perm_append_singleton _ _
  · intro hh
    have hup : IsHeapUpTo h2 n := by
      apply hheap
      constructor
      · intro k hk0 hkn hp
        have e1 : keyD h1 k = keyD h k := keyD_congr (hko k (by omega) (by omega))
        have e2 : keyD h1 ((k - 1) / 2) = keyD h ((k - 1) / 2) :=
          keyD_congr (hko _ (by omega) (by omega))
        rw [e1, e2]
        exact hh k hk0 (by omega)
      · intro k _ _ _ hi0
        omega
    intro k hk0 hkl
    rw [List.length_take] at hkl
    have e1 : keyD (h2.take n) k = keyD h2 k := by
      apply keyD_congr
      rw [List.getElem?_take, if_pos (by omega)]
    have e2 : keyD (h2.take n) ((k - 1) / 2) = keyD h2 ((k - 1) / 2) := by
      apply keyD_congr
      rw [List.getElem?_take, if_pos (by omega)]
    rw [e1, e2]
    exact hup k hk0 (by omega)

theorem root_min (h : priorityQueue) (hh : IsHeap h) :
    ∀ k, k < h.length → ¬ klt (keyD h k) (keyD h 0) := by
  intro k
  induction k using Nat.strong_induction_on with
  | _ k ih =>
    intro hk
    by_cases hk0 : k = 0
    · subst hk0; exact klt_irrefl _
    · have a1 := hh k (by omega) hk
      have a2 := ih ((k - 1) / 2) (by omega) (by omega)
      exact kle_trans a2 a1


theorem Reached_isHeap (h : priorityQueue) (hr : Reached h) : IsHeap h := by
  induction hr with
  | empty => intro k _ hk; simp at hk
  | push h x h1 _ hp ih =>
    obtain ⟨h2, e, _, _, hh⟩ := Push_spec h x
    rw [e] at hp
    simp only [Option.some.injEq] at hp
    subst hp
    exact hh ih
  | pop h r h1 _ hp ih =>
    cases h with
    | nil => simp [heap.Pop, priorityQueue.Len] at hp
    | cons a t =>
      obtain ⟨h3, e, _, _, hh⟩ := Pop_spec (a :: t) t.length a (by simp) (by simp)
      rw [e] at hp
      simp only [Option.some.injEq, Prod.mk.injEq] at hp
      obtain ⟨_, e2⟩ := hp
      subst e2
      exact hh ih

theorem key_eq_of_payload_eq {a b : requestItem} (e : a.payload = b.payload) :
    a.key = b.key := by
  unfold requestItem.payload at e
  unfold requestItem.key
  simp only [Prod.mk.injEq] at e
  rw [e.2.1, e.2.2.1]

theorem root_le_mem (h : priorityQueue) (r0 : requestItem) (hh : IsHeap h)
    (h0 : h[0]? = some r0) :
    ∀ x : requestItem, x.payload ∈ payloads h → ¬ klt x.key r0.key := by
  intro x hx
  unfold payloads at hx
  rw [List.mem_map] at hx
  obtain ⟨y, hy, hxy⟩ := hx
  obtain ⟨k, hk, hky⟩ := List.getElem_of_mem hy
  have e1 : h[k]? = some y := by rw [List.getElem?_eq_getElem hk, hky]
  have := root_min h hh k hk
  rw [keyD_of_getElem? e1, keyD_of_getElem? h0] at this
  rw [key_eq_of_payload_eq hxy.symm]
  exact this

theorem mem_payloads {x : requestItem} {l : List requestItem} (hx : x ∈ l) :
    x.payload ∈ payloads l := List.mem_map_of_mem _ hx

theorem dispatch_spec : ∀ (fuel : Nat) (rl : connectionRateLimiter) (out : List requestItem),
    IsHeap rl.queue → rl.queue.length < fuel →
    ∃ rl1 d, dispatch fuel rl out = some (rl1, out ++ d) ∧
      (payloads rl.queue).Perm (payloads d ++ payloads rl1.queue) ∧
      IsHeap rl1.queue ∧
      d.Pairwise (fun a b => ¬ klt b.key a.key) ∧
      (∀ a ∈ d, ∀ b ∈ rl1.queue, ¬ klt b.key a.key) := by
  intro fuel
  induction fuel with
  | zero => intro rl out _ hf; omega
  | succ f ih =>
    intro rl out hh hf
    unfold dispatch
    by_cases hg : rl.tokens ≥ 1 ∧ priorityQueue.Len rl.queue > 0
    · simp only [hg, and_self, if_true]
      have hpos : 0 < rl.queue.length := hg.2
      have h0 : rl.queue[0]? = some rl.queue[0] := List.getElem?_eq_getElem hpos
      obtain ⟨h3, e, hlen3, hperm, hh3⟩ :=
        Pop_spec rl.queue (rl.queue.length - 1) rl.queue[0] (by omega) h0
      simp only [e]
      obtain ⟨rl1, d, hd, hperm2, hh1, hpw, hrem⟩ :=
        ih { rl with queue := h3, tokens := rl.tokens - 1 }
          (out ++ [{ rl.queue[0] with index := -1 }]) (hh3 hh) (by simp only; omega)
      simp only at hperm2 hrem hh1
      have hkey : requestItem.key { rl.queue[0] with index := -1 } = rl.queue[0].key := rfl
      have hpay : requestItem.payload { rl.queue[0] with index := -1 }
          = rl.queue[0].payload := rfl
      have hsub : ∀ x : requestItem, x.payload ∈ payloads d ++ payloads rl1.queue →
          ¬ klt x.key (rl.queue[0]).key := by
        intro x hx
        apply root_le_mem rl.queue rl.queue[0] hh h0
        have h1 : x.payload ∈ payloads h3 := hperm2.symm.subset hx
        exact hperm.symm.subset (List.mem_cons_of_mem _ h1)
      refine ⟨rl1, { rl.queue[0] with index := -1 } :: d, ?_, ?_, hh1, ?_, ?_⟩
      · rw [hd, List.append_assoc]; rfl
      · refine hperm.trans ?_
        show (rl.queue[0].payload :: payloads h3).Perm
          (rl.queue[0].payload :: payloads d ++ payloads rl1.queue)
        exact List.Perm.cons _ hperm2
      · rw [List.pairwise_cons]
        refine ⟨?_, hpw⟩
        intro b hb
        rw [hkey]
        exact hsub b (List.mem_append_left _ (mem_payloads hb))
      · intro a ha b hb
        rw [List.mem_cons] at ha
        rcases ha with ha | ha
        · subst ha
          rw [hkey]
          exact hsub b (List.mem_append_right _ (mem_payloads hb))
        · exact hrem a ha b hb
    · simp only [hg, if_false]
      refine ⟨rl, [], by simp, by simp [payloads], hh, List.Pairwise.nil, ?_⟩
      intro a ha
      simp at ha


theorem refillTokens_queue (rl : connectionRateLimiter) (now : Int) :
    (refillTokens rl now).queue = rl.queue := by
  unfold refillTokens
  simp only
  split <;> rfl

theorem less_false_iff (a b : requestItem) :
    requestItem.less a b = false ↔ ¬ klt a.key b.key := by
  rw [← less_iff_klt]
  simp

theorem less_congr {a b c : requestItem} (e : a.payload = c.payload) :
    requestItem.less a b = requestItem.less c b := by
  unfold requestItem.payload at e
  simp only [Prod.mk.injEq] at e
  unfold requestItem.less
  rw [e.2.1, e.2.2.1]

theorem QueueOp.run_spec : ∀ (ops : List QueueOp) (h q : priorityQueue) (rs : List requestItem),
    QueueOp.run h ops = some (q, rs) →
    (payloads h ++ payloads (QueueOp.pushed ops)).Perm (payloads rs ++ payloads q) := by
  intro ops
  induction ops with
  | nil =>
    intro h q rs hrun
    simp only [QueueOp.run, Option.some.injEq, Prod.mk.injEq] at hrun
    obtain ⟨e1, e2⟩ := hrun
    subst e1 e2
    simp [QueueOp.pushed, payloads]
  | cons op ops ih =>
    intro h q rs hrun
    cases op with
    | push x =>
      obtain ⟨h1, e, _, hperm, _⟩ := Push_spec h x
      simp only [QueueOp.run, e] at hrun
      have := ih h1 q rs hrun
      refine List.Perm.trans ?_ this
      simp only [QueueOp.pushed, payloads, List.map_cons]
      refine List.Perm.trans ?_ (List.Perm.append_right _ hperm.symm)
      simp only [payloads, List.cons_append]
      exact List.perm_middle
    | pop =>
      cases h with
      | nil => simp [QueueOp.run, heap.Pop, priorityQueue.Len] at hrun
      | cons a t =>
        obtain ⟨h3, e, _, hperm, _⟩ := Pop_spec (a :: t) t.length a (by simp) (by simp)
        simp only [QueueOp.run, e] at hrun
        cases hr : QueueOp.run h3 ops with
        | none => rw [hr] at hrun; simp at hrun
        | some res =>
          obtain ⟨q2, rs2⟩ := res
          rw [hr] at hrun
          simp only [Option.some.injEq, Prod.mk.injEq] at hrun
          obtain ⟨e1, e2⟩ := hrun
          subst e1 e2
          have := ih h3 q2 rs2 hr
          simp only [QueueOp.pushed]
          refine List.Perm.trans (List.Perm.append_right _ hperm) ?_
          have p : requestItem.payload { a with index := -1 } = a.payload := rfl
          simp only [payloads, List.map_cons, List.cons_append, p]
          exact List.Perm.cons _ this

/-- C3: on a tick, with the queue in a state produced by `heap.Push`/`heap.Pop`, the
dispatch loop returns; the dispatched requests together with the ones left are the
requests that were queued; no request dispatched later is `Less` than one dispatched
earlier; no request left in the queue is `Less` than a dispatched one; hence when
`b` is dispatched, every queued `a` that is `Less` than `b` (lower niceness, or equal
niceness and earlier timestamp) is dispatched too, and not after `b`. -/
theorem dispatch_burst_priority_order (rl : connectionRateLimiter) (now : Int)
    (hw : rl.worker = true) (hq : Reached rl.queue) :
    ∃ rl1 out, processRequests rl (.tick now) = some (rl1, out) ∧
      (payloads rl.queue).Perm (payloads out ++ payloads rl1.queue) ∧
      out.Pairwise (fun a b => requestItem.less b a = false) ∧
      (∀ a ∈ out, ∀ b ∈ rl1.queue, requestItem.less b a = false) ∧
      (∀ b ∈ out, ∀ a ∈ rl.queue, requestItem.less a b = true →
        a.payload ∈ payloads out) := by
  have hheap : IsHeap (refillTokens rl now).queue := by
    rw [refillTokens_queue]; exact Reached_isHeap _ hq
  obtain ⟨rl1, d, hd, hperm, _, hpw, hrem⟩ :=
    dispatch_spec (priorityQueue.Len rl.queue + 1) (refillTokens rl now) [] hheap
      (by rw [refillTokens_queue]; unfold priorityQueue.Len; omega)
  rw [refillTokens_queue] at hperm
  simp only [List.nil_append] at hd
  have hrem2 : ∀ a ∈ d, ∀ b ∈ rl1.queue, requestItem.less b a = false := by
    intro a ha b hb
    rw [less_false_iff]
    exact hrem a ha b hb
  refine ⟨rl1, d, ?_, hperm, ?_, hrem2, ?_⟩
  · simp only [processRequests, hw, if_true]
    exact hd
  · refine hpw.imp ?_
    intro a b hab
    rw [less_false_iff]
    exact hab
  · intro b hb a ha hlt
    have hmem : a.payload ∈ payloads d ++ payloads rl1.queue :=
      hperm.subset (mem_payloads ha)
    rw [List.mem_append] at hmem
    rcases hmem with hmem | hmem
    · exact hmem
    · exfalso
      unfold payloads at hmem
      rw [List.mem_map] at hmem
      obtain ⟨c, hc, hca⟩ := hmem
      have h1 := hrem2 b hb c hc
      rw [less_congr hca, hlt] at h1
      simp at h1

/-- C4: in every queue state reached from the empty queue by `heap.Push` and
`heap.Pop`, a `heap.Pop` on a non-empty queue returns one of the queued requests,
no queued request is `Less` than it: its niceness is the smallest in the queue and,
among the requests of that niceness, its timestamp is the earliest. -/
theorem heap_pop_returns_minimum (h : priorityQueue) (hr : Reached h) (hne : h ≠ []) :
    ∃ r h1, heap.Pop h = some (r, h1) ∧ r.payload ∈ payloads h ∧
      (∀ x ∈ h, requestItem.less x r = false) ∧
      (∀ x ∈ h, r.niceness ≤ x.niceness ∧
        (x.niceness = r.niceness → r.timestamp ≤ x.timestamp)) := by
  cases h with
  | nil => exact absurd rfl hne
  | cons a t =>
    obtain ⟨h3, e, _, _, _⟩ := Pop_spec (a :: t) t.length a (by simp) (by simp)
    have hmin := root_le_mem (a :: t) a (Reached_isHeap _ hr) (by simp)
    have hkey : requestItem.key { a with index := -1 } = a.key := rfl
    refine ⟨{ a with index := -1 }, h3, e, ?_, ?_, ?_⟩
    · exact mem_payloads (l := a :: t) (x := a) (List.mem_cons_self _ _)
    · intro x hx
      rw [less_false_iff, hkey]
      exact hmin x (mem_payloads hx)
    · intro x hx
      have := hmin x (mem_payloads hx)
      unfold klt requestItem.key at this
      simp only at this
      show a.niceness ≤ x.niceness ∧ (x.niceness = a.niceness → a.timestamp ≤ x.timestamp)
      omega

/-- C10: `heap.Push` returns, adds exactly the pushed request to the multiset of
queued requests and makes `Len` grow by one; `heap.Pop` on a non-empty queue
returns, takes exactly the returned request out of the multiset and makes `Len`
shrink by one; over any sequence of pushes and pops the requests queued at the
start plus the pushed ones are, as a multiset, the returned ones plus the ones still
queued. -/
theorem queue_keeps_every_request (h : priorityQueue) (x : requestItem)
    (ops : List QueueOp) :
    (∃ h1, heap.Push h x = some h1 ∧
      Multiset.ofList (payloads h1) = x.payload ::ₘ Multiset.ofList (payloads h) ∧
      priorityQueue.Len h1 = priorityQueue.Len h + 1) ∧
    (h ≠ [] → ∃ r h1, heap.Pop h = some (r, h1) ∧
      Multiset.ofList (payloads h) = r.payload ::ₘ Multiset.ofList (payloads h1) ∧
      priorityQueue.Len h1 + 1 = priorityQueue.Len h) ∧
    (∀ q rs, QueueOp.run h ops = some (q, rs) →
      Multiset.ofList (payloads h) + Multiset.ofList (payloads (QueueOp.pushed ops))
        = Multiset.ofList (payloads rs) + Multiset.ofList (payloads q)) := by
  refine ⟨?_, ?_, ?_⟩
  · obtain ⟨h1, e, hlen, hperm, _⟩ := Push_spec h x
    refine ⟨h1, e, ?_, hlen⟩
    rw [Multiset.cons_coe]
    exact Multiset.coe_eq_coe.mpr hperm
  · intro hne
    cases h with
    | nil => exact absurd rfl hne
    | cons a t =>
      obtain ⟨h3, e, hlen, hperm, _⟩ := Pop_spec (a :: t) t.length a (by simp) (by simp)
      refine ⟨{ a with index := -1 }, h3, e, ?_, ?_⟩
      · rw [Multiset.cons_coe]
        exact Multiset.coe_eq_coe.mpr hperm
      · unfold priorityQueue.Len
        simp [hlen]
  · intro q rs hrun
    rw [Multiset.coe_add, Multiset.coe_add]
    exact Multiset.coe_eq_coe.mpr (QueueOp.run_spec ops h q rs hrun)


theorem Seconds_pos {d : Int} : Seconds d > 0 ↔ 0 < d := by
  unfold Seconds
  constructor
  · intro h
    have h1 : (0 : ℚ) < (d : ℚ) := by
      have := div_pos_iff_of_pos_right (a := (d : ℚ)) (b := 1000000000) (by norm_num)
      exact this.mp h
    exact_mod_cast h1
  · intro h
    have h1 : (0 : ℚ) < (d : ℚ) := by exact_mod_cast h
    positivity

theorem refillTokens_ok (rl : connectionRateLimiter) (now : Int) (h : TokensOk rl) :
    TokensOk (refillTokens rl now) := by
  obtain ⟨hrc, hws, h0, h1⟩ := h
  unfold refillTokens
  simp only
  split
  · rename_i hel
    have hrcq : (0 : ℚ) < (rl.rateLimit.RequestCount : ℚ) := by exact_mod_cast hrc
    have hwsq : (0 : ℚ) < (rl.rateLimit.WindowSeconds : ℚ) := by exact_mod_cast hws
    have hadd : 0 ≤ Seconds (now - rl.lastRefill) *
        ((rl.rateLimit.RequestCount : ℚ) / (rl.rateLimit.WindowSeconds : ℚ)) :=
      le_of_lt (mul_pos hel (div_pos hrcq hwsq))
    refine ⟨hrc, hws, ?_, ?_⟩
    · simp only
      split
      · exact le_of_lt hrcq
      · linarith
    · simp only
      split
      · exact le_refl _
      · rename_i hgt
        exact not_lt.mp hgt
  · exact ⟨hrc, hws, h0, h1⟩

theorem dispatch_ok : ∀ (fuel : Nat) (rl : connectionRateLimiter) (out : List requestItem)
    (rl1 : connectionRateLimiter) (out1 : List requestItem),
    dispatch fuel rl out = some (rl1, out1) → TokensOk rl → TokensOk rl1 := by
  intro fuel
  induction fuel with
  | zero => intro rl out rl1 out1 h; simp [dispatch] at h
  | succ f ih =>
    intro rl out rl1 out1 h hok
    unfold dispatch at h
    by_cases hg : rl.tokens ≥ 1 ∧ priorityQueue.Len rl.queue > 0
    · simp only [hg, and_self, if_true] at h
      cases hp : heap.Pop rl.queue with
      | none => rw [hp] at h; simp at h
      | some res =>
        obtain ⟨req, q⟩ := res
        rw [hp] at h
        simp only at h
        apply ih _ _ _ _ h
        obtain ⟨hrc, hws, h0, h1⟩ := hok
        refine ⟨hrc, hws, ?_, ?_⟩
        · simp only; linarith [hg.1]
        · simp only; linarith
    · simp only [hg, if_false, Option.some.injEq, Prod.mk.injEq] at h
      rw [← h.1]
      exact hok

theorem processRequests_ok (rl : connectionRateLimiter) (s : Stimulus)
    (rl1 : connectionRateLimiter) (out : List requestItem)
    (h : processRequests rl s = some (rl1, out)) (hok : TokensOk rl) : TokensOk rl1 := by
  cases s with
  | request =>
    simp only [processRequests] at h
    split at h
    · split at h
      · simp at h
      · split at h
        · simp at h
        · simp only [Option.some.injEq, Prod.mk.injEq] at h
          rw [← h.1]
          exact hok
    · simp at h
  | tick now =>
    simp only [processRequests] at h
    split at h
    · exact dispatch_ok _ _ _ _ _ h (refillTokens_ok rl now hok)
    · simp at h
  | quit =>
    simp only [processRequests] at h
    split at h
    · simp only [Option.some.injEq, Prod.mk.injEq] at h
      rw [← h.1]
      exact hok
    · simp at h

theorem Reachable_ok (rl : connectionRateLimiter) (h : Reachable rl) : TokensOk rl := by
  induction h with
  | init rateLimit now rl hrc hws hnew =>
    unfold newConnectionRateLimiter at hnew
    split at hnew
    · simp at hnew
    · simp only [Option.some.injEq] at hnew
      subst hnew
      refine ⟨hrc, hws, ?_, le_refl _⟩
      simp only
      exact_mod_cast le_of_lt hrc
  | refill rl now _ ih => exact refillTokens_ok rl now ih
  | pop rl req q _ ht _ _ ih =>
    obtain ⟨hrc, hws, h0, h1⟩ := ih
    refine ⟨hrc, hws, ?_, ?_⟩
    · simp only; linarith
    · simp only; linarith
  | worker rl s rl1 out _ hstep ih => exact processRequests_ok rl s rl1 out hstep ih
  | submit rl fn niceness now doneCh rl1 d _ hsub ih =>
    unfold submit at hsub
    simp only at hsub
    split at hsub
    · simp only [Option.some.injEq, Prod.mk.injEq] at hsub
      rw [← hsub.1]
      exact ih
    · simp at hsub
  | stop rl rl1 _ hstop ih =>
    unfold stop at hstop
    split at hstop
    · simp at hstop
    · simp only [Option.some.injEq] at hstop
      rw [← hstop]
      exact ih

theorem dispatch_reached : ∀ (fuel : Nat) (rl : connectionRateLimiter)
    (out : List requestItem) (rl1 : connectionRateLimiter) (out1 : List requestItem),
    dispatch fuel rl out = some (rl1, out1) → Reached rl.queue → Reached rl1.queue := by
  intro fuel
  induction fuel with
  | zero => intro rl out rl1 out1 h; simp [dispatch] at h
  | succ f ih =>
    intro rl out rl1 out1 h hq
    unfold dispatch at h
    split at h
    · cases hp : heap.Pop rl.queue with
      | none => rw [hp] at h; simp at h
      | some res =>
        obtain ⟨req, q⟩ := res
        rw [hp] at h
        simp only at h
        exact ih _ _ _ _ h (Reached.pop rl.queue req q hq hp)
    · simp only [Option.some.injEq, Prod.mk.injEq] at h
      rw [← h.1]
      exact hq

theorem processRequests_reached (rl : connectionRateLimiter) (s : Stimulus)
    (rl1 : connectionRateLimiter) (out : List requestItem)
    (h : processRequests rl s = some (rl1, out)) (hq : Reached rl.queue) :
    Reached rl1.queue := by
  cases s with
  | request =>
    simp only [processRequests] at h
    split at h
    · split at h
      · simp at h
      · rename_i req rest _
        cases hp : heap.Push rl.queue req with
        | none => rw [hp] at h; simp at h
        | some q =>
          rw [hp] at h
          simp only [Option.some.injEq, Prod.mk.injEq] at h
          rw [← h.1]
          exact Reached.push rl.queue req q hq hp
    · simp at h
  | tick now =>
    simp only [processRequests] at h
    split at h
    · exact dispatch_reached _ _ _ _ _ h (by rw [refillTokens_queue]; exact hq)
    · simp at h
  | quit =>
    simp only [processRequests] at h
    split at h
    · simp only [Option.some.injEq, Prod.mk.injEq] at h
      rw [← h.1]
      exact hq
    · simp at h

theorem Reachable_queue_reached (rl : connectionRateLimiter) (h : Reachable rl) :
    Reached rl.queue := by
  induction h with
  | init rateLimit now rl _ _ hnew =>
    unfold newConnectionRateLimiter at hnew
    split at hnew
    · simp at hnew
    · rename_i q hq
      simp only [Option.some.injEq] at hnew
      subst hnew
      have : q = [] := by
        have e : heap.Init [] = some [] := rfl
        rw [e] at hq
        simp only [Option.some.injEq] at hq
        exact hq.symm
      subst this
      exact Reached.empty
  | refill rl now _ ih =>
    rw [refillTokens_queue]
    exact ih
  | pop rl req q _ _ _ hp ih => exact Reached.pop rl.queue req q ih hp
  | worker rl s rl1 out _ hstep ih => exact processRequests_reached rl s rl1 out hstep ih
  | submit rl fn niceness now doneCh rl1 d _ hsub ih =>
    unfold submit at hsub
    simp only at hsub
    split at hsub
    · simp only [Option.some.injEq, Prod.mk.injEq] at hsub
      rw [← hsub.1]
      exact ih
    · simp at hsub
  | stop rl rl1 _ hstop ih =>
    unfold stop at hstop
    split at hstop
    · simp at hstop
    · simp only [Option.some.injEq] at hstop
      rw [← hstop]
      exact ih

/-- C2 (evaluation at the failing run): a limiter constructed at time 0 with
`RequestCount = 2` and `WindowSeconds = 1`, three `submit` calls at 1 ms, 2 ms and
3 ms, three arrivals, then ticks 10 ms apart: the tick at 10 ms dispatches two
requests and the tick at 510 ms the third, three requests within half a second. -/
theorem burst_exceeds_requestCount :
    newConnectionRateLimiter { RequestCount := 2, WindowSeconds := 1 } 0
        = some freshLimiter ∧
      (((submit freshLimiter 1 0 1000000 1).bind
          (fun r => submit r.1 2 0 2000000 2)).bind
          (fun r => submit r.1 3 0 3000000 3)).map Prod.fst = some burstLimiter ∧
      dispatchedBetween 10000000 10000000 burstLimiter burstStimuli = some 2 ∧
      dispatchedBetween 510000000 510000000 burstLimiter burstStimuli = some 1 ∧
      dispatchedBetween 10000000 510000000 burstLimiter burstStimuli = some 3 ∧
      burstLimiter.rateLimit.RequestCount = 2 ∧
      burstLimiter.rateLimit.WindowSeconds = 1 := by
  decide!

/-- For `RequestCount > 0`, `WindowSeconds > 0` and `now` later than `lastRefill`,
`refillTokens` sets `tokens` to
`min(requestCount, tokens + elapsed * requestCount / windowSeconds)` and
`lastRefill` to `now` and changes nothing else; when the balance before the call is
not negative this is the value clamped to `[0, requestCount]`. -/
theorem refillTokens_formula (rl : connectionRateLimiter) (now : Int)
    (hrc : 0 < rl.rateLimit.RequestCount) (hws : 0 < rl.rateLimit.WindowSeconds)
    (hnow : rl.lastRefill < now) :
    refillTokens rl now =
      { rl with
        tokens := min (rl.rateLimit.RequestCount : ℚ)
          (rl.tokens + Seconds (now - rl.lastRefill) * (rl.rateLimit.RequestCount : ℚ)
            / (rl.rateLimit.WindowSeconds : ℚ))
        lastRefill := now } ∧
    (0 ≤ rl.tokens → (refillTokens rl now).tokens = clampedBalance rl now) := by
  have hel : Seconds (now - rl.lastRefill) > 0 := Seconds_pos.mpr (by omega)
  have hrcq : (0 : ℚ) < (rl.rateLimit.RequestCount : ℚ) := by exact_mod_cast hrc
  have hwsq : (0 : ℚ) < (rl.rateLimit.WindowSeconds : ℚ) := by exact_mod_cast hws
  have hmul : Seconds (now - rl.lastRefill) *
      ((rl.rateLimit.RequestCount : ℚ) / (rl.rateLimit.WindowSeconds : ℚ))
      = Seconds (now - rl.lastRefill) * (rl.rateLimit.RequestCount : ℚ)
        / (rl.rateLimit.WindowSeconds : ℚ) := by ring
  have hfirst : refillTokens rl now =
      { rl with
        tokens := min (rl.rateLimit.RequestCount : ℚ)
          (rl.tokens + Seconds (now - rl.lastRefill) * (rl.rateLimit.RequestCount : ℚ)
            / (rl.rateLimit.WindowSeconds : ℚ))
        lastRefill := now } := by
    unfold refillTokens
    simp only [hel, if_true, hmul]
    congr 1
    split
    · rename_i hgt
      rw [min_eq_left (le_of_lt hgt)]
    · rename_i hgt
      rw [min_eq_right (not_lt.mp hgt)]
  refine ⟨hfirst, ?_⟩
  intro h0
  rw [hfirst]
  unfold clampedBalance
  simp only
  have hadd : 0 ≤ Seconds (now - rl.lastRefill) * (rl.rateLimit.RequestCount : ℚ)
      / (rl.rateLimit.WindowSeconds : ℚ) :=
    le_of_lt (div_pos (mul_pos hel hrcq) hwsq)
  rw [max_eq_right]
  exact le_min (le_of_lt hrcq) (by linarith)

theorem Throttle.step_inv {T U E : Type} (fn : T → U × Option E) (arg : T)
    (s s1 : CallState U E) (e : CallEvent)
    (hstep : Throttle.step fn arg s e = some s1)
    (hinv : CallInv fn arg s) : CallInv fn arg s1 := by
  obtain ⟨h1, h2⟩ := hinv
  cases e with
  | dispatch =>
    simp only [Throttle.step] at hstep
    split at hstep
    · rename_i hq
      simp only [Option.some.injEq] at hstep
      subst hstep
      constructor
      · intro hp
        simp only at hp
        rcases hp with hp | hp <;> simp at hp
      · intro v hv
        simp only at hv
        have := (h2 v hv).1
        rw [hq] at this
        simp at this
    · simp at hstep
  | runFunction =>
    simp only [Throttle.step] at hstep
    split at hstep
    · rename_i hq
      simp only [Option.some.injEq] at hstep
      subst hstep
      constructor
      · intro _
        rfl
      · intro v hv
        simp only at hv
        have := (h2 v hv).1
        rw [hq] at this
        simp at this
    · simp at hstep
  | closeDone =>
    simp only [Throttle.step] at hstep
    split at hstep
    · rename_i hq
      simp only [Option.some.injEq] at hstep
      subst hstep
      constructor
      · intro _
        exact h1 (Or.inl hq)
      · intro v hv
        simp only at hv
        have := (h2 v hv).1
        rw [hq] at this
        simp at this
    · simp at hstep
  | receiveDone =>
    simp only [Throttle.step] at hstep
    split at hstep
    · rename_i hq
      simp only [Option.some.injEq] at hstep
      subst hstep
      constructor
      · intro hp
        exact h1 hp
      · intro v hv
        simp only [Option.some.injEq] at hv
        refine ⟨hq.1, ?_⟩
        rw [← hv]
        exact h1 (Or.inr hq.1)
    · simp at hstep

theorem Throttle.run_inv {T U E : Type} (fn : T → U × Option E) (arg : T) :
    ∀ (evs : List CallEvent) (s s1 : CallState U E),
      Throttle.run fn arg s evs = some s1 → CallInv fn arg s → CallInv fn arg s1 := by
  intro evs
  induction evs with
  | nil =>
    intro s s1 h hinv
    simp only [Throttle.run, Option.some.injEq] at h
    rw [← h]
    exact hinv
  | cons e es ih =>
    intro s s1 h hinv
    simp only [Throttle.run] at h
    cases hs : Throttle.step fn arg s e with
    | none => rw [hs] at h; simp at h
    | some s2 =>
      rw [hs] at h
      exact ih s2 s1 h (Throttle.step_inv fn arg s s2 e hs hinv)

/-- C5: for every `fn`, `arg` and zero value, whatever the order of events of a
call of the throttled function, a value it has returned is the pair
`(result, error)` of `fn(arg)`, the error unchanged and `nil` staying `nil`; and
once the request is dispatched, its closure run and `doneCh` closed, the call
does return that pair. -/
theorem throttle_returns_fn_result {T U E : Type} (fn : T → U × Option E) (arg : T)
    (zero : U) :
    (∀ (evs : List CallEvent) (s : CallState U E),
      Throttle.run fn arg (Throttle.init zero) evs = some s →
      ∀ v, s.returned = some v → v = fn arg) ∧
    (∃ s : CallState U E,
      Throttle.run fn arg (Throttle.init zero)
        [.dispatch, .runFunction, .closeDone, .receiveDone] = some s ∧
      s.returned = some (fn arg)) := by
  constructor
  · intro evs s hrun v hv
    have hinit : CallInv fn arg (Throttle.init zero : CallState U E) := by
      constructor
      · intro hp
        rcases hp with hp | hp <;> simp [Throttle.init] at hp
      · intro v hv
        simp [Throttle.init] at hv
    exact ((Throttle.run_inv fn arg evs _ s hrun hinit).2 v hv).2
  · refine ⟨{ result := (fn arg).1, err := (fn arg).2, phase := .closed,
              returned := some (fn arg) }, ?_, rfl⟩
    simp [Throttle.run, Throttle.step, Throttle.init]


/-! ## The registry -/

theorem dispatch_rateLimit : ∀ (fuel : Nat) (rl : connectionRateLimiter)
    (out : List requestItem) (rl1 : connectionRateLimiter) (out1 : List requestItem),
    dispatch fuel rl out = some (rl1, out1) → rl1.rateLimit = rl.rateLimit := by
  intro fuel
  induction fuel with
  | zero => intro rl out rl1 out1 h; simp [dispatch] at h
  | succ f ih =>
    intro rl out rl1 out1 h
    unfold dispatch at h
    split at h
    · cases hp : heap.Pop rl.queue with
      | none => rw [hp] at h; simp at h
      | some res =>
        obtain ⟨req, q⟩ := res
        rw [hp] at h
        simp only at h
        have := ih _ _ _ _ h
        simpa using this
    · simp only [Option.some.injEq, Prod.mk.injEq] at h
      rw [← h.1]

theorem refillTokens_rateLimit (rl : connectionRateLimiter) (now : Int) :
    (refillTokens rl now).rateLimit = rl.rateLimit := by
  unfold refillTokens
  simp only
  split <;> rfl

theorem processRequests_rateLimit (rl : connectionRateLimiter) (s : Stimulus)
    (rl1 : connectionRateLimiter) (out : List requestItem)
    (h : processRequests rl s = some (rl1, out)) : rl1.rateLimit = rl.rateLimit := by
  cases s with
  | request =>
    simp only [processRequests] at h
    split at h
    · split at h
      · simp at h
      · split at h
        · simp at h
        · simp only [Option.some.injEq, Prod.mk.injEq] at h
          rw [← h.1]
    · simp at h
  | tick now =>
    simp only [processRequests] at h
    split at h
    · rw [dispatch_rateLimit _ _ _ _ _ h, refillTokens_rateLimit]
    · simp at h
  | quit =>
    simp only [processRequests] at h
    split at h
    · simp only [Option.some.injEq, Prod.mk.injEq] at h
      rw [← h.1]
    · simp at h

theorem newConnectionRateLimiter_some (rateLimit : RateLimit) (now : Int) :
    ∃ rl, newConnectionRateLimiter rateLimit now = some rl ∧ rl.rateLimit = rateLimit ∧
      rl.tokens = (rateLimit.RequestCount : ℚ) ∧ rl.lastRefill = now ∧ rl.queue = [] :=
  ⟨_, rfl, rfl, rfl, rfl, rfl⟩

theorem set_keeps_rateLimit (objs : List connectionRateLimiter) (ptr : Nat)
    (rl rl1 : connectionRateLimiter) (hget : objs[ptr]? = some rl)
    (hrate : rl1.rateLimit = rl.rateLimit) :
    ∀ (l : Nat) (r : connectionRateLimiter), objs[l]? = some r →
      ∃ r1 : connectionRateLimiter,
        (objs.set ptr rl1)[l]? = some r1 ∧ r1.rateLimit = r.rateLimit := by
  intro l r hl
  rw [List.getElem?_set]
  by_cases hpl : ptr = l
  · subst hpl
    have hlt : ptr < objs.length := by
      rcases Nat.lt_or_ge ptr objs.length with h | h
      · exact h
      · rw [List.getElem?_eq_none h] at hget; simp at hget
    rw [hget] at hl
    simp only [Option.some.injEq] at hl
    subst hl
    exact ⟨rl1, by simp [hlt], hrate⟩
  · exact ⟨r, by simp [hpl, hl], rfl⟩

theorem keeps_refl (p : Process) : Process.Keeps p p :=
  ⟨fun _ _ h => h, fun _ rl h => ⟨rl, h, rfl⟩⟩

theorem keeps_trans {p p1 p2 : Process} (h1 : Process.Keeps p p1)
    (h2 : Process.Keeps p1 p2) : Process.Keeps p p2 := by
  refine ⟨?_, ?_⟩
  · intro k l h
    exact h2.1 k l (h1.1 k l h)
  · intro l rl h
    obtain ⟨rl1, e1, r1⟩ := h1.2 l rl h
    obtain ⟨rl2, e2, r2⟩ := h2.2 l rl1 e1
    exact ⟨rl2, e2, r2.trans r1⟩

theorem findOrCreateLimiter_keeps (p : Process) (conn : Connection) (now : Int)
    (p1 : Process) (l : Nat) (h : findOrCreateLimiter p conn now = some (p1, l)) :
    Process.Keeps p p1 := by
  unfold findOrCreateLimiter at h
  simp only at h
  cases hl : List.lookup (limiterKey conn) p.globalRegistry.limiters with
  | some l0 =>
    rw [hl] at h
    simp only [Option.some.injEq, Prod.mk.injEq] at h
    rw [← h.1]
    exact keeps_refl p
  | none =>
    rw [hl] at h
    obtain ⟨rl, e, _⟩ := newConnectionRateLimiter_some conn.RateLimit now
    rw [e] at h
    simp only [Option.some.injEq, Prod.mk.injEq] at h
    rw [← h.1]
    refine ⟨?_, ?_⟩
    · intro k l0 hk
      simp only [List.lookup_cons]
      by_cases hkk : k = limiterKey conn
      · subst hkk
        rw [hl] at hk
        simp at hk
      · have : (k == limiterKey conn) = false := by simpa using hkk
        rw [this]
        exact hk
    · intro l0 r hr
      refine ⟨r, ?_, rfl⟩
      simp only
      have hlt : l0 < p.objs.length := by
        rcases Nat.lt_or_ge l0 p.objs.length with h | h
        · exact h
        · rw [List.getElem?_eq_none h] at hr; simp at hr
      rw [List.getElem?_append_left hlt]
      exact hr

theorem Process.apply_keeps (p : Process) (op : Process.Op) (p1 : Process)
    (h : Process.apply p op = some p1) : Process.Keeps p p1 := by
  cases op with
  | findOrCreate conn now =>
    simp only [Process.apply, Option.map_eq_some', Prod.exists, exists_and_right,
      exists_eq_right] at h
    obtain ⟨l, hl⟩ := h
    exact findOrCreateLimiter_keeps p conn now p1 l hl
  | worker ptr s =>
    simp only [Process.apply, Option.map_eq_some', Prod.exists, exists_and_right,
      exists_eq_right] at h
    obtain ⟨out, hw⟩ := h
    unfold Process.worker at hw
    cases hg : p.objs[ptr]? with
    | none => rw [hg] at hw; simp at hw
    | some rl =>
      rw [hg] at hw
      simp only at hw
      cases hs : processRequests rl s with
      | none => rw [hs] at hw; simp at hw
      | some res =>
        obtain ⟨rl1, out1⟩ := res
        rw [hs] at hw
        simp only [Option.some.injEq, Prod.mk.injEq] at hw
        rw [← hw.1]
        exact ⟨fun _ _ h => h,
          set_keeps_rateLimit p.objs ptr rl rl1 hg (processRequests_rateLimit rl s rl1 out1 hs)⟩
  | submit ptr fn niceness now doneCh =>
    simp only [Process.apply, Option.map_eq_some', Prod.exists, exists_and_right,
      exists_eq_right] at h
    obtain ⟨d, hw⟩ := h
    unfold Process.submit at hw
    cases hg : p.objs[ptr]? with
    | none => rw [hg] at hw; simp at hw
    | some rl =>
      rw [hg] at hw
      simp only at hw
      cases hs : throttler.submit rl fn niceness now doneCh with
      | none => rw [hs] at hw; simp at hw
      | some res =>
        obtain ⟨rl1, d1⟩ := res
        rw [hs] at hw
        simp only [Option.some.injEq, Prod.mk.injEq] at hw
        rw [← hw.1]
        refine ⟨fun _ _ h => h, set_keeps_rateLimit p.objs ptr rl rl1 hg ?_⟩
        unfold throttler.submit at hs
        simp only at hs
        split at hs
        · simp only [Option.some.injEq, Prod.mk.injEq] at hs
          rw [← hs.1]
        · simp at hs
  | stop ptr =>
    simp only [Process.apply] at h
    unfold Process.stop at h
    cases hg : p.objs[ptr]? with
    | none => rw [hg] at h; simp at h
    | some rl =>
      rw [hg] at h
      simp only at h
      cases hs : throttler.stop rl with
      | none => rw [hs] at h; simp at h
      | some rl1 =>
        rw [hs] at h
        simp only [Option.some.injEq] at h
        rw [← h]
        refine ⟨fun _ _ h => h, set_keeps_rateLimit p.objs ptr rl rl1 hg ?_⟩
        unfold throttler.stop at hs
        split at hs
        · simp at hs
        · simp only [Option.some.injEq] at hs
          rw [← hs]

theorem Process.run_keeps : ∀ (ops : List Process.Op) (p p1 : Process),
    Process.run p ops = some p1 → Process.Keeps p p1 := by
  intro ops
  induction ops with
  | nil =>
    intro p p1 h
    simp only [Process.run, Option.some.injEq] at h
    rw [← h]
    exact keeps_refl p
  | cons op ops ih =>
    intro p p1 h
    simp only [Process.run] at h
    cases ha : Process.apply p op with
    | none => rw [ha] at h; simp at h
    | some p2 =>
      rw [ha] at h
      exact keeps_trans (Process.apply_keeps p op p2 ha) (ih p2 p1 h)


theorem lookup_mem {l : List (String × Nat)} {k : String} {a : Nat}
    (h : l.lookup k = some a) : (k, a) ∈ l := by
  induction l with
  | nil => simp at h
  | cons x xs ih =>
    obtain ⟨k0, a0⟩ := x
    rw [List.lookup_cons] at h
    by_cases hk : k = k0
    · subst hk
      simp only [beq_self_eq_true, Option.some.injEq] at h
      subst h
      exact List.mem_cons_self _ _
    · have : (k == k0) = false := by simpa using hk
      rw [this] at h
      exact List.mem_cons_of_mem _ (ih h)

theorem wf_distinct {p : Process} (hwf : Process.WF p) {k1 k2 : String} {l1 l2 : Nat}
    (h1 : p.globalRegistry.limiters.lookup k1 = some l1)
    (h2 : p.globalRegistry.limiters.lookup k2 = some l2) (hk : k1 ≠ k2) : l1 ≠ l2 := by
  intro e
  subst e
  have := List.inj_on_of_nodup_map hwf.2 (lookup_mem h1) (lookup_mem h2) rfl
  simp only [Prod.mk.injEq, and_true] at this
  exact hk this

theorem wf_bound {p : Process} (hwf : Process.WF p) {k : String} {l : Nat}
    (h : p.globalRegistry.limiters.lookup k = some l) : l < p.objs.length :=
  hwf.1 (k, l) (lookup_mem h)

theorem findOrCreateLimiter_wf (p : Process) (conn : Connection) (now : Int)
    (p1 : Process) (l : Nat) (h : findOrCreateLimiter p conn now = some (p1, l))
    (hwf : Process.WF p) : Process.WF p1 := by
  unfold findOrCreateLimiter at h
  simp only at h
  cases hl : List.lookup (limiterKey conn) p.globalRegistry.limiters with
  | some l0 =>
    rw [hl] at h
    simp only [Option.some.injEq, Prod.mk.injEq] at h
    rw [← h.1]
    exact hwf
  | none =>
    rw [hl] at h
    obtain ⟨rl, e, _⟩ := newConnectionRateLimiter_some conn.RateLimit now
    rw [e] at h
    simp only [Option.some.injEq, Prod.mk.injEq] at h
    rw [← h.1]
    refine ⟨?_, ?_⟩
    · intro kp hkp
      simp only [List.mem_cons] at hkp
      simp only [List.length_append, List.length_singleton]
      rcases hkp with hkp | hkp
      · subst hkp
        simp
      · have := hwf.1 kp hkp
        omega
    · simp only [List.map_cons, List.nodup_cons]
      refine ⟨?_, hwf.2⟩
      intro hmem
      rw [List.mem_map] at hmem
      obtain ⟨kp, hkp, hsnd⟩ := hmem
      have := hwf.1 kp hkp
      omega

theorem Process.apply_wf (p : Process) (op : Process.Op) (p1 : Process)
    (h : Process.apply p op = some p1) (hwf : Process.WF p) : Process.WF p1 := by
  cases op with
  | findOrCreate conn now =>
    simp only [Process.apply, Option.map_eq_some', Prod.exists, exists_and_right,
      exists_eq_right] at h
    obtain ⟨l, hl⟩ := h
    exact findOrCreateLimiter_wf p conn now p1 l hl hwf
  | worker ptr s =>
    simp only [Process.apply, Option.map_eq_some', Prod.exists, exists_and_right,
      exists_eq_right] at h
    obtain ⟨out, hw⟩ := h
    unfold Process.worker at hw
    cases hg : p.objs[ptr]? with
    | none => rw [hg] at hw; simp at hw
    | some rl =>
      rw [hg] at hw
      simp only at hw
      cases hs : processRequests rl s with
      | none => rw [hs] at hw; simp at hw
      | some res =>
        rw [hs] at hw
        simp only [Option.some.injEq, Prod.mk.injEq] at hw
        rw [← hw.1]
        refine ⟨?_, hwf.2⟩
        intro kp hkp
        simp only [List.length_set]
        exact hwf.1 kp hkp
  | submit ptr fn niceness now doneCh =>
    simp only [Process.apply, Option.map_eq_some', Prod.exists, exists_and_right,
      exists_eq_right] at h
    obtain ⟨d, hw⟩ := h
    unfold Process.submit at hw
    cases hg : p.objs[ptr]? with
    | none => rw [hg] at hw; simp at hw
    | some rl =>
      rw [hg] at hw
      simp only at hw
      cases hs : throttler.submit rl fn niceness now doneCh with
      | none => rw [hs] at hw; simp at hw
      | some res =>
        rw [hs] at hw
        simp only [Option.some.injEq, Prod.mk.injEq] at hw
        rw [← hw.1]
        refine ⟨?_, hwf.2⟩
        intro kp hkp
        simp only [List.length_set]
        exact hwf.1 kp hkp
  | stop ptr =>
    simp only [Process.apply] at h
    unfold Process.stop at h
    cases hg : p.objs[ptr]? with
    | none => rw [hg] at h; simp at h
    | some rl =>
      rw [hg] at h
      simp only at h
      cases hs : throttler.stop rl with
      | none => rw [hs] at h; simp at h
      | some rl1 =>
        rw [hs] at h
        simp only [Option.some.injEq] at h
        rw [← h]
        refine ⟨?_, hwf.2⟩
        intro kp hkp
        simp only [List.length_set]
        exact hwf.1 kp hkp

theorem Process.run_wf : ∀ (ops : List Process.Op) (p p1 : Process),
    Process.run p ops = some p1 → Process.WF p → Process.WF p1 := by
  intro ops
  induction ops with
  | nil =>
    intro p p1 h hwf
    simp only [Process.run, Option.some.injEq] at h
    rw [← h]
    exact hwf
  | cons op ops ih =>
    intro p p1 h hwf
    simp only [Process.run] at h
    cases ha : Process.apply p op with
    | none => rw [ha] at h; simp at h
    | some p2 =>
      rw [ha] at h
      exact ih p2 p1 h (Process.apply_wf p op p2 ha hwf)

theorem reachable_wf {p : Process} (h : Process.Reachable p) : Process.WF p := by
  obtain ⟨ops, hrun⟩ := h
  apply Process.run_wf ops Process.start p hrun
  refine ⟨?_, ?_⟩
  · intro kp hkp
    simp [Process.start, newRateLimiterRegistry] at hkp
  · simp [Process.start, newRateLimiterRegistry]

theorem findOrCreateLimiter_spec (p : Process) (c : Connection) (now : Int) :
    ∃ p1 l, findOrCreateLimiter p c now = some (p1, l) ∧
      p1.globalRegistry.limiters.lookup (limiterKey c) = some l ∧
      (∀ l0, p.globalRegistry.limiters.lookup (limiterKey c) = some l0 → l = l0 ∧ p1 = p) ∧
      (p.globalRegistry.limiters.lookup (limiterKey c) = none →
        p1.globalRegistry.limiters = (limiterKey c, l) :: p.globalRegistry.limiters ∧
        ∃ rl, newConnectionRateLimiter c.RateLimit now = some rl ∧
          p1.objs = p.objs ++ [rl] ∧ p1.objs[l]? = some rl ∧
          rl.rateLimit = c.RateLimit) := by
  unfold findOrCreateLimiter
  simp only
  cases hl : List.lookup (limiterKey c) p.globalRegistry.limiters with
  | some l0 =>
    refine ⟨p, l0, rfl, hl, ?_, ?_⟩
    · intro l1 h1
      simp only [Option.some.injEq] at h1
      exact ⟨h1, rfl⟩
    · intro h; simp at h
  | none =>
    obtain ⟨rl, e, hrate, _⟩ := newConnectionRateLimiter_some c.RateLimit now
    rw [e]
    refine ⟨_, _, rfl, ?_, ?_, ?_⟩
    · simp
    · intro l0 h0; simp at h0
    · intro _
      refine ⟨rfl, rl, rfl, rfl, ?_, hrate⟩
      simp


theorem append_sep_inj {α : Type} (x : α) :
    ∀ (a c b d : List α), x ∉ a → x ∉ c → a ++ x :: b = c ++ x :: d → a = c ∧ b = d := by
  intro a
  induction a with
  | nil =>
    intro c b d _ hc h
    cases c with
    | nil =>
      simp only [List.nil_append, List.cons.injEq, true_and] at h
      exact ⟨rfl, h⟩
    | cons y ys =>
      simp only [List.nil_append, List.cons_append, List.cons.injEq] at h
      exact absurd (h.1 ▸ List.mem_cons_self _ _) hc
  | cons z zs ih =>
    intro c b d ha hc h
    cases c with
    | nil =>
      simp only [List.nil_append, List.cons_append, List.cons.injEq] at h
      exact absurd (h.1 ▸ List.mem_cons_self _ _) ha
    | cons y ys =>
      simp only [List.cons_append, List.cons.injEq] at h
      have ha2 : x ∉ zs := fun hm => ha (List.mem_cons_of_mem _ hm)
      have hc2 : x ∉ ys := fun hm => hc (List.mem_cons_of_mem _ hm)
      obtain ⟨e1, e2⟩ := ih ys b d ha2 hc2 h.2
      exact ⟨by rw [h.1, e1], e2⟩

theorem limiterKey_inj (c1 c2 : Connection)
    (h1 : ':' ∉ c1.Platform.toList) (h2 : ':' ∉ c2.Platform.toList)
    (h : limiterKey c1 = limiterKey c2) :
    c1.Platform = c2.Platform ∧ c1.Connection = c2.Connection := by
  unfold limiterKey at h
  have hd := congrArg String.data h
  simp only [String.data_append] at hd
  rw [List.append_assoc, List.append_assoc] at hd
  simp only [List.singleton_append] at hd
  obtain ⟨e1, e2⟩ := append_sep_inj ':' _ _ _ _ h1 h2 hd
  exact ⟨String.ext e1, String.ext e2⟩

/-- A connection whose key is not registered gets the next free pointer. -/
theorem findOrCreateLimiter_fresh (p : Process) (c : Connection) (now : Int)
    (habsent : p.globalRegistry.limiters.lookup (limiterKey c) = none) :
    ∃ p1, findOrCreateLimiter p c now = some (p1, p.objs.length) := by
  obtain ⟨rl, e, _, _⟩ := newConnectionRateLimiter_some c.RateLimit now
  unfold findOrCreateLimiter
  simp only [habsent, e]
  exact ⟨_, rfl⟩

/-- C6: `findOrCreateLimiter` always returns, and afterwards the key
`platform + ":" + connectionId` of the connection is registered for the returned
limiter; if that key was present, the stored limiter is returned and nothing
changes; if it was absent, a limiter built by `newConnectionRateLimiter` from the
rate limit of the connection is allocated at the next free pointer, registered under
that key and returned; and after any further operations of the process, a call for
any connection with the same `platform + ":" + connectionId` returns the same
limiter and changes nothing, and that limiter still has the rate limit it had. -/
theorem findOrCreateLimiter_first_writer_wins (p : Process) (c : Connection) (now : Int) :
    ∃ p1 l, findOrCreateLimiter p c now = some (p1, l) ∧
      p1.globalRegistry.limiters.lookup (c.Platform ++ ":" ++ c.Connection) = some l ∧
      (∀ l0, p.globalRegistry.limiters.lookup (c.Platform ++ ":" ++ c.Connection) = some l0 →
        l = l0 ∧ p1 = p) ∧
      (p.globalRegistry.limiters.lookup (c.Platform ++ ":" ++ c.Connection) = none →
        l = p.objs.length ∧
        p1.globalRegistry.limiters
          = (c.Platform ++ ":" ++ c.Connection, l) :: p.globalRegistry.limiters ∧
        ∃ rl, newConnectionRateLimiter c.RateLimit now = some rl ∧
          p1.objs = p.objs ++ [rl] ∧ p1.objs[l]? = some rl ∧
          rl.rateLimit = c.RateLimit) ∧
      (∀ ops p2, Process.run p1 ops = some p2 →
        ∀ (c2 : Connection) (now2 : Int),
          c2.Platform ++ ":" ++ c2.Connection = c.Platform ++ ":" ++ c.Connection →
          findOrCreateLimiter p2 c2 now2 = some (p2, l) ∧
          ∀ rl : connectionRateLimiter, p1.objs[l]? = some rl →
            ∃ rl2 : connectionRateLimiter,
              p2.objs[l]? = some rl2 ∧ rl2.rateLimit = rl.rateLimit) := by
  obtain ⟨p1, l, hcall, hreg, hpresent, habsent⟩ := findOrCreateLimiter_spec p c now
  refine ⟨p1, l, hcall, hreg, hpresent, ?_, ?_⟩
  · intro hnone
    obtain ⟨p0, h0⟩ := findOrCreateLimiter_fresh p c now hnone
    rw [hcall] at h0
    simp only [Option.some.injEq, Prod.mk.injEq] at h0
    exact ⟨h0.2, habsent hnone⟩
  · intro ops p2 hrun c2 now2 hkey
    have hkeeps := Process.run_keeps ops p1 p2 hrun
    refine ⟨?_, fun rl hrl => hkeeps.2 l rl hrl⟩
    have hl2 := hkeeps.1 _ _ hreg
    have hkey2 : limiterKey c2 = limiterKey c := hkey
    unfold findOrCreateLimiter
    simp only [hkey2, hl2]

/-- C7 (counterexample): the connections ("a", ":b") and ("a:", "b") differ as
pairs, have the same key "a::b", and the registry hands both the same limiter. -/
theorem limiterKey_collision :
    (colonConnA.Platform, colonConnA.Connection) ≠
        (colonConnB.Platform, colonConnB.Connection) ∧
      limiterKey colonConnA = limiterKey colonConnB ∧
      (findOrCreateLimiter Process.start colonConnA 0).map Prod.snd = some 0 ∧
      ((findOrCreateLimiter Process.start colonConnA 0).bind
        (fun r => findOrCreateLimiter r.1 colonConnB 0)).map Prod.snd = some 0 := by
  decide!

/-- C7 (amended): for two connections whose platform strings contain no ':' and
whose (platform, connectionId) pairs differ, the keys differ, and in every process
state the registry returns two different limiter instances for them. -/
theorem distinct_connections_get_distinct_limiters (p : Process)
    (hp : Process.Reachable p) (c1 c2 : Connection) (now1 now2 : Int)
    (h1 : ':' ∉ c1.Platform.toList) (h2 : ':' ∉ c2.Platform.toList)
    (hne : (c1.Platform, c1.Connection) ≠ (c2.Platform, c2.Connection)) :
    limiterKey c1 ≠ limiterKey c2 ∧
    ∃ p1 l1 p2 l2, findOrCreateLimiter p c1 now1 = some (p1, l1) ∧
      findOrCreateLimiter p1 c2 now2 = some (p2, l2) ∧ l1 ≠ l2 := by
  have hkey : limiterKey c1 ≠ limiterKey c2 := by
    intro e
    obtain ⟨e1, e2⟩ := limiterKey_inj c1 c2 h1 h2 e
    exact hne (by rw [e1, e2])
  refine ⟨hkey, ?_⟩
  obtain ⟨p1, l1, hcall1, hreg1, _, _⟩ := findOrCreateLimiter_spec p c1 now1
  obtain ⟨p2, l2, hcall2, hreg2, _, _⟩ := findOrCreateLimiter_spec p1 c2 now2
  refine ⟨p1, l1, p2, l2, hcall1, hcall2, ?_⟩
  have hwf1 := findOrCreateLimiter_wf p c1 now1 p1 l1 hcall1 (reachable_wf hp)
  have hwf2 := findOrCreateLimiter_wf p1 c2 now2 p2 l2 hcall2 hwf1
  have hreg1b := (findOrCreateLimiter_keeps p1 c2 now2 p2 l2 hcall2).1 _ _ hreg1
  exact wf_distinct hwf2 hreg1b hreg2 hkey

theorem Process.worker_frame (p : Process) (l1 : Nat)
    (p1 : Process) (hobjs : p1.objs[l1]? = p.objs[l1]?) (s : Stimulus) :
    (Process.worker p1 l1 s).map Prod.snd = (Process.worker p l1 s).map Prod.snd := by
  unfold Process.worker
  rw [hobjs]
  cases p.objs[l1]? with
  | none => rfl
  | some rl =>
    simp only
    cases processRequests rl s with
    | none => rfl
    | some res => rfl

/-- C8: in every process state, for two different registered keys `k1` and `k2`,
a worker step (an arrival, a tick, a quit) or a `submit` on the limiter of `k2`
leaves the limiter of `k1` as it is, tokens, lastRefill, queue and all, and leaves
the registry as it is, so the requests `k1` dispatches on its next tick are the
same as without that step. -/
theorem limiters_are_isolated (p : Process) (hp : Process.Reachable p)
    (k1 k2 : String) (l1 l2 : Nat) (hk : k1 ≠ k2)
    (h1 : p.globalRegistry.limiters.lookup k1 = some l1)
    (h2 : p.globalRegistry.limiters.lookup k2 = some l2) :
    (∃ rl : connectionRateLimiter, p.objs[l1]? = some rl) ∧
    (∀ s p1 out, Process.worker p l2 s = some (p1, out) →
      p1.objs[l1]? = p.objs[l1]? ∧ p1.globalRegistry = p.globalRegistry ∧
      ∀ now, (Process.worker p1 l1 (.tick now)).map Prod.snd
        = (Process.worker p l1 (.tick now)).map Prod.snd) ∧
    (∀ fn niceness now doneCh p1 d,
      Process.submit p l2 fn niceness now doneCh = some (p1, d) →
      p1.objs[l1]? = p.objs[l1]? ∧ p1.globalRegistry = p.globalRegistry ∧
      ∀ now1, (Process.worker p1 l1 (.tick now1)).map Prod.snd
        = (Process.worker p l1 (.tick now1)).map Prod.snd) := by
  have hwf := (reachable_wf hp)
  have hl : l1 ≠ l2 := wf_distinct hwf h1 h2 hk
  have hl' : ¬ l2 = l1 := fun e => hl e.symm
  have hb := wf_bound hwf h1
  refine ⟨⟨p.objs[l1], List.getElem?_eq_getElem hb⟩, ?_, ?_⟩
  · intro s p1 out hw
    have hobjs : p1.objs[l1]? = p.objs[l1]? ∧ p1.globalRegistry = p.globalRegistry := by
      unfold Process.worker at hw
      cases hg : p.objs[l2]? with
      | none => rw [hg] at hw; simp at hw
      | some rl =>
        rw [hg] at hw
        simp only at hw
        cases hs : processRequests rl s with
        | none => rw [hs] at hw; simp at hw
        | some res =>
          rw [hs] at hw
          simp only [Option.some.injEq, Prod.mk.injEq] at hw
          rw [← hw.1]
          simp [List.getElem?_set, hl']
    exact ⟨hobjs.1, hobjs.2, fun now => Process.worker_frame p l1 p1 hobjs.1 _⟩
  · intro fn niceness now doneCh p1 d hw
    have hobjs : p1.objs[l1]? = p.objs[l1]? ∧ p1.globalRegistry = p.globalRegistry := by
      unfold Process.submit at hw
      cases hg : p.objs[l2]? with
      | none => rw [hg] at hw; simp at hw
      | some rl =>
        rw [hg] at hw
        simp only at hw
        cases hs : throttler.submit rl fn niceness now doneCh with
        | none => rw [hs] at hw; simp at hw
        | some res =>
          rw [hs] at hw
          simp only [Option.some.injEq, Prod.mk.injEq] at hw
          rw [← hw.1]
          simp [List.getElem?_set, hl']
    exact ⟨hobjs.1, hobjs.2, fun now1 => Process.worker_frame p l1 p1 hobjs.1 _⟩


/-! ## The theorems at sample states -/

theorem demoQueue_reached : Reached demoQueue :=
  Reached.push [lowA, { lowB with index := 1 }] high demoQueue
    (Reached.push [lowA] lowB [lowA, { lowB with index := 1 }]
      (Reached.push [] lowA [lowA] Reached.empty (by decide)) (by decide))
    (by decide)

theorem freshLimiter_reachable : Reachable freshLimiter :=
  Reachable.init { RequestCount := 2, WindowSeconds := 1 } 0 freshLimiter
    (by decide) (by decide) (by decide!)

theorem twoLimiters_reachable : Process.Reachable twoLimiters :=
  ⟨[.findOrCreate conn1 0, .findOrCreate conn2 0], by decide!⟩

/-- C3 at a sample state: two tokens, two niceness-10 requests queued before a
niceness-0 request. -/
theorem dispatch_burst_priority_order_witness :
    demoLimiter.worker = true ∧ Reached demoLimiter.queue ∧
    (processRequests demoLimiter (.tick 10000000)).map Prod.snd
      = some [{ high with index := -1 }, { lowA with index := -1 }] ∧
    ∃ rl1 out, processRequests demoLimiter (.tick 10000000) = some (rl1, out) ∧
      (payloads demoLimiter.queue).Perm (payloads out ++ payloads rl1.queue) ∧
      out.Pairwise (fun a b => requestItem.less b a = false) ∧
      (∀ a ∈ out, ∀ b ∈ rl1.queue, requestItem.less b a = false) ∧
      (∀ b ∈ out, ∀ a ∈ demoLimiter.queue, requestItem.less a b = true →
        a.payload ∈ payloads out) :=
  ⟨rfl, demoQueue_reached, by decide!,
    dispatch_burst_priority_order demoLimiter 10000000 rfl demoQueue_reached⟩

/-- C4 at a sample state. -/
theorem heap_pop_returns_minimum_witness :
    Reached demoQueue ∧ demoQueue ≠ [] ∧
    (heap.Pop demoQueue).map Prod.fst = some { high with index := -1 } ∧
    ∃ r h1, heap.Pop demoQueue = some (r, h1) ∧ r.payload ∈ payloads demoQueue ∧
      (∀ x ∈ demoQueue, requestItem.less x r = false) ∧
      (∀ x ∈ demoQueue, r.niceness ≤ x.niceness ∧
        (x.niceness = r.niceness → r.timestamp ≤ x.timestamp)) :=
  ⟨demoQueue_reached, by decide, by decide,
    heap_pop_returns_minimum demoQueue demoQueue_reached (by decide)⟩

/-- C7 (amended) at the two connections of `TestMultipleConnections`. -/
theorem distinct_connections_get_distinct_limiters_witness :
    Process.Reachable Process.start ∧
    ':' ∉ conn1.Platform.toList ∧ ':' ∉ conn2.Platform.toList ∧
    (conn1.Platform, conn1.Connection) ≠ (conn2.Platform, conn2.Connection) ∧
    limiterKey conn1 ≠ limiterKey conn2 ∧
    ∃ p1 l1 p2 l2, findOrCreateLimiter Process.start conn1 0 = some (p1, l1) ∧
      findOrCreateLimiter p1 conn2 0 = some (p2, l2) ∧ l1 ≠ l2 :=
  ⟨⟨[], rfl⟩, by decide, by decide, by decide,
    distinct_connections_get_distinct_limiters Process.start ⟨[], rfl⟩ conn1 conn2 0 0
      (by decide) (by decide) (by decide)⟩

/-- C8 at the process holding the limiters of `conn1` and `conn2`: a tick of the
worker of `conn2` leaves the limiter of `conn1` and its next dispatch as they are. -/
theorem limiters_are_isolated_witness :
    Process.Reachable twoLimiters ∧ "test:conn1" ≠ "test:conn2" ∧
    twoLimiters.globalRegistry.limiters.lookup "test:conn1" = some 0 ∧
    twoLimiters.globalRegistry.limiters.lookup "test:conn2" = some 1 ∧
    Process.worker twoLimiters 1 (.tick 10000000) = some (twoLimitersTicked, []) ∧
    twoLimitersTicked.objs[0]? = twoLimiters.objs[0]? ∧
    twoLimitersTicked.globalRegistry = twoLimiters.globalRegistry ∧
    ∀ now, (Process.worker twoLimitersTicked 0 (.tick now)).map Prod.snd
      = (Process.worker twoLimiters 0 (.tick now)).map Prod.snd :=
  ⟨twoLimiters_reachable, by decide, by decide, by decide, by decide!,
    ((limiters_are_isolated twoLimiters twoLimiters_reachable "test:conn1" "test:conn2" 0 1
      (by decide) (by decide) (by decide)).2.1 (.tick 10000000) twoLimitersTicked []
      (by decide!)).1,
    ((limiters_are_isolated twoLimiters twoLimiters_reachable "test:conn1" "test:conn2" 0 1
      (by decide) (by decide) (by decide)).2.1 (.tick 10000000) twoLimitersTicked []
      (by decide!)).2.1,
    ((limiters_are_isolated twoLimiters twoLimiters_reachable "test:conn1" "test:conn2" 0 1
      (by decide) (by decide) (by decide)).2.1 (.tick 10000000) twoLimitersTicked []
      (by decide!)).2.2⟩

/-- C5 at a sample call: `fn` doubles its argument and returns no error. -/
theorem throttle_returns_fn_result_witness :
    ∃ s : CallState Nat String,
      Throttle.run (fun n : Nat => (2 * n, (none : Option String))) 21 (Throttle.init 0)
        [.dispatch, .runFunction, .closeDone, .receiveDone] = some s ∧
      s.returned = some (42, none) :=
  (throttle_returns_fn_result (fun n : Nat => (2 * n, (none : Option String))) 21 0).2

/-- C6 at start-up: `conn1` creates the limiter at pointer 0 under the key
"test:conn1"; a later call with the same platform and connection id and another rate
limit gets the same limiter, which has the rate limit of `conn1`; `conn2`, whose
key "test:conn2" is not registered, gets a new limiter at pointer 1. -/
theorem findOrCreateLimiter_first_writer_wins_witness :
    conn1.Platform ++ ":" ++ conn1.Connection = "test:conn1" ∧
    conn2.Platform ++ ":" ++ conn2.Connection = "test:conn2" ∧
    ∃ p1 l, findOrCreateLimiter Process.start conn1 0 = some (p1, l) ∧ l = 0 ∧
      p1.globalRegistry.limiters = [("test:conn1", 0)] ∧
      findOrCreateLimiter p1 conn1Other 5 = some (p1, l) ∧
      conn1Other.RateLimit ≠ conn1.RateLimit ∧
      (∃ rl : connectionRateLimiter, p1.objs[l]? = some rl ∧
        rl.rateLimit = { RequestCount := 3, WindowSeconds := 1 }) ∧
      ∃ p2 l2, findOrCreateLimiter p1 conn2 7 = some (p2, l2) ∧ l2 = 1 ∧
        p2.globalRegistry.limiters = [("test:conn2", 1), ("test:conn1", 0)] := by
  obtain ⟨p1, l, hcall, _, _, habsent, hlater⟩ :=
    findOrCreateLimiter_first_writer_wins Process.start conn1 0
  obtain ⟨hl, hregs, rl, _, hobjs, hget, hrate⟩ := habsent (by decide)
  have hl0 : l = 0 := hl
  have hregs1 : p1.globalRegistry.limiters = [("test:conn1", 0)] := by
    rw [hregs, hl0]; rfl
  obtain ⟨p2, l2, hcall2, _, _, habsent2, _⟩ :=
    findOrCreateLimiter_first_writer_wins p1 conn2 7
  obtain ⟨hl2, hregs2, _⟩ := habsent2 (by rw [hregs1]; decide)
  have hl21 : l2 = 1 := by
    rw [hl2, hobjs]; rfl
  refine ⟨by decide, by decide, p1, l, hcall, hl0, hregs1,
    (hlater [] p1 rfl conn1Other 5 rfl).1, by decide, ⟨rl, hget, hrate⟩,
    p2, l2, hcall2, hl21, ?_⟩
  rw [hregs2, hl21, hregs1]
  rfl

/-- C10 at a sample run: a pop, a push and a pop on `demoQueue`. -/
theorem queue_keeps_every_request_witness :
    demoQueue ≠ [] ∧
    QueueOp.run demoQueue [.pop, .push lowA, .pop]
      = some ([lowA, { lowB with index := 1 }],
          [{ high with index := -1 }, { lowA with index := -1 }]) ∧
    Multiset.ofList (payloads demoQueue)
        + Multiset.ofList (payloads (QueueOp.pushed [.pop, .push lowA, .pop]))
      = Multiset.ofList (payloads [{ high with index := -1 }, { lowA with index := -1 }])
        + Multiset.ofList (payloads [lowA, { lowB with index := 1 }]) :=
  ⟨by decide, by decide,
    (queue_keeps_every_request demoQueue lowA [.pop, .push lowA, .pop]).2.2 _ _ (by decide)⟩


/-! ## The tick -/

theorem Pop_some (h : priorityQueue) (hne : 0 < h.length) :
    ∃ r h3, heap.Pop h = some (r, h3) ∧ h3.length + 1 = h.length ∧
      (payloads h).Perm (r.payload :: payloads h3) := by
  have h0 : h[0]? = some h[0] := List.getElem?_eq_getElem hne
  obtain ⟨h3, e, hlen, hperm, _⟩ := Pop_spec h (h.length - 1) h[0] (by omega) h0
  exact ⟨_, h3, e, by omega, hperm⟩

theorem dispatch_full : ∀ (fuel : Nat) (rl : connectionRateLimiter) (out : List requestItem),
    rl.queue.length < fuel →
    ∃ rl1 d, dispatch fuel rl out = some (rl1, out ++ d) ∧
      d.length = min ⌊rl.tokens⌋₊ rl.queue.length ∧
      rl1.tokens = rl.tokens - (d.length : ℚ) ∧
      rl1.queue.length + d.length = rl.queue.length ∧
      (rl1.tokens < 1 ∨ rl1.queue = []) ∧
      (payloads rl.queue).Perm (payloads d ++ payloads rl1.queue) ∧
      rl1 = { rl with tokens := rl1.tokens, queue := rl1.queue } := by
  intro fuel
  induction fuel with
  | zero => intro rl out hf; omega
  | succ f ih =>
    intro rl out hf
    unfold dispatch
    by_cases hg : rl.tokens ≥ 1 ∧ priorityQueue.Len rl.queue > 0
    · simp only [hg, and_self, if_true]
      have hpos : 0 < rl.queue.length := hg.2
      obtain ⟨r, h3, e, hlen3, hperm⟩ := Pop_some rl.queue hpos
      simp only [e]
      obtain ⟨rl1, d, hd, hcount, htok, hqlen, hexit, hperm2, hframe⟩ :=
        ih { rl with queue := h3, tokens := rl.tokens - 1 } (out ++ [r])
          (by simp only; omega)
      simp only at hcount htok hqlen hperm2 hframe
      have hfl : ⌊rl.tokens - 1⌋₊ = ⌊rl.tokens⌋₊ - 1 := Nat.floor_sub_one _
      have hfpos : 0 < ⌊rl.tokens⌋₊ := Nat.floor_pos.mpr hg.1
      refine ⟨rl1, r :: d, ?_, ?_, ?_, ?_, hexit, ?_, ?_⟩
      · rw [hd, List.append_assoc]; rfl
      · simp only [List.length_cons]
        rw [hcount, hfl]
        omega
      · rw [htok]
        simp only [List.length_cons]
        push_cast
        ring
      · simp only [List.length_cons]
        omega
      · refine hperm.trans ?_
        show (r.payload :: payloads h3).Perm (r.payload :: payloads d ++ payloads rl1.queue)
        exact List.Perm.cons _ hperm2
      · rw [hframe]
    · simp only [hg, if_false]
      refine ⟨rl, [], by simp, ?_, by simp, by simp, ?_, by simp [payloads], rfl⟩
      · simp only [List.length_nil]
        rcases not_and_or.mp hg with h1 | h1
        · have : ⌊rl.tokens⌋₊ = 0 := Nat.floor_eq_zero.mpr (not_le.mp h1)
          rw [this]; simp
        · have : rl.queue.length = 0 := by
            unfold priorityQueue.Len at h1; omega
          rw [this]; simp
      · rcases not_and_or.mp hg with h1 | h1
        · exact Or.inl (not_le.mp h1)
        · right
          have : rl.queue.length = 0 := by
            unfold priorityQueue.Len at h1; omega
          exact List.length_eq_zero.mp this


/-- One tick of a running worker, in full: the step returns, the number of requests
dispatched is `min(floor(T), L)` for the balance `T` after the refill and the queue
length `L` before the tick, the balance ends at `T` minus that count, the queue
length at `L` minus that count, afterwards `tokens < 1` or the queue is empty, and
nothing but `tokens` and `queue` differs from the refilled state. -/
theorem tick_spec (rl : connectionRateLimiter) (now : Int)
    (hw : rl.worker = true) :
    ∃ rl1 out, processRequests rl (.tick now) = some (rl1, out) ∧
      out.length = min ⌊(refillTokens rl now).tokens⌋₊ rl.queue.length ∧
      rl1.tokens = (refillTokens rl now).tokens - (out.length : ℚ) ∧
      rl1.queue.length = rl.queue.length - out.length ∧
      (rl1.tokens < 1 ∨ rl1.queue = []) ∧
      rl1 = { refillTokens rl now with tokens := rl1.tokens, queue := rl1.queue } ∧
      (0 ≤ (refillTokens rl now).tokens →
        (out.length : Int) = min ⌊(refillTokens rl now).tokens⌋ (rl.queue.length : Int)) := by
  obtain ⟨rl1, d, hd, hcount, htok, hqlen, hexit, _, hframe⟩ :=
    dispatch_full (priorityQueue.Len rl.queue + 1) (refillTokens rl now) []
      (by rw [refillTokens_queue]; unfold priorityQueue.Len; omega)
  rw [refillTokens_queue] at hcount hqlen
  simp only [List.nil_append] at hd
  refine ⟨rl1, d, ?_, hcount, htok, by omega, hexit, hframe, ?_⟩
  · simp only [processRequests, hw, if_true]
    exact hd
  · intro h0
    have hfl : ((⌊(refillTokens rl now).tokens⌋₊ : ℕ) : Int) = ⌊(refillTokens rl now).tokens⌋ :=
      Int.natCast_floor_eq_floor h0
    rw [hcount, ← hfl]
    omega

/-! ## The tick in binary64 -/

theorem floorLog2_loop_spec : ∀ (fuel n : Nat), 0 < n → n ≤ fuel →
    2 ^ floorLog2.loop fuel n ≤ n ∧ n < 2 ^ (floorLog2.loop fuel n + 1) := by
  intro fuel
  induction fuel with
  | zero => intro n h0 h1; omega
  | succ f ih =>
    intro n h0 h1
    unfold floorLog2.loop
    by_cases h2 : 2 ≤ n
    · simp only [h2, if_true]
      have hdiv : 0 < n / 2 := Nat.div_pos h2 (by norm_num)
      have hle : n / 2 ≤ f := by omega
      obtain ⟨ha, hb⟩ := ih (n / 2) hdiv hle
      constructor
      · rw [pow_succ]; omega
      · rw [pow_succ]; omega
    · simp only [h2, if_false]
      constructor
      · simp; omega
      · simp; omega

theorem floorLog2_spec (n : Nat) (h : 0 < n) :
    2 ^ floorLog2 n ≤ n ∧ n < 2 ^ (floorLog2 n + 1) :=
  floorLog2_loop_spec n n h (le_refl n)

theorem roundEven_mul (M d : Nat) (hd : 0 < d) : roundEven (M * d) d = M := by
  unfold roundEven
  simp only [Nat.mul_mod_left, Nat.mul_zero]
  rw [Nat.mul_div_cancel _ hd]
  simp [hd]

theorem binade_generic (n d : Nat) (hn : 0 < n) (hd : 0 < d) :
    (2 : ℚ) ^ ((floorLog2 n : Int) - (floorLog2 d : Int) - 1) ≤ (n : ℚ) / (d : ℚ) := by
  obtain ⟨ha, _⟩ := floorLog2_spec n hn
  obtain ⟨_, hb⟩ := floorLog2_spec d hd
  have h2 : (2 : ℚ) ≠ 0 := by norm_num
  have e : (2 : ℚ) ^ ((floorLog2 n : Int) - (floorLog2 d : Int) - 1)
      = (2 : ℚ) ^ (floorLog2 n) / (2 : ℚ) ^ (floorLog2 d + 1) := by
    have : (floorLog2 n : Int) - (floorLog2 d : Int) - 1
        = (floorLog2 n : Int) - ((floorLog2 d + 1 : Nat) : Int) := by push_cast; ring
    rw [this, zpow_sub₀ h2, zpow_natCast, zpow_natCast]
  rw [e]
  have haq : (2 : ℚ) ^ (floorLog2 n) ≤ (n : ℚ) := by exact_mod_cast ha
  have hbq : (d : ℚ) ≤ (2 : ℚ) ^ (floorLog2 d + 1) := by exact_mod_cast le_of_lt hb
  have hdq : (0 : ℚ) < (d : ℚ) := by exact_mod_cast hd
  have hnq : (0 : ℚ) ≤ (n : ℚ) := by positivity
  exact div_le_div₀ hnq haq hdq hbq

theorem binade_le (n d : Nat) (hn : 0 < n) (hd : 0 < d) :
    (2 : ℚ) ^ (binade n d) ≤ (n : ℚ) / (d : ℚ) := by
  have hgen := binade_generic n d hn hd
  have hdq : (0 : ℚ) < (d : ℚ) := by exact_mod_cast hd
  unfold binade
  simp only
  by_cases hk : 0 ≤ (floorLog2 n : Int) - (floorLog2 d : Int)
  · simp only [hk, if_true]
    by_cases ht : d <<< ((floorLog2 n : Int) - (floorLog2 d : Int)).toNat ≤ n
    · simp only [ht, decide_True, if_true]
      rw [Nat.shiftLeft_eq] at ht
      have hq : ((d * 2 ^ ((floorLog2 n : Int) - (floorLog2 d : Int)).toNat : Nat) : ℚ) ≤ (n : ℚ) := by
        exact_mod_cast ht
      push_cast at hq
      have hz : (2 : ℚ) ^ ((floorLog2 n : Int) - (floorLog2 d : Int))
          = (2 : ℚ) ^ (((floorLog2 n : Int) - (floorLog2 d : Int)).toNat) := by
        rw [← zpow_natCast, Int.toNat_of_nonneg hk]
      rw [hz, le_div_iff₀ hdq]
      linarith
    · simp only [ht, decide_False, Bool.false_eq_true, if_false]
      exact hgen
  · simp only [hk, if_false]
    by_cases ht : d ≤ n <<< (-((floorLog2 n : Int) - (floorLog2 d : Int))).toNat
    · simp only [ht, decide_True, if_true]
      rw [Nat.shiftLeft_eq] at ht
      have hq : (d : ℚ) ≤ ((n * 2 ^ (-((floorLog2 n : Int) - (floorLog2 d : Int))).toNat : Nat) : ℚ) := by
        exact_mod_cast ht
      push_cast at hq
      have hneg : 0 ≤ -((floorLog2 n : Int) - (floorLog2 d : Int)) := by omega
      have hz : (2 : ℚ) ^ ((floorLog2 n : Int) - (floorLog2 d : Int))
          = ((2 : ℚ) ^ ((-((floorLog2 n : Int) - (floorLog2 d : Int))).toNat))⁻¹ := by
        rw [← zpow_natCast, Int.toNat_of_nonneg hneg, zpow_neg, inv_inv]
      rw [hz, le_div_iff₀ hdq]
      have hp : (0 : ℚ) < (2 : ℚ) ^ ((-((floorLog2 n : Int) - (floorLog2 d : Int))).toNat) := by
        positivity
      rw [inv_mul_le_iff₀ hp]
      linarith
    · simp only [ht, decide_False, Bool.false_eq_true, if_false]
      exact hgen

theorem binade_generic_lt (n d : Nat) (hn : 0 < n) (hd : 0 < d) :
    (n : ℚ) / (d : ℚ) < (2 : ℚ) ^ ((floorLog2 n : Int) - (floorLog2 d : Int) + 1) := by
  obtain ⟨_, ha⟩ := floorLog2_spec n hn
  obtain ⟨hb, _⟩ := floorLog2_spec d hd
  have h2 : (2 : ℚ) ≠ 0 := by norm_num
  have e : (2 : ℚ) ^ ((floorLog2 n : Int) - (floorLog2 d : Int) + 1)
      = (2 : ℚ) ^ (floorLog2 n + 1) / (2 : ℚ) ^ (floorLog2 d) := by
    have : (floorLog2 n : Int) - (floorLog2 d : Int) + 1
        = ((floorLog2 n + 1 : Nat) : Int) - (floorLog2 d : Int) := by push_cast; ring
    rw [this, zpow_sub₀ h2, zpow_natCast, zpow_natCast]
  rw [e]
  have haq : (n : ℚ) < (2 : ℚ) ^ (floorLog2 n + 1) := by exact_mod_cast ha
  have hbq : (2 : ℚ) ^ (floorLog2 d) ≤ (d : ℚ) := by exact_mod_cast hb
  have hdq : (0 : ℚ) < (d : ℚ) := by exact_mod_cast hd
  have hpq : (0 : ℚ) < (2 : ℚ) ^ (floorLog2 d) := by positivity
  rw [div_lt_div_iff₀ hdq hpq]
  calc (n : ℚ) * (2 : ℚ) ^ (floorLog2 d) ≤ (n : ℚ) * (d : ℚ) :=
        mul_le_mul_of_nonneg_left hbq (by positivity)
    _ < (2 : ℚ) ^ (floorLog2 n + 1) * (d : ℚ) := mul_lt_mul_of_pos_right haq hdq

theorem binade_lt (n d : Nat) (hn : 0 < n) (hd : 0 < d) :
    (n : ℚ) / (d : ℚ) < (2 : ℚ) ^ (binade n d + 1) := by
  have hgen := binade_generic_lt n d hn hd
  have hdq : (0 : ℚ) < (d : ℚ) := by exact_mod_cast hd
  unfold binade
  simp only
  by_cases hk : 0 ≤ (floorLog2 n : Int) - (floorLog2 d : Int)
  · simp only [hk, if_true]
    by_cases ht : d <<< ((floorLog2 n : Int) - (floorLog2 d : Int)).toNat ≤ n
    · simp only [ht, decide_True, if_true]
      exact hgen
    · simp only [ht, decide_False, Bool.false_eq_true, if_false]
      rw [Nat.shiftLeft_eq] at ht
      have hq : (n : ℚ) < ((d * 2 ^ ((floorLog2 n : Int) - (floorLog2 d : Int)).toNat : Nat) : ℚ) := by
        exact_mod_cast not_le.mp ht
      push_cast at hq
      have hz : (2 : ℚ) ^ ((floorLog2 n : Int) - (floorLog2 d : Int) - 1 + 1)
          = (2 : ℚ) ^ (((floorLog2 n : Int) - (floorLog2 d : Int)).toNat) := by
        rw [← zpow_natCast, Int.toNat_of_nonneg hk]
        congr 1
        ring
      rw [hz, div_lt_iff₀ hdq]
      linarith
  · simp only [hk, if_false]
    by_cases ht : d ≤ n <<< (-((floorLog2 n : Int) - (floorLog2 d : Int))).toNat
    · simp only [ht, decide_True, if_true]
      exact hgen
    · simp only [ht, decide_False, Bool.false_eq_true, if_false]
      rw [Nat.shiftLeft_eq] at ht
      have hq : ((n * 2 ^ (-((floorLog2 n : Int) - (floorLog2 d : Int))).toNat : Nat) : ℚ) < (d : ℚ) := by
        exact_mod_cast not_le.mp ht
      push_cast at hq
      have hneg : 0 ≤ -((floorLog2 n : Int) - (floorLog2 d : Int)) := by omega
      have hz : (2 : ℚ) ^ ((floorLog2 n : Int) - (floorLog2 d : Int) - 1 + 1)
          = ((2 : ℚ) ^ ((-((floorLog2 n : Int) - (floorLog2 d : Int))).toNat))⁻¹ := by
        rw [← zpow_natCast, Int.toNat_of_nonneg hneg, zpow_neg, inv_inv]
        congr 1
        ring
      have hp : (0 : ℚ) < (2 : ℚ) ^ ((-((floorLog2 n : Int) - (floorLog2 d : Int))).toNat) := by
        positivity
      rw [hz, div_lt_iff₀ hdq, lt_inv_mul_iff₀ hp]
      linarith

theorem roundEven_le (n d B : Nat) (hd : 0 < d) (h : n < B * d) : roundEven n d ≤ B := by
  have hq : n / d < B := (Nat.div_lt_iff_lt_mul hd).mpr h
  unfold roundEven
  simp only
  split
  · omega
  · split
    · omega
    · split <;> omega

theorem round64Pos_exact (n d m : Nat) (e : Int) (hn : 0 < n) (hd : 0 < d)
    (hm : m < 2 ^ 53) (he1 : -1074 ≤ e) (he2 : e ≤ 971)
    (hq : (n : ℚ) / (d : ℚ) = (m : ℚ) * (2 : ℚ) ^ e) :
    round64Pos n d = .fin ((m : ℚ) * (2 : ℚ) ^ e) := by
  have hdq : (0 : ℚ) < (d : ℚ) := by exact_mod_cast hd
  have h2 : (2 : ℚ) ≠ 0 := by norm_num
  have hb := binade_le n d hn hd
  have hE : max (binade n d - 52) (-1074) ≤ e := by
    apply max_le _ he1
    by_contra hcon
    have hlt : e + 53 ≤ binade n d := by omega
    have h1 : (2 : ℚ) ^ (e + 53) ≤ (2 : ℚ) ^ (binade n d) :=
      zpow_le_zpow_right₀ (by norm_num) hlt
    have h3 : (2 : ℚ) ^ (e + 53) = (2 : ℚ) ^ e * (2 : ℚ) ^ (53 : Nat) := by
      rw [zpow_add₀ h2]; norm_cast
    have hpos : (0 : ℚ) < (2 : ℚ) ^ e := by positivity
    have hmq : (m : ℚ) < (2 : ℚ) ^ (53 : Nat) := by exact_mod_cast hm
    have : (m : ℚ) * (2 : ℚ) ^ e < (2 : ℚ) ^ e * (2 : ℚ) ^ (53 : Nat) := by
      rw [mul_comm]; exact mul_lt_mul_of_pos_left hmq hpos
    linarith
  obtain ⟨E, hEdef⟩ : ∃ E, E = max (binade n d - 52) (-1074) := ⟨_, rfl⟩
  rw [← hEdef] at hE
  have hsplit : (m : ℚ) * (2 : ℚ) ^ e
      = ((m * 2 ^ (e - E).toNat : Nat) : ℚ) * (2 : ℚ) ^ E := by
    push_cast
    rw [mul_assoc, ← zpow_natCast, Int.toNat_of_nonneg (by omega), ← zpow_add₀ h2]
    congr 2
    ring
  have hM : (if 0 ≤ E then roundEven n (d <<< E.toNat) else roundEven (n <<< (-E).toNat) d)
      = m * 2 ^ (e - E).toNat := by
    by_cases h0 : 0 ≤ E
    · simp only [h0, if_true]
      have hz : (2 : ℚ) ^ E = (2 : ℚ) ^ E.toNat := by
        rw [← zpow_natCast, Int.toNat_of_nonneg h0]
      have hnat : n = m * 2 ^ (e - E).toNat * (d <<< E.toNat) := by
        rw [Nat.shiftLeft_eq]
        have : (n : ℚ) = ((m * 2 ^ (e - E).toNat * (d * 2 ^ E.toNat) : Nat) : ℚ) := by
          rw [div_eq_iff (ne_of_gt hdq), hsplit, hz] at hq
          rw [hq]; push_cast; ring
        exact_mod_cast this
      have hpos : 0 < d <<< E.toNat := by
        rw [Nat.shiftLeft_eq]; positivity
      rw [hnat]
      exact roundEven_mul _ _ hpos
    · simp only [h0, if_false]
      have hneg : 0 ≤ -E := by omega
      have hz : (2 : ℚ) ^ E = ((2 : ℚ) ^ (-E).toNat)⁻¹ := by
        rw [← zpow_natCast, Int.toNat_of_nonneg hneg, zpow_neg, inv_inv]
      have hnat : n <<< (-E).toNat = m * 2 ^ (e - E).toNat * d := by
        rw [Nat.shiftLeft_eq]
        have hp : (0 : ℚ) < (2 : ℚ) ^ (-E).toNat := by positivity
        have : ((n * 2 ^ (-E).toNat : Nat) : ℚ) = ((m * 2 ^ (e - E).toNat * d : Nat) : ℚ) := by
          rw [div_eq_iff (ne_of_gt hdq), hsplit, hz] at hq
          push_cast
          rw [hq]
          field_simp
        exact_mod_cast this
      rw [hnat]
      exact roundEven_mul _ _ hd
  unfold round64Pos
  simp only
  rw [← hEdef, hM]
  have hno : ¬ (971 < E ∨ (E = 971 ∧ m * 2 ^ (e - E).toNat = 2 ^ 53)) := by
    rintro (h | ⟨h1, h3⟩)
    · omega
    · have he : e = 971 := by omega
      rw [h1, he] at h3
      simp at h3
      omega
  rw [if_neg hno, hsplit]

theorem round64_exact (m : Nat) (e : Int) (hm : m < 2 ^ 53) (he1 : -1074 ≤ e) (he2 : e ≤ 971) :
    round64 ((m : ℚ) * (2 : ℚ) ^ e) = .fin ((m : ℚ) * (2 : ℚ) ^ e) := by
  by_cases h0 : m = 0
  · subst h0
    simp [round64]
  · have hmpos : 0 < m := Nat.pos_of_ne_zero h0
    have hpos : (0 : ℚ) < (m : ℚ) * (2 : ℚ) ^ e := by positivity
    unfold round64
    rw [if_neg (ne_of_gt hpos), if_pos hpos]
    have hnum : 0 < ((m : ℚ) * (2 : ℚ) ^ e).num := Rat.num_pos.mpr hpos
    have hcast : ((((m : ℚ) * (2 : ℚ) ^ e).num.natAbs : Nat) : ℚ)
        = ((((m : ℚ) * (2 : ℚ) ^ e).num : Int) : ℚ) := by
      have hi : ((((m : ℚ) * (2 : ℚ) ^ e).num.natAbs : Nat) : Int)
          = ((m : ℚ) * (2 : ℚ) ^ e).num := Int.natAbs_of_nonneg (le_of_lt hnum)
      rw [← Int.cast_natCast, hi]
    apply round64Pos_exact _ _ m e _ (Rat.den_pos _) hm he1 he2
    · rw [hcast]
      exact Rat.num_div_den _
    · exact Int.natAbs_pos.mpr (ne_of_gt hnum)

theorem round64Pos_isBinary64 (n d : Nat) (hn : 0 < n) (hd : 0 < d) (T : ℚ)
    (h : round64Pos n d = .fin T) :
    ∃ (m : Nat) (e : Int), m < 2 ^ 53 ∧ -1074 ≤ e ∧ e ≤ 971 ∧ T = (m : ℚ) * (2 : ℚ) ^ e := by
  have hdq : (0 : ℚ) < (d : ℚ) := by exact_mod_cast hd
  have h2 : (2 : ℚ) ≠ 0 := by norm_num
  have hb := binade_lt n d hn hd
  obtain ⟨E, hEdef⟩ : ∃ E, E = max (binade n d - 52) (-1074) := ⟨_, rfl⟩
  have hE1 : binade n d - 52 ≤ E := by rw [hEdef]; exact le_max_left _ _
  have hE2 : -1074 ≤ E := by rw [hEdef]; exact le_max_right _ _
  have hlt : (n : ℚ) / (d : ℚ) < (2 : ℚ) ^ (53 : Nat) * (2 : ℚ) ^ E := by
    have h1 : (2 : ℚ) ^ (binade n d + 1) ≤ (2 : ℚ) ^ (E + 53) :=
      zpow_le_zpow_right₀ (by norm_num) (by omega)
    have h3 : (2 : ℚ) ^ (E + 53) = (2 : ℚ) ^ (53 : Nat) * (2 : ℚ) ^ E := by
      rw [zpow_add₀ h2, mul_comm]; norm_cast
    linarith
  obtain ⟨M, hMdef⟩ : ∃ M, M = (if 0 ≤ E then roundEven n (d <<< E.toNat)
      else roundEven (n <<< (-E).toNat) d) := ⟨_, rfl⟩
  have hM : M ≤ 2 ^ 53 := by
    rw [hMdef]
    by_cases h0 : 0 ≤ E
    · simp only [h0, if_true]
      have hz : (2 : ℚ) ^ E = (2 : ℚ) ^ E.toNat := by
        rw [← zpow_natCast, Int.toNat_of_nonneg h0]
      have hpos : 0 < d <<< E.toNat := by
        rw [Nat.shiftLeft_eq]; positivity
      apply roundEven_le _ _ _ hpos
      rw [Nat.shiftLeft_eq]
      have : (n : ℚ) < ((2 ^ 53 * (d * 2 ^ E.toNat) : Nat) : ℚ) := by
        rw [div_lt_iff₀ hdq, hz] at hlt
        push_cast
        linarith
      exact_mod_cast this
    · simp only [h0, if_false]
      have hneg : 0 ≤ -E := by omega
      have hz : (2 : ℚ) ^ E = ((2 : ℚ) ^ (-E).toNat)⁻¹ := by
        rw [← zpow_natCast, Int.toNat_of_nonneg hneg, zpow_neg, inv_inv]
      apply roundEven_le _ _ _ hd
      rw [Nat.shiftLeft_eq]
      have hp : (0 : ℚ) < (2 : ℚ) ^ (-E).toNat := by positivity
      have : ((n * 2 ^ (-E).toNat : Nat) : ℚ) < ((2 ^ 53 * d : Nat) : ℚ) := by
        rw [div_lt_iff₀ hdq, hz] at hlt
        push_cast
        have h5 : (n : ℚ) * (2 : ℚ) ^ (-E).toNat
            < (2 : ℚ) ^ (53 : Nat) * ((2 : ℚ) ^ (-E).toNat)⁻¹ * (d : ℚ) * (2 : ℚ) ^ (-E).toNat :=
          mul_lt_mul_of_pos_right hlt hp
        have h6 : (2 : ℚ) ^ (53 : Nat) * ((2 : ℚ) ^ (-E).toNat)⁻¹ * (d : ℚ) * (2 : ℚ) ^ (-E).toNat
            = (2 : ℚ) ^ (53 : Nat) * (d : ℚ) := by
          field_simp
        linarith
      exact_mod_cast this
  unfold round64Pos at h
  simp only at h
  rw [← hEdef, ← hMdef] at h
  by_cases hov : 971 < E ∨ (E = 971 ∧ M = 2 ^ 53)
  · rw [if_pos hov] at h
    exact absurd h (by simp)
  · rw [if_neg hov] at h
    simp only [F64.fin.injEq] at h
    rw [not_or] at hov
    by_cases hlt53 : M < 2 ^ 53
    · exact ⟨M, E, hlt53, hE2, by omega, h.symm⟩
    · have hMeq : M = 2 ^ 53 := by omega
      have hE970 : E ≤ 970 := by
        have hne : E ≠ 971 := fun h971 => hov.2 ⟨h971, hMeq⟩
        omega
      refine ⟨2 ^ 52, E + 1, by norm_num, by omega, by omega, ?_⟩
      rw [← h, hMeq, zpow_add₀ h2]
      push_cast
      ring

theorem isBinary64_zero : IsBinary64 0 := ⟨0, 0, by norm_num, by norm_num, by norm_num, by simp⟩

theorem round64_isFloat64 (q : ℚ) : (round64 q).IsFloat64 := by
  intro T h
  unfold round64 at h
  by_cases h0 : q = 0
  · rw [if_pos h0] at h
    simp only [F64.fin.injEq] at h
    rw [← h]
    exact isBinary64_zero
  · rw [if_neg h0] at h
    have hnum : q.num ≠ 0 := Rat.num_ne_zero.mpr h0
    have hn : 0 < q.num.natAbs := Int.natAbs_pos.mpr hnum
    by_cases hpos : 0 < q
    · rw [if_pos hpos] at h
      obtain ⟨m, e, hm, he1, he2, hT⟩ := round64Pos_isBinary64 _ _ hn (Rat.den_pos _) T h
      refine ⟨m, e, hm, he1, he2, ?_⟩
      rw [hT]
      exact abs_of_nonneg (by positivity)
    · rw [if_neg hpos] at h
      cases hr : round64Pos q.num.natAbs q.den with
      | fin t =>
        rw [hr] at h
        simp only [F64.neg, F64.fin.injEq] at h
        obtain ⟨m, e, hm, he1, he2, hT⟩ := round64Pos_isBinary64 _ _ hn (Rat.den_pos _) t hr
        refine ⟨m, e, hm, he1, he2, ?_⟩
        rw [← h, abs_neg, hT]
        exact abs_of_nonneg (by positivity)
      | inf s => rw [hr] at h; simp [F64.neg] at h
      | nan => rw [hr] at h; simp [F64.neg] at h

theorem F64.neg_isFloat64 (x : F64) (h : x.IsFloat64) : x.neg.IsFloat64 := by
  intro T hT
  cases x with
  | fin q =>
    simp only [F64.neg, F64.fin.injEq] at hT
    obtain ⟨m, e, hm, he1, he2, hq⟩ := h q rfl
    exact ⟨m, e, hm, he1, he2, by rw [← hT, abs_neg]; exact hq⟩
  | inf s => simp [F64.neg] at hT
  | nan => simp [F64.neg] at hT

theorem F64.add_isFloat64 (x y : F64) : (x.add y).IsFloat64 := by
  cases x <;> cases y <;> simp only [F64.add]
  · exact round64_isFloat64 _
  all_goals
    intro T hT
    first
      | exact absurd hT (by simp)
      | (split at hT <;> exact absurd hT (by simp))

theorem F64.mul_isFloat64 (x y : F64) : (x.mul y).IsFloat64 := by
  cases x <;> cases y <;> simp only [F64.mul]
  · exact round64_isFloat64 _
  all_goals
    intro T hT
    first
      | exact absurd hT (by simp)
      | (split at hT <;> exact absurd hT (by simp))

theorem F64.div_isFloat64 (x y : F64) : (x.div y).IsFloat64 := by
  cases x <;> cases y <;> simp only [F64.div]
  · split
    · intro T hT; split at hT <;> simp at hT
    · exact round64_isFloat64 _
  · intro T hT
    simp only [F64.fin.injEq] at hT
    rw [← hT]; exact isBinary64_zero
  all_goals (intro T hT; simp at hT)

theorem refillTokens64_isFloat64 (rl : connectionRateLimiter64) (now : Int)
    (h : rl.tokens.IsFloat64) : (refillTokens64 rl now).tokens.IsFloat64 := by
  unfold refillTokens64
  simp only
  split
  · simp only
    split
    · exact round64_isFloat64 _
    · exact F64.add_isFloat64 _ _
  · exact h

theorem IsBinary64.sub_one {T : ℚ} (h : IsBinary64 T) (h1 : 1 ≤ T) (h53 : T < 2 ^ 53) :
    ∃ (m : Nat) (e : Int), m < 2 ^ 53 ∧ -1074 ≤ e ∧ e ≤ 971 ∧ T - 1 = (m : ℚ) * (2 : ℚ) ^ e := by
  obtain ⟨m, e, hm, he1, he2, habs⟩ := h
  rw [abs_of_nonneg (by linarith)] at habs
  subst habs
  have h2 : (2 : ℚ) ≠ 0 := by norm_num
  by_cases he : e ≤ 0
  · have hneg : 0 ≤ -e := by omega
    have hz : (2 : ℚ) ^ e = ((2 : ℚ) ^ (-e).toNat)⁻¹ := by
      rw [← zpow_natCast, Int.toNat_of_nonneg hneg, zpow_neg, inv_inv]
    have hp : (0 : ℚ) < (2 : ℚ) ^ (-e).toNat := by positivity
    have hge : 2 ^ (-e).toNat ≤ m := by
      have : ((2 ^ (-e).toNat : Nat) : ℚ) ≤ (m : ℚ) := by
        rw [hz] at h1
        push_cast
        have := (le_mul_inv_iff₀ hp).mp h1
        linarith
      exact_mod_cast this
    refine ⟨m - 2 ^ (-e).toNat, e, lt_of_le_of_lt (Nat.sub_le _ _) hm, he1, he2, ?_⟩
    rw [Nat.cast_sub hge]
    push_cast
    rw [sub_mul, hz, mul_inv_cancel₀ (ne_of_gt hp)]
  · have hpos : 0 ≤ e := by omega
    have hz : (2 : ℚ) ^ e = (2 : ℚ) ^ e.toNat := by
      rw [← zpow_natCast, Int.toNat_of_nonneg hpos]
    have hN : (m : ℚ) * (2 : ℚ) ^ e = ((m * 2 ^ e.toNat : Nat) : ℚ) := by
      rw [hz]; push_cast; rfl
    rw [hN] at h1 h53 ⊢
    have h1n : 1 ≤ m * 2 ^ e.toNat := by exact_mod_cast h1
    have h53n : m * 2 ^ e.toNat < 2 ^ 53 := by exact_mod_cast h53
    refine ⟨m * 2 ^ e.toNat - 1, 0, by omega, by omega, by omega, ?_⟩
    rw [Nat.cast_sub h1n]
    simp

theorem F64.sub_one_exact (T : ℚ) (h : IsBinary64 T) (h1 : 1 ≤ T) (h53 : T < 2 ^ 53) :
    (F64.fin T).sub (.fin 1) = .fin (T - 1) ∧ IsBinary64 (T - 1) := by
  obtain ⟨m, e, hm, he1, he2, hq⟩ := h.sub_one h1 h53
  refine ⟨?_, m, e, hm, he1, he2, ?_⟩
  · show round64 (T + -1) = .fin (T - 1)
    rw [← sub_eq_add_neg, hq]
    exact round64_exact m e hm he1 he2
  · rw [abs_of_nonneg (by linarith)]
    exact hq

theorem refillTokens64_queue (rl : connectionRateLimiter64) (now : Int) :
    (refillTokens64 rl now).queue = rl.queue := by
  unfold refillTokens64
  simp only
  split <;> rfl

theorem dispatch64_full : ∀ (fuel : Nat) (rl : connectionRateLimiter64)
    (out : List requestItem) (T : ℚ),
    rl.tokens = .fin T → IsBinary64 T → T < 2 ^ 53 → rl.queue.length < fuel →
    ∃ rl1 d, dispatch64 fuel rl out = some (rl1, out ++ d) ∧
      d.length = min ⌊T⌋₊ rl.queue.length ∧
      rl1.tokens = .fin (T - (d.length : ℚ)) ∧
      rl1.queue.length + d.length = rl.queue.length ∧
      (T - (d.length : ℚ) < 1 ∨ rl1.queue = []) ∧
      (payloads rl.queue).Perm (payloads d ++ payloads rl1.queue) ∧
      rl1 = { rl with tokens := rl1.tokens, queue := rl1.queue } := by
  intro fuel
  induction fuel with
  | zero => intro rl out T _ _ _ hf; omega
  | succ f ih =>
    intro rl out T hT hrep h53 hf
    unfold dispatch64
    have hle : F64.le (.fin 1) rl.tokens = decide ((1 : ℚ) ≤ T) := by rw [hT]; rfl
    by_cases hg : 1 ≤ T ∧ priorityQueue.Len rl.queue > 0
    · have hcond : F64.le (.fin 1) rl.tokens = true ∧ priorityQueue.Len rl.queue > 0 := by
        rw [hle]; exact ⟨decide_eq_true hg.1, hg.2⟩
      simp only [hcond, and_self, if_true]
      have hpos : 0 < rl.queue.length := hg.2
      obtain ⟨r, h3, e, hlen3, hperm⟩ := Pop_some rl.queue hpos
      simp only [e]
      obtain ⟨hsub0, hrep1⟩ := F64.sub_one_exact T hrep hg.1 h53
      have hsub : rl.tokens.sub (.fin 1) = .fin (T - 1) := by
        rw [hT]; exact hsub0
      obtain ⟨rl1, d, hd, hcount, htok, hqlen, hexit, hperm2, hframe⟩ :=
        ih { rl with queue := h3, tokens := rl.tokens.sub (.fin 1) } (out ++ [r]) (T - 1)
          hsub hrep1 (by linarith) (by simp only; omega)
      simp only at hcount htok hqlen hperm2 hframe
      have hfl : ⌊T - 1⌋₊ = ⌊T⌋₊ - 1 := Nat.floor_sub_one _
      have hfpos : 0 < ⌊T⌋₊ := Nat.floor_pos.mpr hg.1
      have hcast : T - 1 - (d.length : ℚ) = T - ((r :: d).length : ℚ) := by
        simp only [List.length_cons]; push_cast; ring
      refine ⟨rl1, r :: d, ?_, ?_, ?_, ?_, ?_, ?_, ?_⟩
      · rw [hd, List.append_assoc]; rfl
      · simp only [List.length_cons]
        rw [hcount, hfl]
        omega
      · rw [htok, hcast]
      · simp only [List.length_cons]
        omega
      · rw [← hcast]; exact hexit
      · refine hperm.trans ?_
        show (r.payload :: payloads h3).Perm (r.payload :: payloads d ++ payloads rl1.queue)
        exact List.Perm.cons _ hperm2
      · rw [hframe]
    · have hcond : ¬ (F64.le (.fin 1) rl.tokens = true ∧ priorityQueue.Len rl.queue > 0) := by
        rw [hle]
        intro hc
        exact hg ⟨of_decide_eq_true hc.1, hc.2⟩
      simp only [hcond, if_false]
      refine ⟨rl, [], by simp, ?_, by simp [hT], by simp, ?_, by simp [payloads], rfl⟩
      · simp only [List.length_nil]
        rcases not_and_or.mp hg with h1 | h1
        · have : ⌊T⌋₊ = 0 := Nat.floor_eq_zero.mpr (not_le.mp h1)
          rw [this]; simp
        · have : rl.queue.length = 0 := by
            unfold priorityQueue.Len at h1; omega
          rw [this]; simp
      · rcases not_and_or.mp hg with h1 | h1
        · left
          simp only [List.length_nil, Nat.cast_zero, sub_zero]
          exact not_le.mp h1
        · right
          have : rl.queue.length = 0 := by
            unfold priorityQueue.Len at h1; omega
          exact List.length_eq_zero.mp this

theorem dispatch64_isFloat64 : ∀ (fuel : Nat) (rl : connectionRateLimiter64)
    (out : List requestItem) (rl1 : connectionRateLimiter64) (d : List requestItem),
    dispatch64 fuel rl out = some (rl1, d) → rl.tokens.IsFloat64 → rl1.tokens.IsFloat64 := by
  intro fuel
  induction fuel with
  | zero => intro rl out rl1 d h _; simp [dispatch64] at h
  | succ f ih =>
    intro rl out rl1 d h hval
    unfold dispatch64 at h
    split at h
    · split at h
      · exact absurd h (by simp)
      · exact ih _ _ rl1 d h (F64.add_isFloat64 _ _)
    · simp only [Option.some.injEq, Prod.mk.injEq] at h
      rw [← h.1]
      exact hval

/-- The balance stays a `float64` value over a tick. -/
theorem tick64_isFloat64 (rl : connectionRateLimiter64) (now : Int)
    (rl1 : connectionRateLimiter64) (out : List requestItem)
    (h : tick64 rl now = some (rl1, out)) (hval : rl.tokens.IsFloat64) :
    rl1.tokens.IsFloat64 :=
  dispatch64_isFloat64 _ _ _ rl1 out h (refillTokens64_isFloat64 rl now hval)

/-- A refill at or before `lastRefill` changes nothing. -/
theorem refillTokens_same (rl : connectionRateLimiter) (now : Int)
    (h : now ≤ rl.lastRefill) : refillTokens rl now = rl := by
  unfold refillTokens
  have hel : ¬ Seconds (now - rl.lastRefill) > 0 := by
    rw [Seconds_pos]; omega
  simp only [hel, if_false]

/-- C15: for `now` equal to or earlier than `lastRefill`, `refillTokens` returns the
state it was given, every field unchanged. -/
theorem refillTokens_noop (rl : connectionRateLimiter) (now : Int)
    (h : now ≤ rl.lastRefill) : refillTokens rl now = rl :=
  refillTokens_same rl now h

/-- The request case of the worker loop: the request is pushed on the queue and
nothing else happens. -/
theorem arrival_spec (rl : connectionRateLimiter) (req : requestItem)
    (rest : List requestItem) (hw : rl.worker = true) (hch : rl.requestCh = req :: rest) :
    ∃ q, heap.Push rl.queue req = some q ∧
      processRequests rl .request = some ({ rl with requestCh := rest, queue := q }, []) ∧
      Multiset.ofList (payloads q) = req.payload ::ₘ Multiset.ofList (payloads rl.queue) ∧
      priorityQueue.Len q = priorityQueue.Len rl.queue + 1 := by
  obtain ⟨q, e, hlen, hperm, _⟩ := Push_spec rl.queue req
  refine ⟨q, e, ?_, ?_, hlen⟩
  · simp only [processRequests, hw, if_true, hch, e]
  · rw [Multiset.cons_coe]
    exact Multiset.coe_eq_coe.mpr hperm

/-- C16: when the worker takes a request `req` from the intake channel, it pushes
`req` on the queue, which then holds `req` and the requests it held before, and
dispatches nothing; `tokens`, `lastRefill` and every other field but `requestCh`
and `queue` stay as they are, whatever the balance. -/
theorem arrival_only_enqueues (rl : connectionRateLimiter) (req : requestItem)
    (rest : List requestItem) (hw : rl.worker = true) (hch : rl.requestCh = req :: rest) :
    ∃ q, heap.Push rl.queue req = some q ∧
      processRequests rl .request = some ({ rl with requestCh := rest, queue := q }, []) ∧
      Multiset.ofList (payloads q) = req.payload ::ₘ Multiset.ofList (payloads rl.queue) ∧
      priorityQueue.Len q = priorityQueue.Len rl.queue + 1 :=
  arrival_spec rl req rest hw hch

theorem heap_Pop_none_iff (h : priorityQueue) : heap.Pop h = none ↔ h = [] := by
  constructor
  · intro hp
    cases h with
    | nil => rfl
    | cons a t =>
      obtain ⟨r, h3, e, _, _⟩ := Pop_some (a :: t) (by simp)
      rw [e] at hp
      simp at hp
  · intro e
    subst e
    rfl

/-- C17: `heap.Pop` and `priorityQueue.Pop` fail exactly on the empty queue, and the
tick case of the worker loop returns in every limiter state whose worker is
running: the only states in which the tick step yields nothing are those whose
worker has left the loop, so no `heap.Pop` of the dispatch loop meets an empty
queue. -/
theorem tick_never_pops_empty_queue :
    (∀ h : priorityQueue, heap.Pop h = none ↔ h = []) ∧
    (∀ h : priorityQueue, priorityQueue.Pop h = none ↔ h = []) ∧
    (∀ (rl : connectionRateLimiter) (now : Int), rl.worker = true →
      ∃ rl1 out, processRequests rl (.tick now) = some (rl1, out)) ∧
    (∀ (rl : connectionRateLimiter) (now : Int),
      processRequests rl (.tick now) = none ↔ rl.worker = false) := by
  refine ⟨heap_Pop_none_iff, ?_, ?_, ?_⟩
  · intro h
    cases h with
    | nil => simp [priorityQueue.Pop]
    | cons a t =>
      simp only [priorityQueue.Pop, List.length_cons, Nat.add_one_ne_zero, if_false,
        Nat.add_sub_cancel, reduceCtorEq, iff_false]
      have hlt : t.length < (a :: t).length := by simp
      rw [List.getElem?_eq_getElem hlt]
      simp
  · intro rl now hw
    obtain ⟨rl1, out, h, _⟩ := tick_spec rl now hw
    exact ⟨rl1, out, h⟩
  · intro rl now
    constructor
    · intro hnone
      cases hw : rl.worker with
      | false => rfl
      | true =>
        obtain ⟨rl1, out, h, _⟩ := tick_spec rl now hw
        rw [h] at hnone
        simp at hnone
    · intro hw
      simp [processRequests, hw]

/-- C18 (counterexample): `stop` on the fresh limiter returns, a second `stop` on
the stopped limiter does not: `close` of a closed channel panics. -/
theorem stop_twice_fails :
    stop freshLimiter = some { freshLimiter with quit := true } ∧
      stop { freshLimiter with quit := true } = none := by
  decide!

/-- C18 (amended): `stop` on a limiter that has not been stopped returns and leaves
it stopped, the quit channel closed and nothing else changed; `stop` on a limiter
that has already been stopped fails, so `stop` is not idempotent. -/
theorem stop_succeeds_once (rl : connectionRateLimiter) :
    (rl.quit = false → stop rl = some { rl with quit := true }) ∧
    (rl.quit = true → stop rl = none) ∧
    (∀ rl1, stop rl = some rl1 → stop rl1 = none) := by
  refine ⟨?_, ?_, ?_⟩
  · intro h
    simp [stop, h]
  · intro h
    simp [stop, h]
  · intro rl1 h
    unfold stop at h
    split at h
    · simp at h
    · simp only [Option.some.injEq] at h
      subst h
      simp [stop]

theorem Seconds_add (a b c : Int) :
    Seconds (a - b) + Seconds (b - c) = Seconds (a - c) := by
  unfold Seconds
  push_cast
  ring

/-- C19: for `requestCount > 0`, `windowSeconds > 0` and `lastRefill ≤ t1 ≤ t2`,
`refillTokens` at `t1` followed by `refillTokens` at `t2` gives the state that one
`refillTokens` at `t2` gives: same `tokens`, same `lastRefill`, same everything.
This holds for every balance, in particular for `0 ≤ tokens ≤ requestCount`. -/
theorem refillTokens_split (rl : connectionRateLimiter) (t1 t2 : Int)
    (hrc : 0 < rl.rateLimit.RequestCount) (hws : 0 < rl.rateLimit.WindowSeconds)
    (ht1 : rl.lastRefill ≤ t1) (ht2 : t1 ≤ t2) :
    refillTokens (refillTokens rl t1) t2 = refillTokens rl t2 := by
  rcases lt_or_eq_of_le ht1 with hlt1 | heq1
  · rcases lt_or_eq_of_le ht2 with hlt2 | heq2
    · have e1 := (refillTokens_formula rl t1 hrc hws hlt1).1
      have e2 := (refillTokens_formula rl t2 hrc hws (by omega)).1
      have e3 := (refillTokens_formula (refillTokens rl t1) t2
        (by rw [refillTokens_rateLimit]; exact hrc)
        (by rw [refillTokens_rateLimit]; exact hws)
        (by rw [e1]; exact hlt2)).1
      rw [e3, e2, e1]
      simp only
      have hrcq : (0 : ℚ) < (rl.rateLimit.RequestCount : ℚ) := by exact_mod_cast hrc
      have hwsq : (0 : ℚ) < (rl.rateLimit.WindowSeconds : ℚ) := by exact_mod_cast hws
      have hs := Seconds_add t2 t1 rl.lastRefill
      have hp2 : 0 < Seconds (t2 - t1) := Seconds_pos.mpr (by omega)
      have hadd2 : 0 ≤ Seconds (t2 - t1) * (rl.rateLimit.RequestCount : ℚ)
          / (rl.rateLimit.WindowSeconds : ℚ) :=
        le_of_lt (div_pos (mul_pos hp2 hrcq) hwsq)
      have hsum : Seconds (t2 - rl.lastRefill) * (rl.rateLimit.RequestCount : ℚ)
            / (rl.rateLimit.WindowSeconds : ℚ)
          = Seconds (t1 - rl.lastRefill) * (rl.rateLimit.RequestCount : ℚ)
              / (rl.rateLimit.WindowSeconds : ℚ)
            + Seconds (t2 - t1) * (rl.rateLimit.RequestCount : ℚ)
              / (rl.rateLimit.WindowSeconds : ℚ) := by
        rw [← hs]; ring
      congr 1
      rw [hsum]
      rcases le_total (rl.rateLimit.RequestCount : ℚ)
        (rl.tokens + Seconds (t1 - rl.lastRefill) * (rl.rateLimit.RequestCount : ℚ)
          / (rl.rateLimit.WindowSeconds : ℚ)) with hc | hc
      · rw [min_eq_left hc, min_eq_left (by linarith), min_eq_left (by linarith)]
      · rw [min_eq_right hc]
        congr 1
        ring
    · subst heq2
      rw [refillTokens_same (refillTokens rl t1) t1]
      rw [(refillTokens_formula rl t1 hrc hws hlt1).1]
  · rw [refillTokens_same rl t1 (by omega)]


/-! ## The token budget of a run -/

theorem Seconds_zero : Seconds 0 = 0 := by
  unfold Seconds
  simp

theorem Seconds_mono {a b : Int} (h : a ≤ b) : Seconds a ≤ Seconds b := by
  unfold Seconds
  have : (a : ℚ) ≤ (b : ℚ) := by exact_mod_cast h
  exact div_le_div_of_nonneg_right this (by norm_num)

theorem refillRate_nonneg (rl : connectionRateLimiter) (hok : TokensOk rl) :
    0 ≤ refillRate rl := by
  unfold refillRate
  have hrcq : (0 : ℚ) < (rl.rateLimit.RequestCount : ℚ) := by exact_mod_cast hok.1
  have hwsq : (0 : ℚ) < (rl.rateLimit.WindowSeconds : ℚ) := by exact_mod_cast hok.2.1
  exact le_of_lt (div_pos hrcq hwsq)

theorem refillTokens_budget (rl : connectionRateLimiter) (now : Int) (hok : TokensOk rl) :
    rl.lastRefill ≤ (refillTokens rl now).lastRefill ∧
    ((refillTokens rl now).lastRefill = rl.lastRefill ∨
      (refillTokens rl now).lastRefill = now) ∧
    (refillTokens rl now).tokens ≤
      rl.tokens + Seconds ((refillTokens rl now).lastRefill - rl.lastRefill) * refillRate rl := by
  rcases lt_or_le rl.lastRefill now with hlt | hle
  · have e := (refillTokens_formula rl now hok.1 hok.2.1 hlt).1
    have hl : (refillTokens rl now).lastRefill = now := by rw [e]
    have ht : (refillTokens rl now).tokens = min (rl.rateLimit.RequestCount : ℚ)
        (rl.tokens + Seconds (now - rl.lastRefill) * (rl.rateLimit.RequestCount : ℚ)
          / (rl.rateLimit.WindowSeconds : ℚ)) := by rw [e]
    rw [hl, ht]
    refine ⟨le_of_lt hlt, Or.inr rfl, ?_⟩
    refine le_trans (min_le_right _ _) ?_
    unfold refillRate
    rw [mul_div_assoc]
  · rw [refillTokens_same rl now hle]
    refine ⟨le_refl _, Or.inl rfl, ?_⟩
    rw [sub_self, Seconds_zero, zero_mul, add_zero]

theorem apply_budget (rl : connectionRateLimiter) (e : LimiterEvent)
    (rl1 : connectionRateLimiter) (out : List requestItem)
    (h : LimiterEvent.apply rl e = some (rl1, out)) (hok : TokensOk rl) :
    TokensOk rl1 ∧ rl1.rateLimit = rl.rateLimit ∧ rl.lastRefill ≤ rl1.lastRefill ∧
    rl1.tokens + (out.length : ℚ) ≤
      rl.tokens + Seconds (rl1.lastRefill - rl.lastRefill) * refillRate rl ∧
    (rl1.lastRefill = rl.lastRefill ∨ e = .worker (.tick rl1.lastRefill)) := by
  have hsame : ∀ r : connectionRateLimiter, r.tokens = rl.tokens →
      r.lastRefill = rl.lastRefill →
      r.tokens + (([] : List requestItem).length : ℚ) ≤
        rl.tokens + Seconds (r.lastRefill - rl.lastRefill) * refillRate rl := by
    intro r ht hl
    rw [ht, hl, sub_self, Seconds_zero]
    simp
  cases e with
  | submit fn niceness now doneCh =>
    by_cases hlen : rl.requestCh.length < 100
    · simp only [LimiterEvent.apply, submit, hlen, if_true, Option.some.injEq,
        Prod.mk.injEq] at h
      obtain ⟨e1, e2⟩ := h
      subst e1 e2
      exact ⟨hok, rfl, le_refl _, hsame _ rfl rfl, Or.inl rfl⟩
    · simp [LimiterEvent.apply, submit, hlen] at h
  | stop =>
    cases hq : rl.quit with
    | true => simp [LimiterEvent.apply, stop, hq] at h
    | false =>
      simp only [LimiterEvent.apply, stop, hq, Bool.false_eq_true, if_false,
        Option.some.injEq, Prod.mk.injEq] at h
      obtain ⟨e1, e2⟩ := h
      subst e1 e2
      exact ⟨hok, rfl, le_refl _, hsame _ rfl rfl, Or.inl rfl⟩
  | worker s =>
    simp only [LimiterEvent.apply] at h
    have hok1 := processRequests_ok rl s rl1 out h hok
    have hrate := processRequests_rateLimit rl s rl1 out h
    refine ⟨hok1, hrate, ?_⟩
    cases s with
    | request =>
      simp only [processRequests] at h
      split at h
      · split at h
        · simp at h
        · split at h
          · simp at h
          · simp only [Option.some.injEq, Prod.mk.injEq] at h
            obtain ⟨e1, e2⟩ := h
            subst e1 e2
            exact ⟨le_refl _, hsame _ rfl rfl, Or.inl rfl⟩
      · simp at h
    | quit =>
      simp only [processRequests] at h
      split at h
      · simp only [Option.some.injEq, Prod.mk.injEq] at h
        obtain ⟨e1, e2⟩ := h
        subst e1 e2
        exact ⟨le_refl _, hsame _ rfl rfl, Or.inl rfl⟩
      · simp at h
    | tick now =>
      cases hw : rl.worker with
      | false => simp [processRequests, hw] at h
      | true =>
        obtain ⟨rl2, out2, h2, _, htok, _, _, hframe, _⟩ := tick_spec rl now hw
        rw [h2] at h
        simp only [Option.some.injEq, Prod.mk.injEq] at h
        obtain ⟨e1, e2⟩ := h
        subst e1 e2
        obtain ⟨hl1, hl2, hb⟩ := refillTokens_budget rl now hok
        have hlr : rl2.lastRefill = (refillTokens rl now).lastRefill := by
          rw [hframe]
        refine ⟨by rw [hlr]; exact hl1, ?_, ?_⟩
        · rw [htok, hlr]
          linarith
        · rw [hlr]
          rcases hl2 with hl2 | hl2
          · exact Or.inl hl2
          · exact Or.inr (by rw [hl2])

theorem run_budget : ∀ (es : List LimiterEvent) (rl rl1 : connectionRateLimiter)
    (out : List requestItem),
    runLimiter rl es = some (rl1, out) → TokensOk rl →
    TokensOk rl1 ∧ rl1.rateLimit = rl.rateLimit ∧ rl.lastRefill ≤ rl1.lastRefill ∧
    rl1.tokens + (out.length : ℚ) ≤
      rl.tokens + Seconds (rl1.lastRefill - rl.lastRefill) * refillRate rl ∧
    (rl1.lastRefill = rl.lastRefill ∨ LimiterEvent.worker (.tick rl1.lastRefill) ∈ es) := by
  intro es
  induction es with
  | nil =>
    intro rl rl1 out h hok
    simp only [runLimiter, Option.some.injEq, Prod.mk.injEq] at h
    obtain ⟨e1, e2⟩ := h
    subst e1 e2
    refine ⟨hok, rfl, le_refl _, ?_, Or.inl rfl⟩
    rw [sub_self, Seconds_zero]
    simp
  | cons e es ih =>
    intro rl rl1 out h hok
    simp only [runLimiter] at h
    cases ha : LimiterEvent.apply rl e with
    | none => rw [ha] at h; simp at h
    | some res =>
      obtain ⟨rl2, out2⟩ := res
      rw [ha] at h
      simp only at h
      cases hr : runLimiter rl2 es with
      | none => rw [hr] at h; simp at h
      | some res2 =>
        obtain ⟨rl3, out3⟩ := res2
        rw [hr] at h
        simp only [Option.some.injEq, Prod.mk.injEq] at h
        obtain ⟨e1, e2⟩ := h
        subst e1 e2
        obtain ⟨hok2, hrate2, hle2, hb2, hlast2⟩ := apply_budget rl e rl2 out2 ha hok
        obtain ⟨hok3, hrate3, hle3, hb3, hlast3⟩ := ih rl2 rl3 out3 hr hok2
        have hrr : refillRate rl2 = refillRate rl := by
          unfold refillRate; rw [hrate2]
        rw [hrr] at hb3
        refine ⟨hok3, hrate3.trans hrate2, le_trans hle2 hle3, ?_, ?_⟩
        · rw [List.length_append]
          push_cast
          have hs := Seconds_add rl3.lastRefill rl2.lastRefill rl.lastRefill
          have : Seconds (rl3.lastRefill - rl.lastRefill) * refillRate rl
              = Seconds (rl3.lastRefill - rl2.lastRefill) * refillRate rl
                + Seconds (rl2.lastRefill - rl.lastRefill) * refillRate rl := by
            rw [← hs]; ring
          rw [this]
          linarith
        · rcases hlast3 with hl3 | hl3
          · rcases hlast2 with hl2 | hl2
            · exact Or.inl (hl3.trans hl2)
            · right
              rw [hl3, ← hl2]
              exact List.mem_cons_self _ _
          · exact Or.inr (List.mem_cons_of_mem _ hl3)


theorem tick_lastRefill (rl : connectionRateLimiter) (s : Int)
    (rl1 : connectionRateLimiter) (out : List requestItem)
    (htick : processRequests rl (.tick s) = some (rl1, out)) :
    s ≤ rl1.lastRefill ∧ rl1.tokens = (refillTokens rl s).tokens - (out.length : ℚ) ∧
      out.length = min ⌊(refillTokens rl s).tokens⌋₊ rl.queue.length := by
  cases hw : rl.worker with
  | false => simp [processRequests, hw] at htick
  | true =>
    obtain ⟨rl2, out2, h2, hcount, htok, _, _, hframe, _⟩ :=
      tick_spec rl s hw
    rw [h2] at htick
    simp only [Option.some.injEq, Prod.mk.injEq] at htick
    obtain ⟨e1, e2⟩ := htick
    subst e1 e2
    refine ⟨?_, htok, hcount⟩
    have hlr : rl2.lastRefill = (refillTokens rl s).lastRefill := by rw [hframe]
    rw [hlr]
    rcases lt_or_le rl.lastRefill s with hlt | hle
    · unfold refillTokens
      have hel : Seconds (s - rl.lastRefill) > 0 := Seconds_pos.mpr (by omega)
      simp only [hel, if_true]
      exact le_refl _
    · rw [refillTokens_same rl s hle]
      exact hle

/-- The burst bound in exact arithmetic: in a run of a limiter with `RequestCount > 0`
and `WindowSeconds > 0`, take a tick at time `s` and any events after it whose ticks
are at times up to `t`, `s ≤ t`: the number of requests dispatched by these events
is at most the balance left after the tick at `s` plus
`(t - s) * requestCount / windowSeconds`, and so at most
`requestCount + (t - s) * requestCount / windowSeconds`. -/
theorem token_bucket_burst_bound (rl : connectionRateLimiter) (s t : Int)
    (es : List LimiterEvent) (rl_s : connectionRateLimiter) (out_s : List requestItem)
    (rl_t : connectionRateLimiter) (out : List requestItem)
    (hreach : Reachable rl) (hst : s ≤ t)
    (htick : processRequests rl (.tick s) = some (rl_s, out_s))
    (htimes : ∀ u, LimiterEvent.worker (.tick u) ∈ es → u ≤ t)
    (hrun : runLimiter rl_s es = some (rl_t, out)) :
    (out.length : ℚ) ≤ rl_s.tokens
        + Seconds (t - s) * (rl.rateLimit.RequestCount : ℚ) / (rl.rateLimit.WindowSeconds : ℚ) ∧
    (out.length : ℚ) ≤ (rl.rateLimit.RequestCount : ℚ)
        + Seconds (t - s) * (rl.rateLimit.RequestCount : ℚ) / (rl.rateLimit.WindowSeconds : ℚ) := by
  have hok := Reachable_ok rl hreach
  have hok_s := processRequests_ok rl (.tick s) rl_s out_s htick hok
  have hrate_s := processRequests_rateLimit rl (.tick s) rl_s out_s htick
  obtain ⟨hlr_s, _, _⟩ := tick_lastRefill rl s rl_s out_s htick
  obtain ⟨hok_t, _, _, hb, hlast⟩ := run_budget es rl_s rl_t out hrun hok_s
  have hrr : refillRate rl_s = (rl.rateLimit.RequestCount : ℚ)
      / (rl.rateLimit.WindowSeconds : ℚ) := by
    unfold refillRate; rw [hrate_s]
  have hrnn : 0 ≤ (rl.rateLimit.RequestCount : ℚ) / (rl.rateLimit.WindowSeconds : ℚ) := by
    rw [← hrr]; exact refillRate_nonneg rl_s hok_s
  rw [hrr] at hb
  have hsec : Seconds (rl_t.lastRefill - rl_s.lastRefill) ≤ Seconds (t - s) := by
    rcases hlast with h | h
    · rw [h, sub_self]
      exact Seconds_mono (by omega)
    · have := htimes _ h
      exact Seconds_mono (by omega)
  have hmul : Seconds (rl_t.lastRefill - rl_s.lastRefill)
        * ((rl.rateLimit.RequestCount : ℚ) / (rl.rateLimit.WindowSeconds : ℚ))
      ≤ Seconds (t - s)
        * ((rl.rateLimit.RequestCount : ℚ) / (rl.rateLimit.WindowSeconds : ℚ)) :=
    mul_le_mul_of_nonneg_right hsec hrnn
  have h0 : 0 ≤ rl_t.tokens := hok_t.2.2.1
  have hcap : rl_s.tokens ≤ (rl.rateLimit.RequestCount : ℚ) := by
    have := hok_s.2.2.2
    rw [hrate_s] at this
    exact this
  rw [mul_div_assoc]
  constructor
  · linarith
  · linarith

/-- A burst beyond capacity in exact arithmetic: a limiter with `RequestCount = c > 0`,
`WindowSeconds > 0`, the full balance `c` of a fresh limiter and more than `c`
requests in its queue, at its first tick, at time `t1`: the tick dispatches exactly
`c` requests and leaves no token, and whatever happens afterwards, as long as every
later tick comes less than `windowSeconds / requestCount` seconds after `t1`,
nothing more is dispatched. -/
theorem burst_waits_for_refill (rl : connectionRateLimiter) (t1 : Int)
    (es : List LimiterEvent)
    (hrc : 0 < rl.rateLimit.RequestCount) (hws : 0 < rl.rateLimit.WindowSeconds)
    (hw : rl.worker = true) (hfull : rl.tokens = (rl.rateLimit.RequestCount : ℚ))
    (hn : rl.rateLimit.RequestCount < (rl.queue.length : Int))
    (hsoon : ∀ u, LimiterEvent.worker (.tick u) ∈ es →
      Seconds (u - t1) < (rl.rateLimit.WindowSeconds : ℚ) / (rl.rateLimit.RequestCount : ℚ)) :
    ∃ rl1 out, processRequests rl (.tick t1) = some (rl1, out) ∧
      (out.length : Int) = rl.rateLimit.RequestCount ∧ rl1.tokens = 0 ∧
      ∀ rl2 out2, runLimiter rl1 es = some (rl2, out2) → out2 = [] := by
  have hrcq : (0 : ℚ) < (rl.rateLimit.RequestCount : ℚ) := by exact_mod_cast hrc
  have hwsq : (0 : ℚ) < (rl.rateLimit.WindowSeconds : ℚ) := by exact_mod_cast hws
  have hok : TokensOk rl := ⟨hrc, hws, by rw [hfull]; exact le_of_lt hrcq, by rw [hfull]⟩
  obtain ⟨rl1, out, htick, _⟩ := tick_spec rl t1 hw
  obtain ⟨hlr, htok, hcount⟩ := tick_lastRefill rl t1 rl1 out htick
  have hok1 := processRequests_ok rl (.tick t1) rl1 out htick hok
  have hrate1 := processRequests_rateLimit rl (.tick t1) rl1 out htick
  have hT : (refillTokens rl t1).tokens = (rl.rateLimit.RequestCount : ℚ) := by
    rcases lt_or_le rl.lastRefill t1 with hlt | heq
    · rw [(refillTokens_formula rl t1 hrc hws hlt).1]
      simp only
      rw [hfull]
      apply min_eq_left
      have hel : Seconds (t1 - rl.lastRefill) > 0 := Seconds_pos.mpr (by omega)
      have : 0 < Seconds (t1 - rl.lastRefill) * (rl.rateLimit.RequestCount : ℚ)
          / (rl.rateLimit.WindowSeconds : ℚ) := div_pos (mul_pos hel hrcq) hwsq
      linarith
    · rw [refillTokens_same rl t1 heq]
      exact hfull
  have hcast : (rl.rateLimit.RequestCount : ℚ) = ((rl.rateLimit.RequestCount.toNat : ℕ) : ℚ) := by
    have : ((rl.rateLimit.RequestCount.toNat : ℕ) : Int) = rl.rateLimit.RequestCount :=
      Int.toNat_of_nonneg (le_of_lt hrc)
    exact_mod_cast this.symm
  have hfloor : ⌊(refillTokens rl t1).tokens⌋₊ = rl.rateLimit.RequestCount.toNat := by
    rw [hT, hcast]
    exact Nat.floor_natCast _
  have hlen : out.length = rl.rateLimit.RequestCount.toNat := by
    rw [hcount, hfloor]
    apply min_eq_left
    omega
  have htok0 : rl1.tokens = 0 := by
    rw [htok, hT, hlen, ← hcast]
    ring
  refine ⟨rl1, out, htick, ?_, htok0, ?_⟩
  · rw [hlen]
    exact Int.toNat_of_nonneg (le_of_lt hrc)
  · intro rl2 out2 hrun
    obtain ⟨hok2, _, _, hb, hlast⟩ := run_budget es rl1 rl2 out2 hrun hok1
    have hrr : refillRate rl1 = (rl.rateLimit.RequestCount : ℚ)
        / (rl.rateLimit.WindowSeconds : ℚ) := by
      unfold refillRate; rw [hrate1]
    rw [hrr, htok0] at hb
    have h0 : 0 ≤ rl2.tokens := hok2.2.2.1
    have hlt1 : Seconds (rl2.lastRefill - rl1.lastRefill)
        * ((rl.rateLimit.RequestCount : ℚ) / (rl.rateLimit.WindowSeconds : ℚ)) < 1 := by
      rcases hlast with h | h
      · rw [h, sub_self, Seconds_zero, zero_mul]
        exact zero_lt_one
      · have hpos : 0 < (rl.rateLimit.RequestCount : ℚ) / (rl.rateLimit.WindowSeconds : ℚ) :=
          div_pos hrcq hwsq
        have this : Seconds (rl2.lastRefill - rl1.lastRefill)
            < (rl.rateLimit.WindowSeconds : ℚ) / (rl.rateLimit.RequestCount : ℚ) :=
          lt_of_le_of_lt (Seconds_mono (by omega)) (hsoon _ h)
        calc Seconds (rl2.lastRefill - rl1.lastRefill)
              * ((rl.rateLimit.RequestCount : ℚ) / (rl.rateLimit.WindowSeconds : ℚ))
            < (rl.rateLimit.WindowSeconds : ℚ) / (rl.rateLimit.RequestCount : ℚ)
              * ((rl.rateLimit.RequestCount : ℚ) / (rl.rateLimit.WindowSeconds : ℚ)) :=
              mul_lt_mul_of_pos_right this hpos
          _ = 1 := by field_simp
    have hlen2 : (out2.length : ℚ) < 1 := by linarith
    have : out2.length = 0 := by
      have h1 : out2.length < 1 := by exact_mod_cast hlen2
      omega
    exact List.length_eq_zero.mp this

/-! ## The token budget of a run in binary64 -/

theorem roundEven_ge (n d : Nat) : n / d ≤ roundEven n d := by
  unfold roundEven
  simp only
  split
  · exact le_refl _
  · split
    · omega
    · split <;> omega

theorem roundEven_le_half (n d : Nat) (hd : 0 < d) : 2 * (roundEven n d * d) ≤ 2 * n + d := by
  have hdm := Nat.div_add_mod n d
  have hlt := Nat.mod_lt n hd
  have hq : n / d * d + n % d = n := by rw [Nat.mul_comm]; exact hdm
  unfold roundEven
  simp only
  by_cases h1 : 2 * (n % d) < d
  · rw [if_pos h1]; omega
  · rw [if_neg h1]
    by_cases h3 : d < 2 * (n % d)
    · rw [if_pos h3, Nat.add_mul, Nat.one_mul]; omega
    · rw [if_neg h3]
      by_cases h4 : n / d % 2 = 0
      · rw [if_pos h4]; omega
      · rw [if_neg h4, Nat.add_mul, Nat.one_mul]; omega

/-- Rounding a positive rational of moderate size: the result is `M * 2^E` for the
integer `M` in `[2^52, 2^53]` nearest to the number divided by `2^E`. -/
theorem round64Pos_normal (n d : Nat) (hn : 0 < n) (hd : 0 < d)
    (hlo : (2 : ℚ) ^ (-1000 : Int) ≤ (n : ℚ) / (d : ℚ))
    (hhi : (n : ℚ) / (d : ℚ) ≤ (2 : ℚ) ^ (1000 : Int)) :
    ∃ (M : Nat) (E : Int), round64Pos n d = .fin ((M : ℚ) * (2 : ℚ) ^ E) ∧
      (2 : ℚ) ^ (52 : Nat) ≤ (M : ℚ) ∧
      (2 : ℚ) ^ (52 : Nat) * (2 : ℚ) ^ E ≤ (n : ℚ) / (d : ℚ) ∧
      (n : ℚ) / (d : ℚ) < 2 * ((2 : ℚ) ^ (52 : Nat) * (2 : ℚ) ^ E) ∧
      (M : ℚ) * (2 : ℚ) ^ E ≤ (n : ℚ) / (d : ℚ) + (2 : ℚ) ^ E / 2 ∧
      (n : ℚ) / (d : ℚ) < ((M : ℚ) + 1) * (2 : ℚ) ^ E ∧
      (2 : ℚ) ^ E / 2 ≤ (n : ℚ) / (d : ℚ) * (2 : ℚ) ^ (-53 : Int) := by
  have hdq : (0 : ℚ) < (d : ℚ) := by exact_mod_cast hd
  have h2 : (2 : ℚ) ≠ 0 := by norm_num
  have hbl := binade_le n d hn hd
  have hbu := binade_lt n d hn hd
  obtain ⟨b, hb⟩ : ∃ b, b = binade n d := ⟨_, rfl⟩
  rw [← hb] at hbl hbu
  obtain ⟨q, hq⟩ : ∃ q : ℚ, q = (n : ℚ) / (d : ℚ) := ⟨_, rfl⟩
  rw [← hq] at hbl hbu hlo hhi ⊢
  have hb1 : -1001 ≤ b := by
    by_contra hc
    have : b + 1 ≤ -1000 := by omega
    have := zpow_le_zpow_right₀ (show (1 : ℚ) ≤ 2 by norm_num) this
    linarith
  have hb2 : b ≤ 1000 := by
    by_contra hc
    have : (1000 : Int) + 1 ≤ b := by omega
    have h3 := zpow_le_zpow_right₀ (show (1 : ℚ) ≤ 2 by norm_num) this
    have h4 : (2 : ℚ) ^ (1000 : Int) < (2 : ℚ) ^ ((1000 : Int) + 1) :=
      zpow_lt_zpow_right₀ (by norm_num) (by norm_num)
    linarith
  have hE : max (b - 52) (-1074) = b - 52 := max_eq_left (by omega)
  obtain ⟨E, hEdef⟩ : ∃ E, E = b - 52 := ⟨_, rfl⟩
  have hpE : (0 : ℚ) < (2 : ℚ) ^ E := by positivity
  -- the scaled number lies in `[2^52, 2^53)`
  have hs1 : (2 : ℚ) ^ (52 : Nat) * (2 : ℚ) ^ E ≤ q := by
    have : (2 : ℚ) ^ b = (2 : ℚ) ^ (52 : Nat) * (2 : ℚ) ^ E := by
      rw [hEdef, ← zpow_natCast, ← zpow_add₀ h2]; congr 1; push_cast; ring
    linarith
  obtain ⟨M, hMdef⟩ : ∃ M, M = (if 0 ≤ E then roundEven n (d <<< E.toNat)
      else roundEven (n <<< (-E).toNat) d) := ⟨_, rfl⟩
  have hM : (2 : ℚ) ^ (52 : Nat) ≤ (M : ℚ) ∧ (M : ℚ) * (2 : ℚ) ^ E ≤ q + (2 : ℚ) ^ E / 2 ∧
      q < ((M : ℚ) + 1) * (2 : ℚ) ^ E := by
    by_cases h0 : 0 ≤ E
    · simp only [h0, if_true] at hMdef
      have hz : (2 : ℚ) ^ E = (2 : ℚ) ^ E.toNat := by
        rw [← zpow_natCast, Int.toNat_of_nonneg h0]
      have hpos : 0 < d <<< E.toNat := by
        rw [Nat.shiftLeft_eq]; positivity
      have hposq : (0 : ℚ) < ((d <<< E.toNat : Nat) : ℚ) := by exact_mod_cast hpos
      have hval : ((d <<< E.toNat : Nat) : ℚ) = (d : ℚ) * (2 : ℚ) ^ E := by
        rw [Nat.shiftLeft_eq, hz]; push_cast; ring
      have hnq : (n : ℚ) = q * (d : ℚ) := by rw [hq]; field_simp
      refine ⟨?_, ?_, ?_⟩
      · have hge := roundEven_ge n (d <<< E.toNat)
        have hfl : 2 ^ 52 ≤ n / (d <<< E.toNat) := by
          rw [Nat.le_div_iff_mul_le hpos]
          have : ((2 ^ 52 * (d <<< E.toNat) : Nat) : ℚ) ≤ (n : ℚ) := by
            push_cast
            rw [hval, hnq]
            have := mul_le_mul_of_nonneg_right hs1 (le_of_lt hdq)
            nlinarith
          exact_mod_cast this
        have : 2 ^ 52 ≤ M := by rw [hMdef]; omega
        exact_mod_cast this
      · have hh := roundEven_le_half n (d <<< E.toNat) hpos
        rw [← hMdef] at hh
        have hhq : 2 * ((M : ℚ) * ((d <<< E.toNat : Nat) : ℚ)) ≤ 2 * (n : ℚ) + ((d <<< E.toNat : Nat) : ℚ) := by
          exact_mod_cast hh
        rw [hval, hnq] at hhq
        have : 2 * ((M : ℚ) * (2 : ℚ) ^ E) * (d : ℚ) ≤ (2 * q + (2 : ℚ) ^ E) * (d : ℚ) := by
          nlinarith
        have := le_of_mul_le_mul_right this hdq
        linarith
      · have hge := roundEven_ge n (d <<< E.toNat)
        rw [← hMdef] at hge
        have hlt := Nat.lt_mul_div_succ n hpos
        have hlt2 : n < (d <<< E.toNat) * (M + 1) :=
          lt_of_lt_of_le hlt (Nat.mul_le_mul_left _ (by omega))
        have hltq : (n : ℚ) < ((d <<< E.toNat : Nat) : ℚ) * ((M : ℚ) + 1) := by
          exact_mod_cast hlt2
        rw [hval, hnq] at hltq
        have : q * (d : ℚ) < ((M : ℚ) + 1) * (2 : ℚ) ^ E * (d : ℚ) := by linarith
        exact lt_of_mul_lt_mul_right this (le_of_lt hdq)
    · simp only [h0, if_false] at hMdef
      have hneg : 0 ≤ -E := by omega
      have hz : (2 : ℚ) ^ E = ((2 : ℚ) ^ (-E).toNat)⁻¹ := by
        rw [← zpow_natCast, Int.toNat_of_nonneg hneg, zpow_neg, inv_inv]
      have hp : (0 : ℚ) < (2 : ℚ) ^ (-E).toNat := by positivity
      have hval : ((n <<< (-E).toNat : Nat) : ℚ) = q * (d : ℚ) * (2 : ℚ) ^ (-E).toNat := by
        rw [Nat.shiftLeft_eq, hq]; push_cast; field_simp
      have hinv : (2 : ℚ) ^ E * (2 : ℚ) ^ (-E).toNat = 1 := by
        rw [hz]; exact inv_mul_cancel₀ (ne_of_gt hp)
      refine ⟨?_, ?_, ?_⟩
      · have hge := roundEven_ge (n <<< (-E).toNat) d
        have hfl : 2 ^ 52 ≤ (n <<< (-E).toNat) / d := by
          rw [Nat.le_div_iff_mul_le hd]
          have : ((2 ^ 52 * d : Nat) : ℚ) ≤ ((n <<< (-E).toNat : Nat) : ℚ) := by
            rw [hval]
            push_cast
            have h5 := mul_le_mul_of_nonneg_right hs1 (le_of_lt hp)
            rw [mul_assoc, hinv, mul_one] at h5
            have h6 := mul_le_mul_of_nonneg_right h5 (le_of_lt hdq)
            linarith
          exact_mod_cast this
        have : 2 ^ 52 ≤ M := by rw [hMdef]; omega
        exact_mod_cast this
      · have hh := roundEven_le_half (n <<< (-E).toNat) d hd
        rw [← hMdef] at hh
        have hhq : 2 * ((M : ℚ) * (d : ℚ)) ≤ 2 * ((n <<< (-E).toNat : Nat) : ℚ) + (d : ℚ) := by
          exact_mod_cast hh
        rw [hval] at hhq
        have h7 : 2 * ((M : ℚ) * (d : ℚ)) * (2 : ℚ) ^ E
            ≤ (2 * (q * (d : ℚ) * (2 : ℚ) ^ (-E).toNat) + (d : ℚ)) * (2 : ℚ) ^ E :=
          mul_le_mul_of_nonneg_right hhq (le_of_lt hpE)
        have h8 : (2 * (q * (d : ℚ) * (2 : ℚ) ^ (-E).toNat) + (d : ℚ)) * (2 : ℚ) ^ E
            = (2 * q + (2 : ℚ) ^ E) * (d : ℚ) := by
          have : q * (d : ℚ) * (2 : ℚ) ^ (-E).toNat * (2 : ℚ) ^ E = q * (d : ℚ) := by
            rw [mul_assoc, mul_comm ((2 : ℚ) ^ (-E).toNat), hinv, mul_one]
          linear_combination 2 * this
        rw [h8] at h7
        have h9 : 2 * ((M : ℚ) * (2 : ℚ) ^ E) * (d : ℚ) ≤ (2 * q + (2 : ℚ) ^ E) * (d : ℚ) := by
          linarith
        have := le_of_mul_le_mul_right h9 hdq
        linarith
      · have hge := roundEven_ge (n <<< (-E).toNat) d
        rw [← hMdef] at hge
        have hlt := Nat.lt_mul_div_succ (n <<< (-E).toNat) hd
        have hlt2 : n <<< (-E).toNat < d * (M + 1) :=
          lt_of_lt_of_le hlt (Nat.mul_le_mul_left _ (by omega))
        have hltq : ((n <<< (-E).toNat : Nat) : ℚ) < (d : ℚ) * ((M : ℚ) + 1) := by
          exact_mod_cast hlt2
        rw [hval] at hltq
        have h7 : q * (d : ℚ) * (2 : ℚ) ^ (-E).toNat * (2 : ℚ) ^ E
            < (d : ℚ) * ((M : ℚ) + 1) * (2 : ℚ) ^ E :=
          mul_lt_mul_of_pos_right hltq hpE
        have h8 : q * (d : ℚ) * (2 : ℚ) ^ (-E).toNat * (2 : ℚ) ^ E = q * (d : ℚ) := by
          rw [mul_assoc, mul_comm ((2 : ℚ) ^ (-E).toNat), hinv, mul_one]
        rw [h8] at h7
        have : q * (d : ℚ) < ((M : ℚ) + 1) * (2 : ℚ) ^ E * (d : ℚ) := by linarith
        exact lt_of_mul_lt_mul_right this (le_of_lt hdq)
  refine ⟨M, E, ?_, hM.1, hs1, ?_, hM.2.1, hM.2.2, ?_⟩
  · unfold round64Pos
    simp only
    rw [← hb, hE, ← hEdef, ← hMdef]
    have hno : ¬ (971 < E ∨ (E = 971 ∧ M = 2 ^ 53)) := by
      rintro (h | ⟨h, _⟩) <;> omega
    rw [if_neg hno]
  · have : (2 : ℚ) ^ (b + 1) = 2 * ((2 : ℚ) ^ (52 : Nat) * (2 : ℚ) ^ E) := by
      rw [hEdef, ← zpow_natCast, ← zpow_add₀ h2, zpow_add₀ h2 b 1, zpow_one, mul_comm]
      congr 2
      push_cast; ring
    linarith
  · have : (2 : ℚ) ^ E / 2 = (2 : ℚ) ^ b * (2 : ℚ) ^ (-53 : Int) := by
      rw [hEdef, ← zpow_add₀ h2]
      have : b + -53 = (b - 52) + (-1) := by ring
      rw [this, zpow_add₀ h2, zpow_neg_one]
      ring
    rw [this]
    exact mul_le_mul_of_nonneg_right hbl (by positivity)

theorem two_zpow_neg_1000_le : (2 : ℚ) ^ (-1000 : Int) ≤ 1 / 10 ^ 30 := by
  rw [zpow_neg, ← one_div]
  apply one_div_le_one_div_of_le (by norm_num)
  rw [show ((1000 : Int)) = ((1000 : Nat) : Int) by norm_num, zpow_natCast]
  norm_num

theorem le_two_zpow_1000 : (10 : ℚ) ^ 30 ≤ (2 : ℚ) ^ (1000 : Int) := by
  rw [show ((1000 : Int)) = ((1000 : Nat) : Int) by norm_num, zpow_natCast]
  norm_num

/-- Rounding a positive rational between `10^-30` and `10^30`. -/
theorem round64_normal (q : ℚ) (hlo : 1 / 10 ^ 30 ≤ q) (hhi : q ≤ 10 ^ 30) :
    ∃ (M : Nat) (E : Int), round64 q = .fin ((M : ℚ) * (2 : ℚ) ^ E) ∧
      (2 : ℚ) ^ (52 : Nat) ≤ (M : ℚ) ∧
      (2 : ℚ) ^ (52 : Nat) * (2 : ℚ) ^ E ≤ q ∧
      q < 2 * ((2 : ℚ) ^ (52 : Nat) * (2 : ℚ) ^ E) ∧
      (M : ℚ) * (2 : ℚ) ^ E ≤ q + (2 : ℚ) ^ E / 2 ∧
      q < ((M : ℚ) + 1) * (2 : ℚ) ^ E ∧
      (2 : ℚ) ^ E / 2 ≤ q * (2 : ℚ) ^ (-53 : Int) := by
  have hpos : 0 < q := lt_of_lt_of_le (by norm_num) hlo
  have hnum : 0 < q.num := Rat.num_pos.mpr hpos
  have hcast : (((q.num.natAbs : Nat)) : ℚ) = ((q.num : Int) : ℚ) := by
    have hi : ((q.num.natAbs : Nat) : Int) = q.num := Int.natAbs_of_nonneg (le_of_lt hnum)
    rw [← Int.cast_natCast, hi]
  have hq : ((q.num.natAbs : Nat) : ℚ) / (q.den : ℚ) = q := by
    rw [hcast]; exact Rat.num_div_den q
  have h := round64Pos_normal q.num.natAbs q.den (Int.natAbs_pos.mpr (ne_of_gt hnum))
    (Rat.den_pos q) (by rw [hq]; exact le_trans two_zpow_neg_1000_le hlo)
    (by rw [hq]; exact le_trans hhi le_two_zpow_1000)
  rw [hq] at h
  unfold round64
  rw [if_neg (ne_of_gt hpos), if_pos hpos]
  exact h

/-- The relative error of a rounding is at most `2^-53`. -/
theorem round64_bounds (q : ℚ) (hlo : 1 / 10 ^ 30 ≤ q) (hhi : q ≤ 10 ^ 30) :
    ∃ T : ℚ, round64 q = .fin T ∧ q / 2 ≤ T ∧ T ≤ q * (1 + 1 / 2 ^ 53) := by
  obtain ⟨M, E, h, hM, h1, h2, h3, _, h5⟩ := round64_normal q hlo hhi
  have hpE : (0 : ℚ) < (2 : ℚ) ^ E := by positivity
  have hz : (2 : ℚ) ^ (-53 : Int) = 1 / 2 ^ 53 := by
    rw [zpow_neg, ← one_div]
    norm_cast
  rw [hz] at h5
  refine ⟨_, h, ?_, ?_⟩
  · have : (2 : ℚ) ^ (52 : Nat) * (2 : ℚ) ^ E ≤ (M : ℚ) * (2 : ℚ) ^ E :=
      mul_le_mul_of_nonneg_right hM (le_of_lt hpE)
    linarith
  · linarith

/-- Rounding does not go below a binary64 number that the rounded number is not
below. -/
theorem round64_ge_of_isBinary64 (q r T : ℚ) (hlo : 1 / 10 ^ 30 ≤ q) (hhi : q ≤ 10 ^ 30)
    (hr : IsBinary64 r) (hr0 : 0 ≤ r) (hrq : r ≤ q) (h : round64 q = .fin T) : r ≤ T := by
  obtain ⟨M, E, hM0, hM, h1, h2, h3, h4, _⟩ := round64_normal q hlo hhi
  rw [hM0] at h
  simp only [F64.fin.injEq] at h
  subst h
  obtain ⟨m, e, hm, _, _, hre⟩ := hr
  rw [abs_of_nonneg hr0] at hre
  subst hre
  have h2ne : (2 : ℚ) ≠ 0 := by norm_num
  have hpE : (0 : ℚ) < (2 : ℚ) ^ E := by positivity
  by_cases hc : E ≤ e
  · have hsplit : (m : ℚ) * (2 : ℚ) ^ e = ((m * 2 ^ (e - E).toNat : Nat) : ℚ) * (2 : ℚ) ^ E := by
      push_cast
      rw [mul_assoc, ← zpow_natCast, Int.toNat_of_nonneg (by omega), ← zpow_add₀ h2ne]
      congr 2
      ring
    rw [hsplit] at hrq ⊢
    have hlt : ((m * 2 ^ (e - E).toNat : Nat) : ℚ) * (2 : ℚ) ^ E < ((M : ℚ) + 1) * (2 : ℚ) ^ E :=
      lt_of_le_of_lt hrq h4
    have hlt2 : ((m * 2 ^ (e - E).toNat : Nat) : ℚ) < ((M + 1 : Nat) : ℚ) := by
      have := lt_of_mul_lt_mul_right hlt (le_of_lt hpE)
      exact_mod_cast this
    have hlt3 : m * 2 ^ (e - E).toNat < M + 1 := by exact_mod_cast hlt2
    have hle : m * 2 ^ (e - E).toNat ≤ M := by omega
    have : ((m * 2 ^ (e - E).toNat : Nat) : ℚ) ≤ (M : ℚ) := by exact_mod_cast hle
    exact mul_le_mul_of_nonneg_right this (le_of_lt hpE)
  · have hmq : (m : ℚ) ≤ (2 : ℚ) ^ (53 : Nat) := by exact_mod_cast le_of_lt hm
    have hpe : (0 : ℚ) < (2 : ℚ) ^ e := by positivity
    have hE : (2 : ℚ) ^ (e + 1) ≤ (2 : ℚ) ^ E :=
      zpow_le_zpow_right₀ (by norm_num) (by omega)
    rw [zpow_add₀ h2ne, zpow_one] at hE
    calc (m : ℚ) * (2 : ℚ) ^ e ≤ (2 : ℚ) ^ (53 : Nat) * (2 : ℚ) ^ e :=
          mul_le_mul_of_nonneg_right hmq (le_of_lt hpe)
      _ = (2 : ℚ) ^ (52 : Nat) * ((2 : ℚ) ^ e * 2) := by ring
      _ ≤ (2 : ℚ) ^ (52 : Nat) * (2 : ℚ) ^ E := mul_le_mul_of_nonneg_left hE (by positivity)
      _ ≤ (M : ℚ) * (2 : ℚ) ^ E := mul_le_mul_of_nonneg_right hM (le_of_lt hpE)

/-- An integer below `2^53` is converted exactly. -/
theorem F64.ofInt_exact (n : Int) (h0 : 0 ≤ n) (h : n < 2 ^ 53) :
    F64.ofInt n = .fin (n : ℚ) ∧ IsBinary64 (n : ℚ) := by
  have hn : (n : ℚ) = ((n.toNat : Nat) : ℚ) * (2 : ℚ) ^ (0 : Int) := by
    have : ((n.toNat : Nat) : Int) = n := Int.toNat_of_nonneg h0
    rw [zpow_zero, mul_one]
    exact_mod_cast this.symm
  have hm : n.toNat < 2 ^ 53 := by omega
  constructor
  · unfold F64.ofInt
    rw [hn]
    exact round64_exact _ 0 hm (by norm_num) (by norm_num)
  · refine ⟨n.toNat, 0, hm, by norm_num, by norm_num, ?_⟩
    rw [abs_of_nonneg (by exact_mod_cast h0)]
    exact hn

theorem round64Pos_nonneg (n d : Nat) :
    round64Pos n d = .inf false ∨ ∃ T : ℚ, 0 ≤ T ∧ round64Pos n d = .fin T := by
  unfold round64Pos
  simp only
  split_ifs
  all_goals first
    | exact Or.inl rfl
    | exact Or.inr ⟨_, by positivity, rfl⟩

theorem round64_nonPos (q : ℚ) (h : q ≤ 0) : (round64 q).NonPos := by
  unfold round64
  by_cases h0 : q = 0
  · rw [if_pos h0]
    exact Or.inr ⟨0, le_refl _, rfl⟩
  · rw [if_neg h0, if_neg (not_lt.mpr h)]
    rcases round64Pos_nonneg q.num.natAbs q.den with hr | ⟨T, hT, hr⟩
    · rw [hr]; exact Or.inl rfl
    · rw [hr]; exact Or.inr ⟨-T, by linarith, rfl⟩

theorem F64.NonPos.lt_zero_false {x : F64} (h : x.NonPos) : F64.lt (.fin 0) x = false := by
  rcases h with h | ⟨T, hT, h⟩
  · rw [h]; rfl
  · rw [h]
    show decide ((0 : ℚ) < T) = false
    exact decide_eq_false (not_lt.mpr hT)

theorem F64.NonPos.add {x y : F64} (hx : x.NonPos) (hy : y.NonPos) : (x.add y).NonPos := by
  rcases hx with hx | ⟨a, ha, hx⟩ <;> rcases hy with hy | ⟨b, hb, hy⟩ <;> rw [hx, hy]
  · exact Or.inl rfl
  · exact Or.inl rfl
  · exact Or.inl rfl
  · exact round64_nonPos _ (by linarith)

theorem F64.NonPos.div_pos {x : F64} (hx : x.NonPos) (b : ℚ) (hb : 0 < b) :
    (x.div (.fin b)).NonPos := by
  rcases hx with hx | ⟨a, ha, hx⟩ <;> rw [hx]
  · left
    simp only [F64.div]
    have : ¬ b < 0 := not_lt.mpr (le_of_lt hb)
    simp [this]
  · simp only [F64.div]
    rw [if_neg (ne_of_gt hb)]
    exact round64_nonPos _ (div_nonpos_of_nonpos_of_nonneg ha (le_of_lt hb))

/-- A duration that is not positive is not a positive number of seconds. -/
theorem Seconds64_nonPos (d : Int) (h : d ≤ 0) : (Seconds64 d).NonPos := by
  unfold Seconds64
  simp only
  have e1 : d.tdiv 1000000000 = -((-d).tdiv 1000000000) := by
    rw [Int.neg_tdiv, neg_neg]
  have hsec : d.tdiv 1000000000 ≤ 0 := by
    have := Int.tdiv_nonneg (a := -d) (b := 1000000000) (by omega) (by norm_num)
    omega
  have hnsec : d.tmod 1000000000 ≤ 0 := by
    have h1 := Int.tmod_nonneg (a := -d) 1000000000 (by omega)
    rw [Int.tmod_def] at h1 ⊢
    omega
  have hs : ((d.tdiv 1000000000 : Int) : ℚ) ≤ 0 := by exact_mod_cast hsec
  have hn : ((d.tmod 1000000000 : Int) : ℚ) ≤ 0 := by exact_mod_cast hnsec
  exact F64.NonPos.add (round64_nonPos _ hs)
    (F64.NonPos.div_pos (round64_nonPos _ hn) _ (by norm_num))

theorem round64_zero : round64 0 = .fin 0 := by
  unfold round64
  rw [if_pos rfl]

/-- The seconds of a positive duration of Go, in binary64: two roundings. -/
theorem Seconds64_pos (d : Int) (h0 : 0 < d) (h63 : d < 2 ^ 63) :
    ∃ E : ℚ, Seconds64 d = .fin E ∧ Seconds d / 4 ≤ E ∧
      E ≤ Seconds d * (1 + 1 / 2 ^ 53) ^ 2 := by
  have hsec : d.tdiv 1000000000 = d / 1000000000 :=
    Int.tdiv_eq_ediv (le_of_lt h0) (by norm_num)
  have hnsec : d.tmod 1000000000 = d % 1000000000 :=
    Int.tmod_eq_emod (le_of_lt h0) (by norm_num)
  have hs0 : 0 ≤ d / 1000000000 := by omega
  have hs1 : d / 1000000000 < 2 ^ 53 := by omega
  have hn0 : 0 ≤ d % 1000000000 := by omega
  have hn1 : d % 1000000000 < 1000000000 := by omega
  have hd : d = 1000000000 * (d / 1000000000) + d % 1000000000 := by omega
  have hS : Seconds d = ((d / 1000000000 : Int) : ℚ) + ((d % 1000000000 : Int) : ℚ) / 1000000000 := by
    unfold Seconds
    have : (d : ℚ) = 1000000000 * ((d / 1000000000 : Int) : ℚ) + ((d % 1000000000 : Int) : ℚ) := by
      exact_mod_cast hd
    rw [this]
    field_simp
    ring
  have hsq0 : (0 : ℚ) ≤ ((d / 1000000000 : Int) : ℚ) := by exact_mod_cast hs0
  have hsq1 : ((d / 1000000000 : Int) : ℚ) ≤ 9223372037 := by
    have : d / 1000000000 ≤ 9223372037 := by omega
    exact_mod_cast this
  have hnq0 : (0 : ℚ) ≤ ((d % 1000000000 : Int) : ℚ) := by exact_mod_cast hn0
  have hnq1 : ((d % 1000000000 : Int) : ℚ) ≤ 1000000000 := by exact_mod_cast le_of_lt hn1
  unfold Seconds64
  simp only
  rw [hsec, hnsec, (F64.ofInt_exact _ hs0 hs1).1, (F64.ofInt_exact _ hn0 (by omega)).1]
  simp only [F64.div]
  rw [if_neg (by norm_num)]
  by_cases hz : d % 1000000000 = 0
  · rw [hz] at hS ⊢
    simp only [Int.cast_zero, zero_div, add_zero] at hS ⊢
    rw [round64_zero]
    simp only [F64.add, add_zero]
    have := (F64.ofInt_exact _ hs0 hs1).1
    unfold F64.ofInt at this
    rw [this, hS]
    refine ⟨_, rfl, by linarith, ?_⟩
    have : (1 : ℚ) ≤ (1 + 1 / 2 ^ 53) ^ 2 := by norm_num
    nlinarith
  · have hn1' : 1 ≤ d % 1000000000 := by omega
    have hnq1' : (1 : ℚ) ≤ ((d % 1000000000 : Int) : ℚ) := by exact_mod_cast hn1'
    obtain ⟨T1, hT1, hlo1, hhi1⟩ :=
      round64_bounds (((d % 1000000000 : Int) : ℚ) / 1000000000)
        (by rw [le_div_iff₀ (by norm_num)]; linarith)
        (by rw [div_le_iff₀ (by norm_num)]; linarith)
    rw [hT1]
    simp only [F64.add]
    have hq1 : ((d % 1000000000 : Int) : ℚ) / 1000000000 ≤ 1 := by
      rw [div_le_iff₀ (by norm_num)]; linarith
    have hq0 : (1 : ℚ) / 1000000000 ≤ ((d % 1000000000 : Int) : ℚ) / 1000000000 := by
      rw [div_le_div_iff₀ (by norm_num) (by norm_num)]; linarith
    obtain ⟨T2, hT2, hlo2, hhi2⟩ :=
      round64_bounds (((d / 1000000000 : Int) : ℚ) + T1)
        (by norm_num at hq0 ⊢; linarith)
        (by norm_num at hhi1 ⊢; linarith)
    refine ⟨T2, hT2, ?_, ?_⟩
    · rw [hS]; linarith
    · rw [hS]
      have hu : (0 : ℚ) ≤ 1 / 2 ^ 53 := by norm_num
      have hc : (1 : ℚ) ≤ 1 + 1 / 2 ^ 53 := by linarith
      have h1 : ((d / 1000000000 : Int) : ℚ) + T1
          ≤ (((d / 1000000000 : Int) : ℚ) + ((d % 1000000000 : Int) : ℚ) / 1000000000)
            * (1 + 1 / 2 ^ 53) := by nlinarith
      calc T2 ≤ (((d / 1000000000 : Int) : ℚ) + T1) * (1 + 1 / 2 ^ 53) := hhi2
        _ ≤ ((((d / 1000000000 : Int) : ℚ) + ((d % 1000000000 : Int) : ℚ) / 1000000000)
            * (1 + 1 / 2 ^ 53)) * (1 + 1 / 2 ^ 53) :=
            mul_le_mul_of_nonneg_right h1 (by linarith)
        _ = _ := by ring

/-- The refill rate in binary64: one rounding. -/
theorem refillRate64 (rc ws : Int) (hrc : 0 < rc) (hrc53 : rc < 2 ^ 53)
    (hws : 0 < ws) (hws53 : ws < 2 ^ 53) :
    ∃ R : ℚ, (F64.ofInt rc).div (F64.ofInt ws) = .fin R ∧
      (rc : ℚ) / (ws : ℚ) / 2 ≤ R ∧ R ≤ (rc : ℚ) / (ws : ℚ) * (1 + 1 / 2 ^ 53) := by
  rw [(F64.ofInt_exact rc (le_of_lt hrc) hrc53).1, (F64.ofInt_exact ws (le_of_lt hws) hws53).1]
  have hrcq : (1 : ℚ) ≤ (rc : ℚ) := by exact_mod_cast hrc
  have hwsq : (1 : ℚ) ≤ (ws : ℚ) := by exact_mod_cast hws
  have hrcq1 : (rc : ℚ) ≤ 2 ^ 53 := by exact_mod_cast le_of_lt hrc53
  have hwsq1 : (ws : ℚ) ≤ 2 ^ 53 := by exact_mod_cast le_of_lt hws53
  simp only [F64.div]
  rw [if_neg (by linarith)]
  exact round64_bounds _
    (by rw [div_le_div_iff₀ (by norm_num) (by linarith)]; norm_num at hwsq1 ⊢; nlinarith)
    (by rw [div_le_iff₀ (by linarith)]; norm_num at hrcq1 ⊢; nlinarith)

theorem refillTokens64_nonpos (rl : connectionRateLimiter64) (now : Int)
    (h : now ≤ rl.lastRefill) : refillTokens64 rl now = rl := by
  unfold refillTokens64
  simp only
  rw [(Seconds64_nonPos (now - rl.lastRefill) (by omega)).lt_zero_false]
  simp

/-- The refill in binary64, for a rate limit of two positive numbers below `2^53` and
a balance in `[0, RequestCount]`: the balance does not fall, stays in
`[0, RequestCount]`, and exceeds the exact sum
`tokens + elapsed * RequestCount / WindowSeconds` by a relative error of at most
`6 * 2^-53` of the refill and `2^-53` of the old balance. -/
theorem refillTokens64_budget (rl : connectionRateLimiter64) (now : Int) (f : ℚ)
    (hrc : 0 < rl.rateLimit.RequestCount) (hrc53 : rl.rateLimit.RequestCount < 2 ^ 53)
    (hws : 0 < rl.rateLimit.WindowSeconds) (hws53 : rl.rateLimit.WindowSeconds < 2 ^ 53)
    (hf : rl.tokens = .fin f) (hrep : IsBinary64 f) (hf0 : 0 ≤ f)
    (hfc : f ≤ (rl.rateLimit.RequestCount : ℚ))
    (h63 : now - rl.lastRefill < 2 ^ 63) :
    ∃ T : ℚ, (refillTokens64 rl now).tokens = .fin T ∧ IsBinary64 T ∧ f ≤ T ∧
      T ≤ (rl.rateLimit.RequestCount : ℚ) ∧
      T ≤ f + Seconds ((refillTokens64 rl now).lastRefill - rl.lastRefill)
            * ((rl.rateLimit.RequestCount : ℚ) / (rl.rateLimit.WindowSeconds : ℚ))
            * (1 + 6 / 2 ^ 53)
          + (rl.rateLimit.RequestCount : ℚ) / 2 ^ 53 ∧
      rl.lastRefill ≤ (refillTokens64 rl now).lastRefill ∧
      ((refillTokens64 rl now).lastRefill = rl.lastRefill ∨
        (refillTokens64 rl now).lastRefill = now) ∧
      (refillTokens64 rl now).rateLimit = rl.rateLimit := by
  have hrcq : (1 : ℚ) ≤ (rl.rateLimit.RequestCount : ℚ) := by exact_mod_cast hrc
  have hwsq : (1 : ℚ) ≤ (rl.rateLimit.WindowSeconds : ℚ) := by exact_mod_cast hws
  have hrcq1 : (rl.rateLimit.RequestCount : ℚ) ≤ 2 ^ 53 := by exact_mod_cast le_of_lt hrc53
  have hwsq1 : (rl.rateLimit.WindowSeconds : ℚ) ≤ 2 ^ 53 := by exact_mod_cast le_of_lt hws53
  rcases le_or_lt now rl.lastRefill with hle | hlt
  · rw [refillTokens64_nonpos rl now hle]
    refine ⟨f, hf, hrep, le_refl _, hfc, ?_, le_refl _, Or.inl rfl, rfl⟩
    rw [sub_self, Seconds_zero, zero_mul, zero_mul, add_zero]
    have : (0 : ℚ) ≤ (rl.rateLimit.RequestCount : ℚ) / 2 ^ 53 := by positivity
    linarith
  · have hd0 : 0 < now - rl.lastRefill := by omega
    obtain ⟨E, hE, hElo, hEhi⟩ := Seconds64_pos _ hd0 h63
    obtain ⟨R, hR, hRlo, hRhi⟩ := refillRate64 _ _ hrc hrc53 hws hws53
    have hx0 : (1 : ℚ) / 1000000000 ≤ Seconds (now - rl.lastRefill) := by
      unfold Seconds
      have : (1 : ℚ) ≤ ((now - rl.lastRefill : Int) : ℚ) := by exact_mod_cast hd0
      rw [div_le_div_iff₀ (by norm_num) (by norm_num)]
      linarith
    have hx1 : Seconds (now - rl.lastRefill) ≤ 9223372037 := by
      unfold Seconds
      have : now - rl.lastRefill ≤ 9223372036854775808 := by
        have : ((2 : Int) ^ 63) = 9223372036854775808 := by norm_num
        omega
      have : ((now - rl.lastRefill : Int) : ℚ) ≤ 9223372036854775808 := by exact_mod_cast this
      rw [div_le_iff₀ (by norm_num)]
      linarith
    have hr0 : (1 : ℚ) / 2 ^ 53
        ≤ (rl.rateLimit.RequestCount : ℚ) / (rl.rateLimit.WindowSeconds : ℚ) := by
      rw [div_le_div_iff₀ (by norm_num) (by linarith)]
      linarith
    have hr1 : (rl.rateLimit.RequestCount : ℚ) / (rl.rateLimit.WindowSeconds : ℚ) ≤ 2 ^ 53 := by
      rw [div_le_iff₀ (by linarith)]
      nlinarith
    obtain ⟨x, hxdef⟩ : ∃ x, x = Seconds (now - rl.lastRefill) := ⟨_, rfl⟩
    obtain ⟨r, hrdef⟩ : ∃ r, r = (rl.rateLimit.RequestCount : ℚ)
        / (rl.rateLimit.WindowSeconds : ℚ) := ⟨_, rfl⟩
    obtain ⟨c, hcdef⟩ : ∃ c : ℚ, c = 1 + 1 / 2 ^ 53 := ⟨_, rfl⟩
    rw [← hxdef] at hElo hEhi hx0 hx1
    rw [← hrdef] at hRlo hRhi hr0 hr1
    rw [← hcdef] at hEhi hRhi
    have hc1 : (1 : ℚ) ≤ c := by rw [hcdef]; norm_num
    have hc2 : c ≤ 2 := by rw [hcdef]; norm_num
    have hxpos : (0 : ℚ) < x := lt_of_lt_of_le (by norm_num) hx0
    have hrpos : (0 : ℚ) < r := lt_of_lt_of_le (by norm_num) hr0
    have hEpos : (0 : ℚ) < E := by linarith
    have hRpos : (0 : ℚ) < R := by linarith
    have hER : E * R ≤ x * r * c ^ 3 := by
      calc E * R ≤ (x * c ^ 2) * (r * c) :=
            mul_le_mul hEhi hRhi (le_of_lt hRpos) (by positivity)
        _ = x * r * c ^ 3 := by ring
    have hERlo : x * r / 8 ≤ E * R := by
      calc x * r / 8 = (x / 4) * (r / 2) := by ring
        _ ≤ E * R := mul_le_mul hElo hRlo (by positivity) (le_of_lt hEpos)
    have hxr0 : (1 : ℚ) / 1000000000 * (1 / 2 ^ 53) ≤ x * r :=
      mul_le_mul hx0 hr0 (by norm_num) (le_of_lt hxpos)
    have hxr1 : x * r ≤ 9223372037 * 2 ^ 53 :=
      mul_le_mul hx1 hr1 (le_of_lt hrpos) (by norm_num)
    have hc3 : c ^ 3 ≤ 2 := by rw [hcdef]; norm_num
    have hxrc : x * r * c ^ 3 ≤ 9223372037 * 2 ^ 53 * 2 :=
      mul_le_mul hxr1 hc3 (by positivity) (by norm_num)
    obtain ⟨A, hA, hAlo, hAhi⟩ := round64_bounds (E * R)
      (by norm_num at hxr0 ⊢; linarith) (by norm_num at hxrc ⊢; linarith)
    rw [← hcdef] at hAhi
    have hA1 : A ≤ x * r * c ^ 4 := by
      calc A ≤ E * R * c := hAhi
        _ ≤ x * r * c ^ 3 * c := mul_le_mul_of_nonneg_right hER (by linarith)
        _ = x * r * c ^ 4 := by ring
    have hA2 : A ≤ 9223372037 * 2 ^ 53 * 2 * 2 := by
      calc A ≤ E * R * c := hAhi
        _ ≤ 9223372037 * 2 ^ 53 * 2 * 2 :=
            mul_le_mul (le_trans hER hxrc) hc2 (by linarith) (by norm_num)
    obtain ⟨F, hF, hFlo, hFhi⟩ := round64_bounds (f + A)
      (by norm_num at hxr0 ⊢; linarith) (by norm_num at hA2 hrcq1 ⊢; linarith)
    rw [← hcdef] at hFhi
    have hFf : f ≤ F :=
      round64_ge_of_isBinary64 (f + A) f F
        (by norm_num at hxr0 ⊢; linarith) (by norm_num at hA2 hrcq1 ⊢; linarith)
        hrep hf0 (by linarith) hF
    have hc5 : c ^ 5 ≤ 1 + 6 / 2 ^ 53 := by rw [hcdef]; norm_num
    have hFb : F ≤ f + x * r * (1 + 6 / 2 ^ 53)
        + (rl.rateLimit.RequestCount : ℚ) / 2 ^ 53 := by
      have h1 : (f + A) * c ≤ (f + x * r * c ^ 4) * c :=
        mul_le_mul_of_nonneg_right (by linarith) (by linarith)
      have h2 : x * r * c ^ 5 ≤ x * r * (1 + 6 / 2 ^ 53) :=
        mul_le_mul_of_nonneg_left hc5 (by positivity)
      have h3 : f * c ≤ f + (rl.rateLimit.RequestCount : ℚ) / 2 ^ 53 := by
        rw [hcdef]
        have : f * (1 / 2 ^ 53) ≤ (rl.rateLimit.RequestCount : ℚ) * (1 / 2 ^ 53) :=
          mul_le_mul_of_nonneg_right hfc (by norm_num)
        linarith
      have h4 : (f + x * r * c ^ 4) * c = f * c + x * r * c ^ 5 := by ring
      linarith
    have hrcE := (F64.ofInt_exact _ (le_of_lt hrc) hrc53)
    have hval : (refillTokens64 rl now)
        = { rl with
            tokens := if (rl.rateLimit.RequestCount : ℚ) < F
              then .fin (rl.rateLimit.RequestCount : ℚ) else .fin F
            lastRefill := now } := by
      unfold refillTokens64
      simp only
      rw [hE, hR, hf, hrcE.1]
      have hlt0 : F64.lt (.fin 0) (.fin E) = true := decide_eq_true hEpos
      rw [hlt0]
      simp only [if_true, F64.mul, F64.add, hA, hF, F64.lt, decide_eq_true_eq]
    have hbudget : ∀ T : ℚ, T ≤ F →
        T ≤ f + Seconds (now - rl.lastRefill)
            * ((rl.rateLimit.RequestCount : ℚ) / (rl.rateLimit.WindowSeconds : ℚ))
            * (1 + 6 / 2 ^ 53)
          + (rl.rateLimit.RequestCount : ℚ) / 2 ^ 53 := by
      intro T hT
      rw [← hxdef, ← hrdef]
      linarith
    rw [hval]
    by_cases hcap : (rl.rateLimit.RequestCount : ℚ) < F
    · rw [if_pos hcap]
      exact ⟨_, rfl, hrcE.2, hfc, le_refl _, hbudget _ (le_of_lt hcap), le_of_lt hlt,
        Or.inr rfl, rfl⟩
    · rw [if_neg hcap]
      have hFrep : IsBinary64 F := round64_isFloat64 (f + A) F hF
      exact ⟨F, rfl, hFrep, hFf, not_lt.mp hcap, hbudget _ (le_refl _), le_of_lt hlt,
        Or.inr rfl, rfl⟩

/-- A limiter constructed with a rate limit of two positive numbers below `2^53`
satisfies the invariant. -/
theorem newConnectionRateLimiter64_ok (rateLimit : RateLimit) (now : Int)
    (hrc : 0 < rateLimit.RequestCount) (hrc53 : rateLimit.RequestCount < 2 ^ 53)
    (hws : 0 < rateLimit.WindowSeconds) (hws53 : rateLimit.WindowSeconds < 2 ^ 53) :
    ∃ rl, newConnectionRateLimiter64 rateLimit now = some rl ∧ TokensOk64 rl ∧
      rl.tokens = .fin (rateLimit.RequestCount : ℚ) := by
  obtain ⟨he, hrep⟩ := F64.ofInt_exact _ (le_of_lt hrc) hrc53
  have hq : (0 : ℚ) ≤ (rateLimit.RequestCount : ℚ) := by exact_mod_cast le_of_lt hrc
  refine ⟨{ rateLimit := rateLimit, tokens := .fin (rateLimit.RequestCount : ℚ),
            lastRefill := now, queue := [] }, ?_, ?_, rfl⟩
  · unfold newConnectionRateLimiter64
    rw [he]
    rfl
  · exact ⟨hrc, hrc53, hws, hws53, _, rfl, hrep, hq, le_refl _⟩

/-- One tick in binary64, from a state that satisfies the invariant: the tick
returns, the invariant holds again, and the balance left plus the number of requests
dispatched is at most the old balance plus the refill over the time by which
`lastRefill` advanced, plus the rounding errors. -/
theorem tick64_budget (rl : connectionRateLimiter64) (now : Int) (f : ℚ)
    (hok : TokensOk64 rl) (hf : rl.tokens = .fin f) (h63 : now - rl.lastRefill < 2 ^ 63) :
    ∃ rl1 out T, tick64 rl now = some (rl1, out) ∧ TokensOk64 rl1 ∧
      rl1.rateLimit = rl.rateLimit ∧ rl.lastRefill ≤ rl1.lastRefill ∧
      (rl1.lastRefill = rl.lastRefill ∨ rl1.lastRefill = now) ∧
      (rl.lastRefill < now → rl1.lastRefill = now) ∧
      f ≤ T ∧ T ≤ (rl.rateLimit.RequestCount : ℚ) ∧
      out.length = min ⌊T⌋₊ rl.queue.length ∧
      rl1.tokens = .fin (T - (out.length : ℚ)) ∧ 0 ≤ T - (out.length : ℚ) ∧
      T ≤ f + refillBound rl (rl1.lastRefill - rl.lastRefill) + tickError rl := by
  obtain ⟨hrc, hrc53, hws, hws53, f0, hf0, hrep, hnn, hcap⟩ := hok
  rw [hf] at hf0
  simp only [F64.fin.injEq] at hf0
  subst hf0
  obtain ⟨T, hT, hTrep, hfT, hTc, hTb, hl1, hl2, hrate⟩ :=
    refillTokens64_budget rl now f hrc hrc53 hws hws53 hf hrep hnn hcap h63
  have hrcq1 : (rl.rateLimit.RequestCount : ℚ) < 2 ^ 53 := by exact_mod_cast hrc53
  have hT53 : T < 2 ^ 53 := lt_of_le_of_lt hTc hrcq1
  obtain ⟨rl1, d, hd, hcount, htok, hqlen, _, _, hframe⟩ :=
    dispatch64_full (priorityQueue.Len rl.queue + 1) (refillTokens64 rl now) [] T hT hTrep hT53
      (by rw [refillTokens64_queue]; unfold priorityQueue.Len; omega)
  rw [refillTokens64_queue] at hcount
  simp only [List.nil_append] at hd
  have hr1 : rl1.rateLimit = rl.rateLimit := by rw [hframe]; exact hrate
  have hlr : rl1.lastRefill = (refillTokens64 rl now).lastRefill := by rw [hframe]
  have hT0 : 0 ≤ T := le_trans hnn hfT
  have hle : (d.length : ℚ) ≤ T := by
    have h1 : d.length ≤ ⌊T⌋₊ := by rw [hcount]; exact min_le_left _ _
    have h2 : ((⌊T⌋₊ : Nat) : ℚ) ≤ T := Nat.floor_le hT0
    have h3 : (d.length : ℚ) ≤ ((⌊T⌋₊ : Nat) : ℚ) := by exact_mod_cast h1
    linarith
  have hval1 : rl1.tokens.IsFloat64 :=
    tick64_isFloat64 rl now rl1 d hd (by
      intro q hq
      rw [hf] at hq
      simp only [F64.fin.injEq] at hq
      rw [← hq]; exact hrep)
  refine ⟨rl1, d, T, hd, ?_, hr1, by rw [hlr]; exact hl1, by rw [hlr]; exact hl2, ?_,
    hfT, hTc, hcount, htok, by linarith, ?_⟩
  · refine ⟨by rw [hr1]; exact hrc, by rw [hr1]; exact hrc53, by rw [hr1]; exact hws,
      by rw [hr1]; exact hws53, _, htok, hval1 _ htok, by linarith, ?_⟩
    rw [hr1]
    have : (0 : ℚ) ≤ (d.length : ℚ) := by positivity
    linarith
  · intro hlt
    rw [hlr]
    rcases hl2 with h | h
    · unfold refillTokens64 at h ⊢
      obtain ⟨E, hE, hElo, _⟩ := Seconds64_pos (now - rl.lastRefill) (by omega) h63
      have hxpos : 0 < Seconds (now - rl.lastRefill) := Seconds_pos.mpr (by omega)
      have hlt0 : F64.lt (.fin 0) (Seconds64 (now - rl.lastRefill)) = true := by
        rw [hE]; exact decide_eq_true (by linarith)
      simp only [hlt0, if_true]
    · exact h
  · rw [hlr]
    unfold refillBound tickError
    exact hTb

theorem refillBound_add (rl : connectionRateLimiter64) (a b c : Int) :
    refillBound rl (a - b) + refillBound rl (b - c) = refillBound rl (a - c) := by
  unfold refillBound
  rw [← Seconds_add a b c]
  ring

theorem refillBound_zero (rl : connectionRateLimiter64) : refillBound rl 0 = 0 := by
  unfold refillBound
  rw [Seconds_zero, zero_mul, zero_mul]

theorem refillBound_mono (rl : connectionRateLimiter64) (hok : TokensOk64 rl) {a b : Int}
    (h : a ≤ b) : refillBound rl a ≤ refillBound rl b := by
  obtain ⟨hrc, _, hws, _, _⟩ := hok
  have hrcq : (0 : ℚ) < (rl.rateLimit.RequestCount : ℚ) := by exact_mod_cast hrc
  have hwsq : (0 : ℚ) < (rl.rateLimit.WindowSeconds : ℚ) := by exact_mod_cast hws
  unfold refillBound
  have h1 := Seconds_mono h
  have h2 : (0 : ℚ) ≤ (rl.rateLimit.RequestCount : ℚ) / (rl.rateLimit.WindowSeconds : ℚ) :=
    le_of_lt (div_pos hrcq hwsq)
  exact mul_le_mul_of_nonneg_right (mul_le_mul_of_nonneg_right h1 h2) (by norm_num)

theorem tickError_nonneg (rl : connectionRateLimiter64) (hok : TokensOk64 rl) :
    0 ≤ tickError rl := by
  obtain ⟨hrc, _, _, _, _⟩ := hok
  have hrcq : (0 : ℚ) < (rl.rateLimit.RequestCount : ℚ) := by exact_mod_cast hrc
  unfold tickError
  positivity

/-- One iteration of the worker loop in binary64 from a state that satisfies the
invariant. -/
theorem processRequests64_budget (rl : connectionRateLimiter64) (e : Stimulus64) (f : ℚ)
    (hok : TokensOk64 rl) (hf : rl.tokens = .fin f)
    (h63 : ∀ u ∈ tickTimes [e], u - rl.lastRefill < 2 ^ 63) :
    ∃ rl1 out f1, processRequests64 rl e = some (rl1, out) ∧ TokensOk64 rl1 ∧
      rl1.tokens = .fin f1 ∧ 0 ≤ f1 ∧
      rl1.rateLimit = rl.rateLimit ∧ rl.lastRefill ≤ rl1.lastRefill ∧
      (rl1.lastRefill = rl.lastRefill ∨ rl1.lastRefill ∈ tickTimes [e]) ∧
      f1 + (out.length : ℚ) ≤ f + refillBound rl (rl1.lastRefill - rl.lastRefill)
        + ((tickTimes [e]).length : ℚ) * tickError rl := by
  have hnn : 0 ≤ f := by
    obtain ⟨_, _, _, _, f0, hf0, _, h0, _⟩ := hok
    rw [hf] at hf0
    simp only [F64.fin.injEq] at hf0
    rw [hf0]; exact h0
  cases e with
  | request req =>
    obtain ⟨q, hq, _⟩ := Push_spec rl.queue req
    refine ⟨{ rl with queue := q }, [], f, ?_, hok, hf, hnn, rfl, le_refl _, Or.inl rfl, ?_⟩
    · simp only [processRequests64, hq]
    · simp only [tickTimes, List.length_nil, Nat.cast_zero, zero_mul, add_zero, sub_self]
      rw [refillBound_zero]
      simp
  | tick now =>
    obtain ⟨rl1, out, T, h1, hok1, hr1, hl1, hl2, _, _, _, _, htok, h0, hb⟩ :=
      tick64_budget rl now f hok hf (h63 now (by simp [tickTimes]))
    refine ⟨rl1, out, T - (out.length : ℚ), h1, hok1, htok, h0, hr1, hl1, ?_, ?_⟩
    · rcases hl2 with h | h
      · exact Or.inl h
      · right; rw [h]; simp [tickTimes]
    · simp only [tickTimes, List.length_cons, List.length_nil, zero_add, Nat.cast_one, one_mul]
      linarith

/-- A run of the worker loop in binary64 from a state that satisfies the invariant:
the run returns, and the balance left plus the number of requests dispatched is at
most the old balance plus the refill over the time by which `lastRefill` advanced,
plus `tickError` for each tick. -/
theorem runLimiter64_budget : ∀ (es : List Stimulus64) (rl : connectionRateLimiter64) (f : ℚ),
    TokensOk64 rl → rl.tokens = .fin f →
    (∀ u ∈ tickTimes es, u - rl.lastRefill < 2 ^ 63) →
    ∃ rl1 out f1, runLimiter64 rl es = some (rl1, out) ∧ TokensOk64 rl1 ∧
      rl1.tokens = .fin f1 ∧ 0 ≤ f1 ∧
      rl1.rateLimit = rl.rateLimit ∧ rl.lastRefill ≤ rl1.lastRefill ∧
      (rl1.lastRefill = rl.lastRefill ∨ rl1.lastRefill ∈ tickTimes es) ∧
      f1 + (out.length : ℚ) ≤ f + refillBound rl (rl1.lastRefill - rl.lastRefill)
        + ((tickTimes es).length : ℚ) * tickError rl := by
  intro es
  induction es with
  | nil =>
    intro rl f hok hf _
    have hnn : 0 ≤ f := by
      obtain ⟨_, _, _, _, f0, hf0, _, h0, _⟩ := hok
      rw [hf] at hf0
      simp only [F64.fin.injEq] at hf0
      rw [hf0]; exact h0
    refine ⟨rl, [], f, rfl, hok, hf, hnn, rfl, le_refl _, Or.inl rfl, ?_⟩
    simp only [tickTimes, List.length_nil, Nat.cast_zero, zero_mul, add_zero, sub_self]
    rw [refillBound_zero]
    simp
  | cons e es ih =>
    intro rl f hok hf h63
    have hsplit : tickTimes (e :: es) = tickTimes [e] ++ tickTimes es := by
      cases e <;> simp [tickTimes]
    obtain ⟨rl2, out2, f2, h2, hok2, hf2, _, hr2, hl2, hlast2, hb2⟩ :=
      processRequests64_budget rl e f hok hf (by
        intro u hu
        exact h63 u (by rw [hsplit]; exact List.mem_append_left _ hu))
    obtain ⟨rl3, out3, f3, h3, hok3, hf3, hnn3, hr3, hl3, hlast3, hb3⟩ :=
      ih rl2 f2 hok2 hf2 (by
        intro u hu
        have := h63 u (by rw [hsplit]; exact List.mem_append_right _ hu)
        omega)
    have hrb : ∀ d, refillBound rl2 d = refillBound rl d := by
      intro d; unfold refillBound; rw [hr2]
    have hte : tickError rl2 = tickError rl := by unfold tickError; rw [hr2]
    rw [hrb, hte] at hb3
    refine ⟨rl3, out2 ++ out3, f3, ?_, hok3, hf3, hnn3, hr3.trans hr2, le_trans hl2 hl3, ?_, ?_⟩
    · simp only [runLimiter64, h2, h3]
    · rw [hsplit]
      rcases hlast3 with h | h
      · rcases hlast2 with h' | h'
        · exact Or.inl (h.trans h')
        · right; rw [h]; exact List.mem_append_left _ h'
      · right; exact List.mem_append_right _ h
    · rw [hsplit, List.length_append, List.length_append]
      push_cast
      have := refillBound_add rl rl3.lastRefill rl2.lastRefill rl.lastRefill
      rw [← this]
      linarith

theorem tick64_lastRefill_ge (rl rl1 : connectionRateLimiter64) (s : Int)
    (hl1 : rl.lastRefill ≤ rl1.lastRefill) (hl2 : rl.lastRefill < s → rl1.lastRefill = s) :
    s ≤ rl1.lastRefill := by
  rcases lt_or_le rl.lastRefill s with h | h
  · rw [hl2 h]
  · omega

/-- C20 (counterexample): the limiter for 5 requests per second with ten requests
queued (the queue `tenQueue` that ten `heap.Push` calls build), in binary64, its
ticker 5 ns late per period.  The tick at 10 ms dispatches five requests, the next
nineteen ticks none; the tick at `s = 200.000095 ms` leaves the balance
`2139210892605897 / 2^51`, a rounding error below `0.950000475`.  The tick at
`t = 210 ms` adds `0.049999525`, the sum rounds to `1`, and a request is dispatched:
one request after `s` up to `t`, while
`(tokens left at s) + (t - s) * requestCount / windowSeconds` is less than 1. -/
theorem burst_bound_exceeded_by_rounding :
    QueueOp.run [] ((List.range 10).map (fun k => QueueOp.push
          { function := k, niceness := 0, timestamp := (k : Int), doneCh := k, index := 0 }))
        = some (tenQueue, []) ∧
      (0 : Int) < fullLimiter64.rateLimit.RequestCount ∧
      (0 : Int) < fullLimiter64.rateLimit.WindowSeconds ∧
      newConnectionRateLimiter64 { RequestCount := 5, WindowSeconds := 1 } 0
        = some { fullLimiter64 with queue := [] } ∧
      (ticks64 fullLimiter64 slowTicks).map (fun r => (r.1.tokens, r.1.lastRefill, r.2))
        = some (.fin (2139210892605897 / 2251799813685248), 200000095,
            5 :: List.replicate 19 0) ∧
      (200000095 : Int) ≤ 210000000 ∧
      ((ticks64 fullLimiter64 slowTicks).bind (fun r => tick64 r.1 210000000)).map
        (fun r => r.2.length) = some 1 ∧
      ¬ ((1 : ℚ) ≤ 2139210892605897 / 2251799813685248
          + Seconds (210000000 - 200000095)
            * (fullLimiter64.rateLimit.RequestCount : ℚ)
            / (fullLimiter64.rateLimit.WindowSeconds : ℚ)) := by
  decide!

/-- C20 (amended), in binary64.  A limiter whose `RequestCount` and `WindowSeconds` are
positive and below `2^53` and whose balance is a binary64 number in
`[0, RequestCount]`, as it is after construction and after every iteration of the
worker loop; a tick at time `s`, then any iterations of the worker loop whose ticks
are at times up to `t`, `s ≤ t`, the durations below `2^63` ns as every `Duration`
is.  The tick and the run return, and the number of requests dispatched by the run
is at most the balance left after the tick at `s` plus
`(t - s) * requestCount / windowSeconds` plus the rounding error of the refills,
`2^-53 * (6 * (t - s) * requestCount / windowSeconds + k * requestCount)` for `k`
ticks after `s`; and so at most `requestCount` plus the same two terms. -/
theorem burst_bound_up_to_rounding (rl : connectionRateLimiter64) (s t : Int)
    (es : List Stimulus64)
    (hok : TokensOk64 rl) (hs63 : s - rl.lastRefill < 2 ^ 63)
    (hst : s ≤ t) (ht63 : t - s < 2 ^ 63)
    (htimes : ∀ u ∈ tickTimes es, u ≤ t) :
    ∃ rl_s out_s rl_t out, ∃ fs : ℚ,
      tick64 rl s = some (rl_s, out_s) ∧ runLimiter64 rl_s es = some (rl_t, out) ∧
      rl_s.tokens = .fin fs ∧
      (out.length : ℚ) ≤ fs
        + Seconds (t - s) * (rl.rateLimit.RequestCount : ℚ) / (rl.rateLimit.WindowSeconds : ℚ)
        + (6 * (Seconds (t - s) * (rl.rateLimit.RequestCount : ℚ)
                / (rl.rateLimit.WindowSeconds : ℚ))
            + ((tickTimes es).length : ℚ) * (rl.rateLimit.RequestCount : ℚ)) / 2 ^ 53 ∧
      (out.length : ℚ) ≤ (rl.rateLimit.RequestCount : ℚ)
        + Seconds (t - s) * (rl.rateLimit.RequestCount : ℚ) / (rl.rateLimit.WindowSeconds : ℚ)
        + (6 * (Seconds (t - s) * (rl.rateLimit.RequestCount : ℚ)
                / (rl.rateLimit.WindowSeconds : ℚ))
            + ((tickTimes es).length : ℚ) * (rl.rateLimit.RequestCount : ℚ)) / 2 ^ 53 := by
  obtain ⟨f, hf⟩ : ∃ f, rl.tokens = .fin f := by
    obtain ⟨_, _, _, _, f, hf, _⟩ := hok
    exact ⟨f, hf⟩
  obtain ⟨rl_s, out_s, T, htick, hok_s, hr_s, hl1, _, hl2, _, hTc, _, htok, _, _⟩ :=
    tick64_budget rl s f hok hf hs63
  have hsle : s ≤ rl_s.lastRefill := tick64_lastRefill_ge rl rl_s s hl1 hl2
  obtain ⟨rl_t, out, ft, hrun, _, _, hnn, _, hl3, hlast, hb⟩ :=
    runLimiter64_budget es rl_s _ hok_s htok (by
      intro u hu
      have := htimes u hu
      omega)
  have hcap : T - (out_s.length : ℚ) ≤ (rl.rateLimit.RequestCount : ℚ) := by
    have : (0 : ℚ) ≤ (out_s.length : ℚ) := by positivity
    linarith
  refine ⟨rl_s, out_s, rl_t, out, _, htick, hrun, htok, ?_⟩
  have hmono : refillBound rl_s (rl_t.lastRefill - rl_s.lastRefill)
      ≤ refillBound rl_s (t - s) := by
    apply refillBound_mono rl_s hok_s
    rcases hlast with h | h
    · rw [h]; omega
    · have := htimes _ h
      omega
  have hte : (0 : ℚ) ≤ tickError rl_s := tickError_nonneg rl_s hok_s
  unfold refillBound at hb hmono
  unfold tickError at hb hte
  rw [hr_s] at hb hmono hte
  have e1 : Seconds (t - s) * (rl.rateLimit.RequestCount : ℚ) / (rl.rateLimit.WindowSeconds : ℚ)
      = Seconds (t - s)
        * ((rl.rateLimit.RequestCount : ℚ) / (rl.rateLimit.WindowSeconds : ℚ)) := by
    rw [mul_div_assoc]
  rw [e1]
  have e2 : (6 * (Seconds (t - s)
          * ((rl.rateLimit.RequestCount : ℚ) / (rl.rateLimit.WindowSeconds : ℚ)))
        + ((tickTimes es).length : ℚ) * (rl.rateLimit.RequestCount : ℚ)) / 2 ^ 53
      = Seconds (t - s)
          * ((rl.rateLimit.RequestCount : ℚ) / (rl.rateLimit.WindowSeconds : ℚ)) * (6 / 2 ^ 53)
        + ((tickTimes es).length : ℚ) * ((rl.rateLimit.RequestCount : ℚ) / 2 ^ 53) := by
    ring
  rw [e2]
  constructor
  · linarith
  · linarith

/-- C20 (amended) at the run with the late ticker: the limiter for 5 requests per
second with ten requests queued, the tick at `s = 10 ms`, and the twenty ticks after
it up to `t = 210 ms`. -/
theorem burst_bound_up_to_rounding_witness :
    TokensOk64 fullLimiter64 ∧ (10000000 : Int) - fullLimiter64.lastRefill < 2 ^ 63 ∧
    (10000000 : Int) ≤ 210000000 ∧ (210000000 : Int) - 10000000 < 2 ^ 63 ∧
    (∀ u ∈ tickTimes lateTicks, u ≤ 210000000) ∧
    ∃ rl_s out_s rl_t out, ∃ fs : ℚ,
      tick64 fullLimiter64 10000000 = some (rl_s, out_s) ∧
      runLimiter64 rl_s lateTicks = some (rl_t, out) ∧
      rl_s.tokens = .fin fs ∧
      (out.length : ℚ) ≤ fs
        + Seconds (210000000 - 10000000) * (fullLimiter64.rateLimit.RequestCount : ℚ)
          / (fullLimiter64.rateLimit.WindowSeconds : ℚ)
        + (6 * (Seconds (210000000 - 10000000) * (fullLimiter64.rateLimit.RequestCount : ℚ)
                / (fullLimiter64.rateLimit.WindowSeconds : ℚ))
            + ((tickTimes lateTicks).length : ℚ) * (fullLimiter64.rateLimit.RequestCount : ℚ))
          / 2 ^ 53 ∧
      (out.length : ℚ) ≤ (fullLimiter64.rateLimit.RequestCount : ℚ)
        + Seconds (210000000 - 10000000) * (fullLimiter64.rateLimit.RequestCount : ℚ)
          / (fullLimiter64.rateLimit.WindowSeconds : ℚ)
        + (6 * (Seconds (210000000 - 10000000) * (fullLimiter64.rateLimit.RequestCount : ℚ)
                / (fullLimiter64.rateLimit.WindowSeconds : ℚ))
            + ((tickTimes lateTicks).length : ℚ) * (fullLimiter64.rateLimit.RequestCount : ℚ))
          / 2 ^ 53 :=
  have hok : TokensOk64 fullLimiter64 :=
    ⟨by decide, by decide, by decide, by decide, 5, rfl,
      ⟨5, 0, by norm_num, by norm_num, by norm_num, by norm_num⟩, by norm_num,
      by simp [fullLimiter64]⟩
  ⟨hok, by decide, by decide, by decide, by decide,
    burst_bound_up_to_rounding fullLimiter64 10000000 210000000 lateTicks hok
      (by decide) (by decide) (by decide) (by decide)⟩

/-- C12 (counterexample).  The queues are `tenQueue` and `demoQueue`, built by ten
and by three `heap.Push` calls.  A fresh limiter with `RequestCount = 5`,
`WindowSeconds = -1` and ten requests queued dispatches four requests, not five, at
its first tick, 10 ms after construction, in exact arithmetic and in binary64: the
refill takes `0.01 * 5` from the balance.  And in binary64 the fresh limiter for one
request per 365 days with three requests queued dispatches one request at its first
tick, at 10 ms, and another one at a tick one nanosecond short of
`windowSeconds / requestCount` seconds later: the elapsed time rounds to `31536000`
seconds and the refill to one token. -/
theorem burst_short_and_early :
    (QueueOp.run [] ((List.range 10).map (fun k => QueueOp.push
          { function := k, niceness := 0, timestamp := (k : Int), doneCh := k, index := 0 }))
      = some (tenQueue, []) ∧
      QueueOp.run [] [.push lowA, .push lowB, .push high] = some (demoQueue, [])) ∧
    ((0 : Int) < negativeWindowLimiter.rateLimit.RequestCount ∧
      negativeWindowLimiter.rateLimit.RequestCount
        < (negativeWindowLimiter.queue.length : Int) ∧
      newConnectionRateLimiter { RequestCount := 5, WindowSeconds := -1 } 0
        = some { negativeWindowLimiter with queue := [] } ∧
      (processRequests negativeWindowLimiter (.tick 10000000)).map
        (fun r => r.2.length) = some 4 ∧
      (tick64 { fullLimiter64 with rateLimit := { RequestCount := 5, WindowSeconds := -1 } }
        10000000).map (fun r => r.2.length) = some 4) ∧
    ((0 : Int) < yearLimiter64.rateLimit.RequestCount ∧
      yearLimiter64.rateLimit.RequestCount < (yearLimiter64.queue.length : Int) ∧
      newConnectionRateLimiter64 { RequestCount := 1, WindowSeconds := 31536000 } 0
        = some { yearLimiter64 with queue := [] } ∧
      tick64 yearLimiter64 10000000 = some (yearAfterTick64, [{ high with index := -1 }]) ∧
      Seconds (31536000009999999 - 10000000)
        < (yearLimiter64.rateLimit.WindowSeconds : ℚ)
          / (yearLimiter64.rateLimit.RequestCount : ℚ) ∧
      (tick64 yearAfterTick64 31536000009999999).map (fun r => r.2.length) = some 1) := by
  decide!

/-- C12 (amended), in binary64.  A limiter with `RequestCount = c` and `WindowSeconds`
positive and below `2^53`, the full balance `c` of a fresh limiter and more than `c`
requests in its queue, at its first tick, at time `t1`: the tick dispatches exactly
`c` requests and leaves the balance `0`; and the iterations of the worker loop after
it return and dispatch nothing, as long as every tick among them comes at a time
`u ≥ t1` with `(u - t1) * requestCount / windowSeconds` plus the rounding error of
the refills, `2^-53 * (6 * (u - t1) * requestCount / windowSeconds + k * requestCount)`
for `k` ticks, below `1`.  The durations are below `2^63` ns, as every `Duration`
is. -/
theorem burst_waits_up_to_rounding (rl : connectionRateLimiter64) (t1 : Int)
    (es : List Stimulus64)
    (hrc : 0 < rl.rateLimit.RequestCount) (hrc53 : rl.rateLimit.RequestCount < 2 ^ 53)
    (hws : 0 < rl.rateLimit.WindowSeconds) (hws53 : rl.rateLimit.WindowSeconds < 2 ^ 53)
    (hfull : rl.tokens = .fin (rl.rateLimit.RequestCount : ℚ))
    (hn : rl.rateLimit.RequestCount < (rl.queue.length : Int))
    (h63 : t1 - rl.lastRefill < 2 ^ 63)
    (hsoon : ∀ u ∈ tickTimes es, t1 ≤ u ∧ u - t1 < 2 ^ 63 ∧
      Seconds (u - t1) * (rl.rateLimit.RequestCount : ℚ) / (rl.rateLimit.WindowSeconds : ℚ)
        + (6 * (Seconds (u - t1) * (rl.rateLimit.RequestCount : ℚ)
                / (rl.rateLimit.WindowSeconds : ℚ))
            + ((tickTimes es).length : ℚ) * (rl.rateLimit.RequestCount : ℚ)) / 2 ^ 53 < 1) :
    ∃ rl1 out rl2, tick64 rl t1 = some (rl1, out) ∧
      (out.length : Int) = rl.rateLimit.RequestCount ∧ rl1.tokens = .fin 0 ∧
      runLimiter64 rl1 es = some (rl2, []) := by
  have hrcq : (0 : ℚ) < (rl.rateLimit.RequestCount : ℚ) := by exact_mod_cast hrc
  have hwsq : (0 : ℚ) < (rl.rateLimit.WindowSeconds : ℚ) := by exact_mod_cast hws
  have hok : TokensOk64 rl :=
    ⟨hrc, hrc53, hws, hws53, _, hfull, (F64.ofInt_exact _ (le_of_lt hrc) hrc53).2,
      le_of_lt hrcq, le_refl _⟩
  obtain ⟨rl1, out, T, htick, hok1, hr1, hl1, _, hl2, hfT, hTc, hcount, htok, _, _⟩ :=
    tick64_budget rl t1 _ hok hfull h63
  have hT : T = (rl.rateLimit.RequestCount : ℚ) := le_antisymm hTc hfT
  have hcast : (rl.rateLimit.RequestCount : ℚ) = ((rl.rateLimit.RequestCount.toNat : ℕ) : ℚ) := by
    have : ((rl.rateLimit.RequestCount.toNat : ℕ) : Int) = rl.rateLimit.RequestCount :=
      Int.toNat_of_nonneg (le_of_lt hrc)
    exact_mod_cast this.symm
  have hlen : out.length = rl.rateLimit.RequestCount.toNat := by
    rw [hcount, hT, hcast, Nat.floor_natCast]
    apply min_eq_left
    omega
  have htok0 : rl1.tokens = .fin 0 := by
    rw [htok, hT, hlen, ← hcast, sub_self]
  have hsle : t1 ≤ rl1.lastRefill := tick64_lastRefill_ge rl rl1 t1 hl1 hl2
  obtain ⟨rl2, out2, f2, hrun, _, _, hnn, _, hl3, hlast, hb⟩ :=
    runLimiter64_budget es rl1 0 hok1 htok0 (by
      intro u hu
      have := hsoon u hu
      omega)
  refine ⟨rl1, out, rl2, htick, ?_, htok0, ?_⟩
  · rw [hlen]
    exact Int.toNat_of_nonneg (le_of_lt hrc)
  · have hlt : (out2.length : ℚ) < 1 := by
      unfold refillBound tickError at hb
      rw [hr1] at hb
      rcases hlast with h | h
      · rw [h, sub_self, Seconds_zero, zero_mul, zero_mul] at hb
        cases hes : tickTimes es with
        | nil =>
          rw [hes] at hb
          simp only [List.length_nil, Nat.cast_zero, zero_mul, add_zero] at hb
          linarith
        | cons u rest =>
          obtain ⟨hu1, _, hu3⟩ := hsoon u (by rw [hes]; exact List.mem_cons_self _ _)
          have hx : 0 ≤ Seconds (u - t1) := by
            rw [← Seconds_zero]; exact Seconds_mono (by omega)
          have hxr : 0 ≤ Seconds (u - t1) * (rl.rateLimit.RequestCount : ℚ)
              / (rl.rateLimit.WindowSeconds : ℚ) :=
            div_nonneg (mul_nonneg hx (le_of_lt hrcq)) (le_of_lt hwsq)
          have e2 : (6 * (Seconds (u - t1) * (rl.rateLimit.RequestCount : ℚ)
                  / (rl.rateLimit.WindowSeconds : ℚ))
                + ((tickTimes es).length : ℚ) * (rl.rateLimit.RequestCount : ℚ)) / 2 ^ 53
              = Seconds (u - t1) * (rl.rateLimit.RequestCount : ℚ)
                  / (rl.rateLimit.WindowSeconds : ℚ) * (6 / 2 ^ 53)
                + ((tickTimes es).length : ℚ)
                  * ((rl.rateLimit.RequestCount : ℚ) / 2 ^ 53) := by
            ring
          rw [e2] at hu3
          have : (0 : ℚ) ≤ Seconds (u - t1) * (rl.rateLimit.RequestCount : ℚ)
              / (rl.rateLimit.WindowSeconds : ℚ) * (6 / 2 ^ 53) :=
            mul_nonneg hxr (by norm_num)
          linarith
      · obtain ⟨hu1, _, hu3⟩ := hsoon _ h
        have hmono : Seconds (rl2.lastRefill - rl1.lastRefill) ≤ Seconds (rl2.lastRefill - t1) :=
          Seconds_mono (by omega)
        have hr0 : (0 : ℚ) ≤ (rl.rateLimit.RequestCount : ℚ)
            / (rl.rateLimit.WindowSeconds : ℚ) := le_of_lt (div_pos hrcq hwsq)
        have hm2 : Seconds (rl2.lastRefill - rl1.lastRefill)
              * ((rl.rateLimit.RequestCount : ℚ) / (rl.rateLimit.WindowSeconds : ℚ))
              * (1 + 6 / 2 ^ 53)
            ≤ Seconds (rl2.lastRefill - t1)
              * ((rl.rateLimit.RequestCount : ℚ) / (rl.rateLimit.WindowSeconds : ℚ))
              * (1 + 6 / 2 ^ 53) :=
          mul_le_mul_of_nonneg_right (mul_le_mul_of_nonneg_right hmono hr0) (by norm_num)
        have e2 : Seconds (rl2.lastRefill - t1) * (rl.rateLimit.RequestCount : ℚ)
              / (rl.rateLimit.WindowSeconds : ℚ)
            + (6 * (Seconds (rl2.lastRefill - t1) * (rl.rateLimit.RequestCount : ℚ)
                  / (rl.rateLimit.WindowSeconds : ℚ))
                + ((tickTimes es).length : ℚ) * (rl.rateLimit.RequestCount : ℚ)) / 2 ^ 53
            = Seconds (rl2.lastRefill - t1)
                * ((rl.rateLimit.RequestCount : ℚ) / (rl.rateLimit.WindowSeconds : ℚ))
                * (1 + 6 / 2 ^ 53)
              + ((tickTimes es).length : ℚ)
                * ((rl.rateLimit.RequestCount : ℚ) / 2 ^ 53) := by
          ring
        rw [e2] at hu3
        linarith
    have h0 : out2.length = 0 := by
      have h1 : out2.length < 1 := by exact_mod_cast hlt
      omega
    rw [List.length_eq_zero.mp h0] at hrun
    exact hrun

/-- C12 (amended) at the sample of the property: `c = 5`, `windowSeconds = 1`, ten
requests queued; the first tick, at 10 ms, dispatches five, and nothing is dispatched
by the ticks at 100 ms and 200 ms and the arrival between them. -/
theorem burst_waits_up_to_rounding_witness :
    (0 : Int) < fullLimiter64.rateLimit.RequestCount ∧
    fullLimiter64.rateLimit.RequestCount < (fullLimiter64.queue.length : Int) ∧
    fullLimiter64.tokens = .fin (fullLimiter64.rateLimit.RequestCount : ℚ) ∧
    ∃ rl1 out rl2, tick64 fullLimiter64 10000000 = some (rl1, out) ∧
      (out.length : Int) = fullLimiter64.rateLimit.RequestCount ∧ rl1.tokens = .fin 0 ∧
      runLimiter64 rl1 quietStimuli = some (rl2, []) :=
  ⟨by decide, by decide, by simp [fullLimiter64],
    burst_waits_up_to_rounding fullLimiter64 10000000 quietStimuli
      (by decide) (by decide) (by decide) (by decide) (by simp [fullLimiter64]) (by decide)
      (by decide) (by
        intro u hu
        simp only [quietStimuli, tickTimes, List.mem_cons, List.mem_singleton,
          List.not_mem_nil, or_false] at hu
        rcases hu with rfl | rfl
        · refine ⟨by norm_num, by norm_num, ?_⟩
          simp only [quietStimuli, tickTimes, fullLimiter64, Seconds]
          norm_num
        · refine ⟨by norm_num, by norm_num, ?_⟩
          simp only [quietStimuli, tickTimes, fullLimiter64, Seconds]
          norm_num)⟩


/-! ## Every request is handed over at most once -/

theorem bag_nil : bag [] = 0 := rfl

theorem bag_append (l1 l2 : List requestItem) : bag (l1 ++ l2) = bag l1 + bag l2 := by
  unfold bag payloads
  rw [List.map_append, Multiset.coe_add]

theorem bag_cons (r : requestItem) (l : List requestItem) :
    bag (r :: l) = bag [r] + bag l := bag_append [r] l

theorem bag_of_perm {l : List requestItem} {p : List (Nat × Int × Int × Nat)}
    (h : (payloads l).Perm p) : bag l = Multiset.ofList p :=
  Multiset.coe_eq_coe.mpr h

theorem apply_conserves (rl : connectionRateLimiter) (e : LimiterEvent)
    (rl1 : connectionRateLimiter) (out : List requestItem)
    (h : LimiterEvent.apply rl e = some (rl1, out)) :
    bag rl.requestCh + bag rl.queue + bag (LimiterEvent.submitted [e])
      = bag out + bag rl1.requestCh + bag rl1.queue := by
  cases e with
  | submit fn niceness now doneCh =>
    by_cases hlen : rl.requestCh.length < 100
    · simp only [LimiterEvent.apply, submit, hlen, if_true, Option.some.injEq,
        Prod.mk.injEq] at h
      obtain ⟨e1, e2⟩ := h
      subst e1 e2
      simp only [LimiterEvent.submitted, bag_append, bag_nil]
      abel
    · simp [LimiterEvent.apply, submit, hlen] at h
  | stop =>
    cases hq : rl.quit with
    | true => simp [LimiterEvent.apply, stop, hq] at h
    | false =>
      simp only [LimiterEvent.apply, stop, hq, Bool.false_eq_true, if_false,
        Option.some.injEq, Prod.mk.injEq] at h
      obtain ⟨e1, e2⟩ := h
      subst e1 e2
      simp only [LimiterEvent.submitted, bag_nil]
      abel
  | worker s =>
    simp only [LimiterEvent.apply] at h
    simp only [LimiterEvent.submitted, bag_nil, add_zero]
    cases s with
    | request =>
      cases hw : rl.worker with
      | false => simp [processRequests, hw] at h
      | true =>
        cases hch : rl.requestCh with
        | nil => simp [processRequests, hw, hch] at h
        | cons req rest =>
          obtain ⟨q, hpush, hstep, _, _⟩ := arrival_spec rl req rest hw hch
          obtain ⟨q2, e2, _, hperm, _⟩ := Push_spec rl.queue req
          rw [hpush] at e2
          simp only [Option.some.injEq] at e2
          subst e2
          rw [hstep] at h
          simp only [Option.some.injEq, Prod.mk.injEq] at h
          obtain ⟨e1, e3⟩ := h
          subst e1 e3
          simp only [bag_nil]
          rw [bag_cons req rest, bag_of_perm hperm]
          have : (Multiset.ofList (req.payload :: payloads rl.queue))
              = bag [req] + bag rl.queue := by
            unfold bag payloads
            rfl
          rw [this]
          abel
    | quit =>
      simp only [processRequests] at h
      split at h
      · simp only [Option.some.injEq, Prod.mk.injEq] at h
        obtain ⟨e1, e2⟩ := h
        subst e1 e2
        simp only [bag_nil]
        abel
      · simp at h
    | tick now =>
      cases hw : rl.worker with
      | false => simp [processRequests, hw] at h
      | true =>
        obtain ⟨rl2, d, hd, _, _, _, _, hperm, hframe⟩ :=
          dispatch_full (priorityQueue.Len rl.queue + 1) (refillTokens rl now) []
            (by rw [refillTokens_queue]; unfold priorityQueue.Len; omega)
        simp only [List.nil_append] at hd
        simp only [processRequests, hw, if_true] at h
        rw [hd] at h
        simp only [Option.some.injEq, Prod.mk.injEq] at h
        obtain ⟨e1, e2⟩ := h
        subst e1 e2
        rw [refillTokens_queue] at hperm
        have hch : rl2.requestCh = rl.requestCh := by
          rw [hframe]
          simp only
          unfold refillTokens
          simp only
          split <;> rfl
        rw [hch, bag_of_perm hperm]
        have : Multiset.ofList (payloads d ++ payloads rl2.queue) = bag d + bag rl2.queue := by
          unfold bag
          rw [Multiset.coe_add]
        rw [this]
        abel

theorem submitted_cons (e : LimiterEvent) (es : List LimiterEvent) :
    bag (LimiterEvent.submitted (e :: es))
      = bag (LimiterEvent.submitted [e]) + bag (LimiterEvent.submitted es) := by
  cases e with
  | submit fn niceness now doneCh =>
    simp only [LimiterEvent.submitted]
    rw [bag_cons, bag_cons _ []]
  | worker s => simp [LimiterEvent.submitted, bag_nil]
  | stop => simp [LimiterEvent.submitted, bag_nil]

theorem run_conserves : ∀ (es : List LimiterEvent) (rl rl1 : connectionRateLimiter)
    (out : List requestItem), runLimiter rl es = some (rl1, out) →
    bag rl.requestCh + bag rl.queue + bag (LimiterEvent.submitted es)
      = bag out + bag rl1.requestCh + bag rl1.queue := by
  intro es
  induction es with
  | nil =>
    intro rl rl1 out h
    simp only [runLimiter, Option.some.injEq, Prod.mk.injEq] at h
    obtain ⟨e1, e2⟩ := h
    subst e1 e2
    simp only [LimiterEvent.submitted, bag_nil]
    abel
  | cons e es ih =>
    intro rl rl1 out h
    simp only [runLimiter] at h
    cases ha : LimiterEvent.apply rl e with
    | none => rw [ha] at h; simp at h
    | some res =>
      obtain ⟨rl2, out2⟩ := res
      rw [ha] at h
      simp only at h
      cases hr : runLimiter rl2 es with
      | none => rw [hr] at h; simp at h
      | some res2 =>
        obtain ⟨rl3, out3⟩ := res2
        rw [hr] at h
        simp only [Option.some.injEq, Prod.mk.injEq] at h
        obtain ⟨e1, e2⟩ := h
        subst e1 e2
        have h1 := apply_conserves rl e rl2 out2 ha
        have h2 := ih rl2 rl3 out3 hr
        rw [submitted_cons, bag_append]
        calc bag rl.requestCh + bag rl.queue
              + (bag (LimiterEvent.submitted [e]) + bag (LimiterEvent.submitted es))
            = (bag rl.requestCh + bag rl.queue + bag (LimiterEvent.submitted [e]))
              + bag (LimiterEvent.submitted es) := by abel
          _ = bag out2 + (bag rl2.requestCh + bag rl2.queue
              + bag (LimiterEvent.submitted es)) := by rw [h1]; abel
          _ = bag out2 + bag out3 + bag rl3.requestCh + bag rl3.queue := by rw [h2]; abel


theorem Throttle.step_rank {T U E : Type} (fn : T → U × Option E) (arg : T)
    (s s2 : CallState U E) (e : CallEvent) (h : Throttle.step fn arg s e = some s2) :
    (e = .dispatch ∧ s.phase.rank = 0 ∧ s2.phase.rank = 1) ∨
    (e = .runFunction ∧ s.phase.rank = 1 ∧ s2.phase.rank = 2) ∨
    (e = .closeDone ∧ s.phase.rank = 2 ∧ s2.phase.rank = 3) ∨
    (e = .receiveDone ∧ s.phase.rank = 3 ∧ s2.phase.rank = 3) := by
  cases e with
  | dispatch =>
    simp only [Throttle.step] at h
    split at h
    · rename_i hq
      simp only [Option.some.injEq] at h
      subst h
      left
      exact ⟨rfl, by rw [hq]; rfl, rfl⟩
    · simp at h
  | runFunction =>
    simp only [Throttle.step] at h
    split at h
    · rename_i hq
      simp only [Option.some.injEq] at h
      subst h
      right; left
      exact ⟨rfl, by rw [hq]; rfl, rfl⟩
    · simp at h
  | closeDone =>
    simp only [Throttle.step] at h
    split at h
    · rename_i hq
      simp only [Option.some.injEq] at h
      subst h
      right; right; left
      exact ⟨rfl, by rw [hq]; rfl, rfl⟩
    · simp at h
  | receiveDone =>
    simp only [Throttle.step] at h
    split at h
    · rename_i hq
      simp only [Option.some.injEq] at h
      subst h
      right; right; right
      exact ⟨rfl, by rw [hq.1]; rfl, by simp only; rw [hq.1]; rfl⟩
    · simp at h

theorem Throttle.run_counts {T U E : Type} (fn : T → U × Option E) (arg : T) :
    ∀ (evs : List CallEvent) (s s1 : CallState U E),
      Throttle.run fn arg s evs = some s1 →
      s.phase.rank ≤ s1.phase.rank ∧
      evs.count .dispatch = (if s.phase.rank = 0 ∧ 1 ≤ s1.phase.rank then 1 else 0) ∧
      evs.count .runFunction = (if s.phase.rank ≤ 1 ∧ 2 ≤ s1.phase.rank then 1 else 0) ∧
      evs.count .closeDone = (if s.phase.rank ≤ 2 ∧ 3 ≤ s1.phase.rank then 1 else 0) := by
  intro evs
  induction evs with
  | nil =>
    intro s s1 h
    simp only [Throttle.run, Option.some.injEq] at h
    subst h
    refine ⟨le_refl _, ?_, ?_, ?_⟩
    · simp only [List.count_nil]; split_ifs <;> omega
    · simp only [List.count_nil]; split_ifs <;> omega
    · simp only [List.count_nil]; split_ifs <;> omega
  | cons e es ih =>
    intro s s1 h
    simp only [Throttle.run] at h
    cases hs : Throttle.step fn arg s e with
    | none => rw [hs] at h; simp at h
    | some s2 =>
      rw [hs] at h
      obtain ⟨hle, hc1, hc2, hc3⟩ := ih s2 s1 h
      rcases Throttle.step_rank fn arg s s2 e hs with
        ⟨he, h1, h2⟩ | ⟨he, h1, h2⟩ | ⟨he, h1, h2⟩ | ⟨he, h1, h2⟩
      all_goals
        subst he
        simp only [List.count_cons, beq_self_eq_true, if_true, hc1, hc2, hc3]
        refine ⟨by omega, ?_, ?_, ?_⟩
        all_goals
          (try simp only [show (CallEvent.runFunction == CallEvent.dispatch) = false from rfl,
            show (CallEvent.closeDone == CallEvent.dispatch) = false from rfl,
            show (CallEvent.receiveDone == CallEvent.dispatch) = false from rfl,
            show (CallEvent.dispatch == CallEvent.runFunction) = false from rfl,
            show (CallEvent.closeDone == CallEvent.runFunction) = false from rfl,
            show (CallEvent.receiveDone == CallEvent.runFunction) = false from rfl,
            show (CallEvent.dispatch == CallEvent.closeDone) = false from rfl,
            show (CallEvent.runFunction == CallEvent.closeDone) = false from rfl,
            show (CallEvent.receiveDone == CallEvent.closeDone) = false from rfl,
            Bool.false_eq_true, if_false])
          split_ifs <;> omega

theorem Throttle.run_split {T U E : Type} (fn : T → U × Option E) (arg : T) :
    ∀ (pre : List CallEvent) (e : CallEvent) (post : List CallEvent) (s s1 : CallState U E),
      Throttle.run fn arg s (pre ++ e :: post) = some s1 →
      ∃ s2 s3, Throttle.run fn arg s pre = some s2 ∧ Throttle.step fn arg s2 e = some s3 := by
  intro pre
  induction pre with
  | nil =>
    intro e post s s1 h
    simp only [List.nil_append, Throttle.run] at h
    cases hs : Throttle.step fn arg s e with
    | none => rw [hs] at h; simp at h
    | some s3 => exact ⟨s, s3, rfl, hs⟩
  | cons x xs ih =>
    intro e post s s1 h
    simp only [List.cons_append, Throttle.run] at h
    cases hs : Throttle.step fn arg s x with
    | none => rw [hs] at h; simp at h
    | some s2 =>
      rw [hs] at h
      obtain ⟨s3, s4, h3, h4⟩ := ih e post s2 s1 h
      refine ⟨s3, s4, ?_, h4⟩
      simp only [Throttle.run, hs]
      exact h3

/-- C11: along any sequence of events of one limiter (submits, arrivals, ticks,
quit, stop) the requests pending at the start plus the submitted ones are, as a
multiset, the dispatched ones plus the ones still pending, so when the requests
are distinct no request is handed to a goroutine twice and a dispatched request is
no longer pending; and in any order of events of one call the request is dispatched
at most once, the closure is called at most once and only after the dispatch,
`doneCh` is closed at most once and only after the closure has been called, when
`doneCh` is closed each of the three has happened exactly once, and the goroutine
of a dispatched request can always take its next step. -/
theorem exactly_once_execution (rl : connectionRateLimiter) (es : List LimiterEvent)
    (rl1 : connectionRateLimiter) (out : List requestItem)
    {T U E : Type} (fn : T → U × Option E) (arg : T) (zero : U)
    (evs : List CallEvent) (s : CallState U E)
    (hrun : runLimiter rl es = some (rl1, out))
    (hcall : Throttle.run fn arg (Throttle.init zero) evs = some s) :
    bag rl.requestCh + bag rl.queue + bag (LimiterEvent.submitted es)
        = bag out + bag rl1.requestCh + bag rl1.queue ∧
    ((bag rl.requestCh + bag rl.queue + bag (LimiterEvent.submitted es)).Nodup →
      (payloads out).Nodup ∧
      ∀ r ∈ out, r.payload ∉ payloads rl1.requestCh ∧ r.payload ∉ payloads rl1.queue) ∧
    evs.count .dispatch ≤ 1 ∧ evs.count .runFunction ≤ 1 ∧ evs.count .closeDone ≤ 1 ∧
    (∀ pre post, evs = pre ++ .runFunction :: post → .dispatch ∈ pre) ∧
    (∀ pre post, evs = pre ++ .closeDone :: post → .runFunction ∈ pre) ∧
    (s.phase = .closed →
      evs.count .dispatch = 1 ∧ evs.count .runFunction = 1 ∧ evs.count .closeDone = 1) ∧
    (s.phase = .dispatched → ∃ s2, Throttle.step fn arg s .runFunction = some s2) ∧
    (s.phase = .ran → ∃ s2, Throttle.step fn arg s .closeDone = some s2) := by
  have hcons := run_conserves es rl rl1 out hrun
  obtain ⟨_, hc1, hc2, hc3⟩ := Throttle.run_counts fn arg evs _ s hcall
  have hinit : (Throttle.init zero : CallState U E).phase.rank = 0 := rfl
  rw [hinit] at hc1 hc2 hc3
  refine ⟨hcons, ?_, ?_, ?_, ?_, ?_, ?_, ?_, ?_, ?_⟩
  · intro hnd
    rw [hcons, add_assoc, Multiset.nodup_add] at hnd
    obtain ⟨hnd1, _, hdisj⟩ := hnd
    refine ⟨Multiset.coe_nodup.mp hnd1, ?_⟩
    intro r hr
    have hmem : r.payload ∈ bag out := by
      unfold bag
      exact Multiset.mem_coe.mpr (mem_payloads hr)
    have hnot : r.payload ∉ bag rl1.requestCh + bag rl1.queue :=
      fun hm => Multiset.disjoint_left.mp hdisj hmem hm
    rw [Multiset.mem_add] at hnot
    constructor
    · intro hm
      exact hnot (Or.inl (Multiset.mem_coe.mpr hm))
    · intro hm
      exact hnot (Or.inr (Multiset.mem_coe.mpr hm))
  · rw [hc1]; split_ifs <;> omega
  · rw [hc2]; split_ifs <;> omega
  · rw [hc3]; split_ifs <;> omega
  · intro pre post he
    rw [he] at hcall
    obtain ⟨s2, s3, hpre, hstep⟩ := Throttle.run_split fn arg pre _ post _ s hcall
    obtain ⟨_, hp1, _, _⟩ := Throttle.run_counts fn arg pre _ s2 hpre
    rw [hinit] at hp1
    rcases Throttle.step_rank fn arg s2 s3 _ hstep with
      ⟨he2, _, _⟩ | ⟨_, h1, _⟩ | ⟨he2, _, _⟩ | ⟨he2, _, _⟩
    · cases he2
    · have : List.count CallEvent.dispatch pre = 1 := by
        rw [hp1]; simp [h1]
      exact List.count_pos_iff.mp (by omega)
    · cases he2
    · cases he2
  · intro pre post he
    rw [he] at hcall
    obtain ⟨s2, s3, hpre, hstep⟩ := Throttle.run_split fn arg pre _ post _ s hcall
    obtain ⟨_, _, hp2, _⟩ := Throttle.run_counts fn arg pre _ s2 hpre
    rw [hinit] at hp2
    rcases Throttle.step_rank fn arg s2 s3 _ hstep with
      ⟨he2, _, _⟩ | ⟨he2, _, _⟩ | ⟨_, h1, _⟩ | ⟨he2, _, _⟩
    · cases he2
    · cases he2
    · have : List.count CallEvent.runFunction pre = 1 := by
        rw [hp2]; simp [h1]
      exact List.count_pos_iff.mp (by omega)
    · cases he2
  · intro hclosed
    have hr : s.phase.rank = 3 := by rw [hclosed]; rfl
    rw [hc1, hc2, hc3, hr]
    simp
  · intro hp
    simp [Throttle.step, hp]
  · intro hp
    simp [Throttle.step, hp]


/-! ## The order of extraction -/

theorem drain_spec : ∀ (n : Nat) (h : priorityQueue), h.length = n → IsHeap h →
    ∃ rs, QueueOp.run h (List.replicate n QueueOp.pop) = some ([], rs) ∧
      (payloads rs).Perm (payloads h) ∧
      rs.Pairwise (fun a b => ¬ klt b.key a.key) := by
  intro n
  induction n with
  | zero =>
    intro h hlen _
    have : h = [] := List.length_eq_zero.mp hlen
    subst this
    exact ⟨[], rfl, List.Perm.refl _, List.Pairwise.nil⟩
  | succ n ih =>
    intro h hlen hh
    have hpos : 0 < h.length := by omega
    have h0 : h[0]? = some h[0] := List.getElem?_eq_getElem hpos
    obtain ⟨h3, e, hlen3, hperm, hh3⟩ := Pop_spec h n h[0] hlen h0
    obtain ⟨rs, hrun, hperm2, hpw⟩ := ih h3 hlen3 (hh3 hh)
    refine ⟨{ h[0] with index := -1 } :: rs, ?_, ?_, ?_⟩
    · simp only [List.replicate_succ, QueueOp.run, e, hrun]
    · show (h[0].payload :: payloads rs).Perm (payloads h)
      exact (List.Perm.cons _ hperm2).trans hperm.symm
    · rw [List.pairwise_cons]
      refine ⟨?_, hpw⟩
      intro b hb
      have hmem : b.payload ∈ payloads h :=
        hperm.symm.subset (List.mem_cons_of_mem _ (hperm2.subset (mem_payloads hb)))
      exact root_le_mem h h[0] hh h0 b hmem

theorem map_key_eq (l : List requestItem) :
    l.map requestItem.key = (payloads l).map payloadKey := by
  unfold payloads
  rw [List.map_map]
  rfl

theorem map_inj_of_inj_on {α β : Type} (f : α → β) :
    ∀ (l1 l2 : List α), (∀ x ∈ l1, ∀ y ∈ l2, f x = f y → x = y) →
      l1.map f = l2.map f → l1 = l2 := by
  intro l1
  induction l1 with
  | nil =>
    intro l2 _ h
    cases l2 with
    | nil => rfl
    | cons y ys => simp at h
  | cons x xs ih =>
    intro l2 hinj h
    cases l2 with
    | nil => simp at h
    | cons y ys =>
      simp only [List.map_cons, List.cons.injEq] at h
      have hxy : x = y := hinj x (List.mem_cons_self _ _) y (List.mem_cons_self _ _) h.1
      have := ih ys (fun a ha b hb => hinj a (List.mem_cons_of_mem _ ha) b
        (List.mem_cons_of_mem _ hb)) h.2
      rw [hxy, this]

/-- C13 (counterexample): `tieA` and `tieB` are distinct requests with the same
niceness and the same timestamp, both can be queued, and neither is `Less` than the
other; three such requests pushed in the order A, B, C are popped in the order A,
C, B. -/
theorem less_not_total_on_ties :
    tieA ≠ tieB ∧
      (QueueOp.run [] [.push tieA, .push tieB]).map Prod.fst
        = some [tieA, { tieB with index := 1 }] ∧
      requestItem.less tieA tieB = false ∧ requestItem.less tieB tieA = false ∧
      (QueueOp.run [] [.push tieA, .push tieB, .push tieC, .pop, .pop, .pop]).map
          (fun r => r.2.map requestItem.function) = some [1, 3, 2] := by
  decide

/-- C13 (amended): `Less` is irreflexive, transitive and asymmetric; of two
requests whose (niceness, timestamp) pairs differ exactly one is `Less` than the
other, and of two requests with the same pair neither is; popping a queue empty
returns its requests in an order whose sequence of (niceness, timestamp) pairs
depends only on the requests queued, and when these pairs are pairwise distinct so
does the sequence of requests. -/
theorem less_strict_and_total_on_keys :
    (∀ a : requestItem, requestItem.less a a = false) ∧
    (∀ a b c : requestItem, requestItem.less a b = true → requestItem.less b c = true →
      requestItem.less a c = true) ∧
    (∀ a b : requestItem, requestItem.less a b = true → requestItem.less b a = false) ∧
    (∀ a b : requestItem, (a.niceness, a.timestamp) ≠ (b.niceness, b.timestamp) →
      (requestItem.less a b = true ∧ requestItem.less b a = false) ∨
      (requestItem.less a b = false ∧ requestItem.less b a = true)) ∧
    (∀ a b : requestItem, (a.niceness, a.timestamp) = (b.niceness, b.timestamp) →
      requestItem.less a b = false ∧ requestItem.less b a = false) ∧
    (∀ h h1 : priorityQueue, Reached h → Reached h1 →
      (payloads h).Perm (payloads h1) →
      ∃ rs rs1, QueueOp.run h (List.replicate h.length QueueOp.pop) = some ([], rs) ∧
        QueueOp.run h1 (List.replicate h1.length QueueOp.pop) = some ([], rs1) ∧
        (payloads rs).Perm (payloads h) ∧
        rs.map requestItem.key = rs1.map requestItem.key ∧
        ((h.map requestItem.key).Nodup → payloads rs = payloads rs1)) := by
  have hk : ∀ a b : requestItem, requestItem.less a b = true ↔
      (a.niceness < b.niceness ∨ (a.niceness = b.niceness ∧ a.timestamp < b.timestamp)) := by
    intro a b
    rw [less_iff_klt]
    rfl
  have hf : ∀ a b : requestItem, requestItem.less a b = false ↔
      ¬ (a.niceness < b.niceness ∨ (a.niceness = b.niceness ∧ a.timestamp < b.timestamp)) := by
    intro a b
    rw [← hk]
    simp
  refine ⟨?_, ?_, ?_, ?_, ?_, ?_⟩
  · intro a
    rw [hf]; omega
  · intro a b c h1 h2
    rw [hk] at h1 h2 ⊢; omega
  · intro a b h1
    rw [hk] at h1
    rw [hf]; omega
  · intro a b hne
    have hne2 : ¬ (a.niceness = b.niceness ∧ a.timestamp = b.timestamp) := by
      intro h
      apply hne
      rw [h.1, h.2]
    rw [hk, hf, hf, hk]
    omega
  · intro a b he
    simp only [Prod.mk.injEq] at he
    rw [hf, hf]
    omega
  · intro h h1 hr hr1 hperm
    obtain ⟨rs, hrun, hp, hpw⟩ := drain_spec h.length h rfl (Reached_isHeap h hr)
    obtain ⟨rs1, hrun1, hp1, hpw1⟩ := drain_spec h1.length h1 rfl (Reached_isHeap h1 hr1)
    have hpp : (payloads rs).Perm (payloads rs1) := (hp.trans hperm).trans hp1.symm
    have hkeys : rs.map requestItem.key = rs1.map requestItem.key := by
      haveI : IsAntisymm (Int × Int) (fun a b => ¬ klt b a) :=
        ⟨fun a b h1 h2 => by
          unfold klt at h1 h2
          apply Prod.ext <;> omega⟩
      apply List.eq_of_perm_of_sorted (r := fun a b => ¬ klt b a)
      · rw [map_key_eq, map_key_eq]
        exact hpp.map _
      · exact List.pairwise_map.mpr hpw
      · exact List.pairwise_map.mpr hpw1
    refine ⟨rs, rs1, hrun, hrun1, hp, hkeys, ?_⟩
    intro hnd
    have hnd2 : ((payloads rs).map payloadKey).Nodup := by
      have e1 : (payloads rs).map payloadKey = rs.map requestItem.key := (map_key_eq rs).symm
      have e2 : (rs.map requestItem.key).Perm (h.map requestItem.key) := by
        rw [map_key_eq, map_key_eq]
        exact hp.map _
      rw [e1]
      exact e2.nodup_iff.mpr hnd
    apply map_inj_of_inj_on payloadKey
    · intro x hx y hy hxy
      exact List.inj_on_of_nodup_map hnd2 hx (hpp.symm.subset hy) hxy
    · rw [← map_key_eq, ← map_key_eq]
      exact hkeys


theorem apply_reachable (rl : connectionRateLimiter) (e : LimiterEvent)
    (rl1 : connectionRateLimiter) (out : List requestItem)
    (h : LimiterEvent.apply rl e = some (rl1, out)) (hr : Reachable rl) : Reachable rl1 := by
  cases e with
  | submit fn niceness now doneCh =>
    simp only [LimiterEvent.apply] at h
    cases hs : submit rl fn niceness now doneCh with
    | none => rw [hs] at h; simp at h
    | some res =>
      obtain ⟨rl2, d⟩ := res
      rw [hs] at h
      simp only [Option.some.injEq, Prod.mk.injEq] at h
      rw [← h.1]
      exact Reachable.submit rl fn niceness now doneCh rl2 d hr hs
  | worker s =>
    simp only [LimiterEvent.apply] at h
    exact Reachable.worker rl s rl1 out hr h
  | stop =>
    simp only [LimiterEvent.apply] at h
    cases hs : stop rl with
    | none => rw [hs] at h; simp at h
    | some rl2 =>
      rw [hs] at h
      simp only [Option.some.injEq, Prod.mk.injEq] at h
      rw [← h.1]
      exact Reachable.stop rl rl2 hr hs

theorem run_reachable : ∀ (es : List LimiterEvent) (rl rl1 : connectionRateLimiter)
    (out : List requestItem),
    runLimiter rl es = some (rl1, out) → Reachable rl → Reachable rl1 := by
  intro es
  induction es with
  | nil =>
    intro rl rl1 out h hr
    simp only [runLimiter, Option.some.injEq, Prod.mk.injEq] at h
    rw [← h.1]
    exact hr
  | cons e es ih =>
    intro rl rl1 out h hr
    simp only [runLimiter] at h
    cases ha : LimiterEvent.apply rl e with
    | none => rw [ha] at h; simp at h
    | some res =>
      obtain ⟨rl2, out2⟩ := res
      rw [ha] at h
      simp only at h
      cases hrun : runLimiter rl2 es with
      | none => rw [hrun] at h; simp at h
      | some res2 =>
        obtain ⟨rl3, out3⟩ := res2
        rw [hrun] at h
        simp only [Option.some.injEq, Prod.mk.injEq] at h
        rw [← h.1]
        exact ih rl2 rl3 out3 hrun (apply_reachable rl e rl2 out2 ha hr)

theorem demoLimiter_reachable : Reachable demoLimiter :=
  run_reachable loadEvents freshLimiter demoLimiter [] (by decide!) freshLimiter_reachable


/-- C11 at a sample run: three submits, three arrivals and a tick hand over two
distinct requests; a full call has each of dispatch, closure and close once. -/
theorem exactly_once_execution_witness :
    runLimiter freshLimiter (loadEvents ++ [.worker (.tick 10000000)])
      = some (demoAfterTick, [{ high with index := -1 }, { lowA with index := -1 }]) ∧
    (payloads [{ high with index := -1 }, { lowA with index := -1 }]).Nodup ∧
    [CallEvent.dispatch, .runFunction, .closeDone, .receiveDone].count .runFunction = 1 ∧
    [CallEvent.dispatch, .runFunction, .closeDone, .receiveDone].count .closeDone = 1 := by
  have h := exactly_once_execution freshLimiter (loadEvents ++ [.worker (.tick 10000000)])
    demoAfterTick [{ high with index := -1 }, { lowA with index := -1 }]
    (fun n : Nat => (2 * n, (none : Option String))) 21 0
    [.dispatch, .runFunction, .closeDone, .receiveDone]
    { result := 42, err := none, phase := .closed, returned := some (42, none) }
    (by decide!) (by simp [Throttle.run, Throttle.step, Throttle.init])
  have hc := h.2.2.2.2.2.2.2.1 rfl
  exact ⟨by decide!, (h.2.1 (by decide)).1, hc.2.1, hc.2.2⟩

/-- A burst beyond capacity in exact arithmetic, at `c = 5`, `windowSeconds = 1`, ten
requests queued: the first tick, at 10 ms, dispatches five, and nothing is dispatched
by the events up to 200 ms. -/
theorem burst_waits_for_refill_witness :
    (0 : Int) < fullLimiter.rateLimit.RequestCount ∧
    fullLimiter.rateLimit.RequestCount < (fullLimiter.queue.length : Int) ∧
    (processRequests fullLimiter (.tick 10000000)).map
        (fun r => r.2.map requestItem.function) = some [0, 1, 2, 3, 4] ∧
    ∃ rl1 out, processRequests fullLimiter (.tick 10000000) = some (rl1, out) ∧
      (out.length : Int) = fullLimiter.rateLimit.RequestCount ∧ rl1.tokens = 0 ∧
      ∀ rl2 out2, runLimiter rl1 quietEvents = some (rl2, out2) → out2 = [] :=
  ⟨by decide, by decide, by decide!,
    burst_waits_for_refill fullLimiter 10000000 quietEvents (by decide) (by decide) rfl
      (by decide!) (by decide)
      (by
        intro u hu
        simp only [quietEvents, List.mem_cons, LimiterEvent.worker.injEq, Stimulus.tick.injEq,
          reduceCtorEq, List.mem_singleton, false_or, List.not_mem_nil, or_false] at hu
        rcases hu with hu | hu <;> subst hu <;> decide!)⟩

/-- C15 at a sample state: a refill at the very time of the last one. -/
theorem refillTokens_noop_witness :
    (10000000 : Int) ≤ demoAfterTick.lastRefill ∧
      refillTokens demoAfterTick 10000000 = demoAfterTick :=
  ⟨by decide, refillTokens_noop demoAfterTick 10000000 (by decide)⟩

/-- C16 at a sample state: the first arrival at `burstLimiter`, which holds two
tokens. -/
theorem arrival_only_enqueues_witness :
    burstLimiter.worker = true ∧ 1 ≤ burstLimiter.tokens ∧
    ∃ q, heap.Push burstLimiter.queue
          { function := 1, niceness := 0, timestamp := 1000000, doneCh := 1, index := 0 }
          = some q ∧
      processRequests burstLimiter .request
        = some ({ burstLimiter with
                  requestCh :=
                    [{ function := 2, niceness := 0, timestamp := 2000000, doneCh := 2,
                       index := 0 },
                     { function := 3, niceness := 0, timestamp := 3000000, doneCh := 3,
                       index := 0 }],
                  queue := q }, []) ∧
      Multiset.ofList (payloads q)
        = requestItem.payload
            { function := 1, niceness := 0, timestamp := 1000000, doneCh := 1, index := 0 }
          ::ₘ Multiset.ofList (payloads burstLimiter.queue) ∧
      priorityQueue.Len q = priorityQueue.Len burstLimiter.queue + 1 :=
  ⟨rfl, by decide!, arrival_only_enqueues burstLimiter _ _ rfl rfl⟩

/-- C17 at sample states: `heap.Pop` fails on the empty queue, the tick of a limiter
with an empty queue and two tokens returns. -/
theorem tick_never_pops_empty_queue_witness :
    heap.Pop [] = none ∧ 1 ≤ freshLimiter.tokens ∧ freshLimiter.queue = [] ∧
    ∃ rl1 out, processRequests freshLimiter (.tick 10000000) = some (rl1, out) :=
  ⟨rfl, by decide!, rfl, tick_never_pops_empty_queue.2.2.1 freshLimiter 10000000 rfl⟩

/-- C18 (amended) at the fresh limiter. -/
theorem stop_succeeds_once_witness :
    freshLimiter.quit = false ∧
      stop freshLimiter = some { freshLimiter with quit := true } ∧
      stop { freshLimiter with quit := true } = none :=
  ⟨rfl, (stop_succeeds_once freshLimiter).1 rfl,
    (stop_succeeds_once freshLimiter).2.2 _ ((stop_succeeds_once freshLimiter).1 rfl)⟩

/-- C19 at a sample state: an empty bucket refilled at 100 ms and 300 ms. -/
theorem refillTokens_split_witness :
    (0 : Int) < demoAfterTick.rateLimit.RequestCount ∧
    (0 : Int) < demoAfterTick.rateLimit.WindowSeconds ∧
    demoAfterTick.lastRefill ≤ 100000000 ∧ (100000000 : Int) ≤ 300000000 ∧
    (refillTokens demoAfterTick 300000000).tokens = 29 / 50 ∧
    refillTokens (refillTokens demoAfterTick 100000000) 300000000
      = refillTokens demoAfterTick 300000000 :=
  ⟨by decide, by decide, by decide, by decide, by decide!,
    refillTokens_split demoAfterTick 100000000 300000000 (by decide) (by decide)
      (by decide) (by decide)⟩

/-- The burst bound in exact arithmetic at a sample run: after the tick of
`demoLimiter` at 10 ms no token is left; the tick at 520 ms dispatches one request,
and `1 ≤ 0 + 0.51 * 2 / 1`. -/
theorem token_bucket_burst_bound_witness :
    Reachable demoLimiter ∧ (10000000 : Int) ≤ 520000000 ∧
    processRequests demoLimiter (.tick 10000000)
      = some (demoAfterTick, [{ high with index := -1 }, { lowA with index := -1 }]) ∧
    runLimiter demoAfterTick [.worker (.tick 520000000)]
      = some (demoAfterRun, [{ lowB with index := -1 }]) ∧
    (([{ lowB with index := -1 }] : List requestItem).length : ℚ)
      ≤ demoAfterTick.tokens + Seconds (520000000 - 10000000)
        * (demoLimiter.rateLimit.RequestCount : ℚ)
        / (demoLimiter.rateLimit.WindowSeconds : ℚ) ∧
    (([{ lowB with index := -1 }] : List requestItem).length : ℚ)
      ≤ (demoLimiter.rateLimit.RequestCount : ℚ) + Seconds (520000000 - 10000000)
        * (demoLimiter.rateLimit.RequestCount : ℚ)
        / (demoLimiter.rateLimit.WindowSeconds : ℚ) :=
  ⟨demoLimiter_reachable, by decide, by decide!, by decide!,
    token_bucket_burst_bound demoLimiter 10000000 520000000 [.worker (.tick 520000000)]
      demoAfterTick [{ high with index := -1 }, { lowA with index := -1 }]
      demoAfterRun [{ lowB with index := -1 }]
      demoLimiter_reachable (by decide) (by decide!)
      (by
        intro u hu
        simp only [List.mem_singleton, LimiterEvent.worker.injEq, Stimulus.tick.injEq] at hu
        subst hu
        decide)
      (by decide!)⟩

/-- C13 (amended) at two queues holding the same three requests, built in
different insertion orders. -/
theorem less_strict_and_total_on_keys_witness :
    Reached demoQueue ∧ Reached otherQueue ∧
    ∃ rs rs1,
      QueueOp.run demoQueue (List.replicate demoQueue.length QueueOp.pop) = some ([], rs) ∧
      QueueOp.run otherQueue (List.replicate otherQueue.length QueueOp.pop) = some ([], rs1) ∧
      (payloads rs).Perm (payloads demoQueue) ∧
      rs.map requestItem.key = rs1.map requestItem.key ∧
      ((demoQueue.map requestItem.key).Nodup → payloads rs = payloads rs1) := by
  have hother : Reached otherQueue :=
    Reached.push [{ high with index := 0 }, { lowA with index := 1 }] lowB otherQueue
      (Reached.push [{ high with index := 0 }] lowA
        [{ high with index := 0 }, { lowA with index := 1 }]
        (Reached.push [] high [{ high with index := 0 }] Reached.empty (by decide))
        (by decide)) (by decide)
  exact ⟨demoQueue_reached, hother,
    less_strict_and_total_on_keys.2.2.2.2.2 demoQueue otherQueue demoQueue_reached hother
      (by decide)⟩

end throttler
